import Mathlib

/-!
# Verification of the CodeShare encode/decode transport

This file is a shallow embedding of the share-link codec of `src/App.tsx`:

* `encodeCode(html, css, js)` = `LZString.compressToEncodedURIComponent(JSON.stringify({html, css, js}))`
* `decodeCode(encoded)` = `try { ... JSON.parse(LZString.decompressFromEncodedURIComponent(encoded)) } catch { null }`

together with the pieces of its two library dependencies that those two
functions call: `JSON.stringify` / `JSON.parse` (ECMAScript §25.5) restricted
to the shapes that can occur here, and `LZString._compress` /
`LZString._decompress` from the `lz-string` package (v1.4.4, the canonical
implementation), whose control flow is mirrored statement by statement.

JavaScript strings are sequences of UTF-16 code units; we model them as
`List Nat`, with `CodeUnits s` recording the `< 2^16` bound where it matters.
-/

namespace CodeShare

/-- A JavaScript string: its sequence of UTF-16 code units. -/
abbrev Str := List Nat

/-- All code units of a JavaScript string are below `2^16`. -/
def CodeUnits (s : Str) : Prop := ∀ c ∈ s, c < 65536

instance (s : Str) : Decidable (CodeUnits s) :=
  List.decidableBAll _ s

/-- UTF-16 code units of one Unicode code point (Lean `Char`s are code points;
JavaScript represents astral code points as surrogate pairs). -/
def utf16Char (c : Char) : List Nat :=
  if c.toNat < 65536 then [c.toNat]
  else [55296 + (c.toNat - 65536) / 1024, 56320 + (c.toNat - 65536) % 1024]

/-- UTF-16 code units of a Lean string literal, for transcribing the
JavaScript string constants of the source. -/
def utf16 (s : String) : Str := (s.toList.map utf16Char).flatten

/-! ## The lz-string transport compressor

`LZString._compress(uncompressed, bitsPerChar, getCharFromInt)` packs a
stream of variable-width codes, least-significant bit first, into
`bitsPerChar`-bit output characters (most-significant bit of each output
character first), mapped through `getCharFromInt`. -/

/-- The URI-safe alphabet of lz-string:
`"ABCDEFGHIJKLMNOPQRSTUVWXYZabcdefghijklmnopqrstuvwxyz0123456789+-$"`
(`keyStrUriSafe`). Only its first 64 characters are ever produced by
`compressToEncodedURIComponent`, which emits 6-bit values. -/
def keyStrUriSafe : Str := utf16 "ABCDEFGHIJKLMNOPQRSTUVWXYZabcdefghijklmnopqrstuvwxyz0123456789+-$"

/-- The bit-packing accumulator of `_compress`:
`context_data` / `context_data_val` / `context_data_position`. -/
structure CData where
  data : Str
  val : Nat
  pos : Nat
  deriving Repr, DecidableEq

/-- Append one bit to the output accumulator. Mirrors the inner statements
`context_data_val = (context_data_val << 1) | bit` and the
`context_data_position` bookkeeping of `_compress`. -/
def pushBit (bpc : Nat) (charOf : Nat → Nat) (b : Nat) (st : CData) : CData :=
  let v := 2 * st.val + b
  if st.pos = bpc - 1 then
    { data := st.data ++ [charOf v], val := 0, pos := 0 }
  else
    { data := st.data, val := v, pos := st.pos + 1 }

/-- Write the low `n` bits of `value`, least-significant first. Each of the
repeated `for (i=0 ; i<n ; i++) { ... value = value >> 1 }` blocks of
`_compress` is an instance of this loop. -/
def writeValue (bpc : Nat) (charOf : Nat → Nat) : Nat → Nat → CData → CData
  | 0, _, st => st
  | n + 1, value, st =>
      writeValue bpc charOf n (value / 2) (pushBit bpc charOf (value % 2) st)

/-- The dictionary state of `_compress`: `context_dictionary` (an object keyed
by strings, here an association list), `context_dictionaryToCreate` (a set of
keys), `context_w`, `context_enlargeIn`, `context_dictSize`,
`context_numBits`, and the output accumulator. -/
structure CCtx where
  dict : List (Str × Nat)
  toCreate : List Str
  w : Str
  enlargeIn : Nat
  dictSize : Nat
  numBits : Nat
  out : CData
  deriving Repr

/-- `context_enlargeIn--` followed by
`if (context_enlargeIn == 0) { context_enlargeIn = 2^context_numBits; context_numBits++ }`. -/
def applyBump (ctx : CCtx) : CCtx :=
  if ctx.enlargeIn - 1 = 0 then
    { ctx with enlargeIn := 2 ^ ctx.numBits, numBits := ctx.numBits + 1 }
  else
    { ctx with enlargeIn := ctx.enlargeIn - 1 }

/-- The body of `if (Object.prototype.hasOwnProperty.call(context_dictionaryToCreate, context_w))`
in `_compress`: emit the code for the pending phrase `context_w` — either a
character-introduction code (prefix `0` for code units `< 256` followed by 8
raw bits, prefix `1` followed by 16 raw bits otherwise), or a plain dictionary
reference. The `[]` case of `w` is unreachable (see `emitW` call sites); in it
the source computes `"".charCodeAt(0)`, i.e. `NaN`, fails `NaN < 256` and
writes `NaN`'s bits, which all read as zero. A missing dictionary key likewise
reads as `undefined`, whose bits are zero, hence `.getD 0`. -/
def produceW (bpc : Nat) (charOf : Nat → Nat) (ctx : CCtx) : CCtx :=
  if ctx.toCreate.contains ctx.w then
    applyBump
      { (match ctx.w with
         | c0 :: _ =>
           if c0 < 256 then
             { ctx with out := writeValue bpc charOf 8 c0
                               (writeValue bpc charOf ctx.numBits 0 ctx.out) }
           else
             { ctx with out := writeValue bpc charOf 16 c0
                               (writeValue bpc charOf ctx.numBits 1 ctx.out) }
         | [] =>
             { ctx with out := writeValue bpc charOf 16 0
                               (writeValue bpc charOf ctx.numBits 1 ctx.out) }) with
        toCreate := ctx.toCreate.erase ctx.w }
  else
    { ctx with out := writeValue bpc charOf ctx.numBits
                      ((ctx.dict.lookup ctx.w).getD 0) ctx.out }

/-- Emission of `context_w` followed by the shared
`context_enlargeIn--; if (context_enlargeIn == 0) {...}` epilogue. This block
appears twice in `_compress`: at a dictionary mismatch inside the loop and
once more after the loop. -/
def emitW (bpc : Nat) (charOf : Nat → Nat) (ctx : CCtx) : CCtx :=
  applyBump (produceW bpc charOf ctx)

/-- The `if (!hasOwnProperty(context_dictionary, context_c))` block at the
top of the loop body of `_compress`: a first-seen code unit is assigned the
next dictionary code and marked pending in `context_dictionaryToCreate`. -/
def compressStepA (ctx : CCtx) (c : Nat) : CCtx :=
  if (ctx.dict.lookup [c]).isSome then ctx
  else { ctx with dict := ([c], ctx.dictSize) :: ctx.dict,
                  dictSize := ctx.dictSize + 1,
                  toCreate := [c] :: ctx.toCreate }

/-- The rest of the loop body: extend the match `context_w` by `c` if the
extension is a known phrase; otherwise emit `context_w`, add the extension
to the dictionary and restart the match at `c`. (`emitW` touches none of
`dict`, `dictSize`, `w`, so reading them before or after it is the same.) -/
def compressStepB (bpc : Nat) (charOf : Nat → Nat) (ctx : CCtx) (c : Nat) : CCtx :=
  if (ctx.dict.lookup (ctx.w ++ [c])).isSome then
    { ctx with w := ctx.w ++ [c] }
  else
    let ctx1 := emitW bpc charOf ctx
    { ctx1 with dict := (ctx.w ++ [c], ctx1.dictSize) :: ctx1.dict,
                dictSize := ctx1.dictSize + 1,
                w := [c] }

/-- One iteration of the main `for` loop of `_compress`, processing the code
unit `c` (`context_c`). -/
def compressStep (bpc : Nat) (charOf : Nat → Nat) (ctx : CCtx) (c : Nat) : CCtx :=
  compressStepB bpc charOf (compressStepA ctx c) c

/-- The flush at the end of `_compress`: left-shift until the partial output
character is full, then push it. The source's `while (true)` runs at most
`bpc` times because `context_data_position < bpc`; the fuel argument makes
that explicit. -/
def flushData (bpc : Nat) (charOf : Nat → Nat) : Nat → CData → Str
  | 0, st => st.data
  | k + 1, st =>
      let v := 2 * st.val
      if st.pos = bpc - 1 then st.data ++ [charOf v]
      else flushData bpc charOf k { data := st.data, val := v, pos := st.pos + 1 }

/-- `LZString._compress(uncompressed, bitsPerChar, getCharFromInt)`. -/
def lzCompress (bpc : Nat) (charOf : Nat → Nat) (input : Str) : Str :=
  let init : CCtx :=
    { dict := [], toCreate := [], w := [], enlargeIn := 2, dictSize := 3,
      numBits := 2, out := { data := [], val := 0, pos := 0 } }
  let ctx := input.foldl (compressStep bpc charOf) init
  let ctx := if ctx.w ≠ [] then emitW bpc charOf ctx else ctx
  let out := writeValue bpc charOf ctx.numBits 2 ctx.out
  flushData bpc charOf bpc out

/-- `getCharFromInt` of `compressToEncodedURIComponent`:
`keyStrUriSafe.charAt(a)`. -/
def charOfUriSafe (a : Nat) : Nat := keyStrUriSafe.getD a 0

/-- `LZString.compressToEncodedURIComponent` (the `input == null` case cannot
arise: the argument is always a string here). -/
def compressToEncodedURIComponent (input : Str) : Str :=
  lzCompress 6 charOfUriSafe input

/-! ## The lz-string decompressor

`LZString._decompress(length, resetValue, getNextValue)`. The bit reader keeps
the current input character's value in `data.val`; reading a character outside
the alphabet (or past the end of the input) yields `undefined` in the source,
every bitwise AND with which is `0` — modelled by `Option Nat` with `none`
reading as zero bits. -/

/-- The bit-reader state of `_decompress`: `data.val`, `data.position`,
`data.index`. -/
structure DData where
  val : Option Nat
  pos : Nat
  index : Nat
  deriving Repr, DecidableEq

/-- `getBaseValue(alphabet, character)`: position of the character in the
alphabet, `undefined` (here `none`) if absent. The alphabet has no repeated
characters, so the source's last-write-wins reverse dictionary agrees with
the first index. -/
def getBaseValue (alphabet : Str) (c : Nat) : Option Nat :=
  alphabet.indexOf? c

/-- Read one bit: `resb = data.val & data.position; data.position >>= 1;`
with reload of the next input character when the position mask is exhausted. -/
def readBit (rv : Nat) (next : Nat → Option Nat) (st : DData) : Nat × DData :=
  let resb := match st.val with | some v => v &&& st.pos | none => 0
  let b := if resb > 0 then 1 else 0
  let pos' := st.pos / 2
  if pos' = 0 then
    (b, { val := next st.index, pos := rv, index := st.index + 1 })
  else
    (b, { st with pos := pos' })

/-- Read `n` bits, least-significant first: each of the
`while (power != maxpower)` blocks of `_decompress`. -/
def readBits (rv : Nat) (next : Nat → Option Nat) : Nat → DData → Nat × DData
  | 0, st => (0, st)
  | n + 1, st =>
      let (b, st1) := readBit rv next st
      let (rest, st2) := readBits rv next n st1
      (b + 2 * rest, st2)

/-- Outcome of `_decompress`. `done none` is the source's `return null`,
`done (some s)` a returned string. `abnormal` is the path where the first
2-bit code is `3`: the source's `switch` then leaves `c` `undefined`, and
every continuation either throws a `TypeError` (`w.charAt` on `undefined`,
caught by `decodeCode`'s `try`) or joins `undefined` into the result, giving
a string starting with the text `undefined`, which `JSON.parse` rejects —
`decodeCode` maps all of these to `null`. `fuelOut` never occurs
(`decompressLoop_no_fuelOut`). -/
inductive DecOut where
  | done (r : Option Str)
  | abnormal
  | fuelOut
  deriving Repr, DecidableEq

/-- The loop state of `_decompress`: `dictionary` (an array, always written
at index `dictSize = dictionary.length`, hence a list), `enlargeIn`,
`dictSize`, `numBits`, `result`, `w`, and the bit reader. The source
initialises slots 0–2 of `dictionary` with the numbers 0, 1 and 2; they are
only ever read through a code `c ≥ 3` (codes 0–2 are consumed by the
`switch`), so they are modelled by empty-string dummies. -/
structure DState where
  dictionary : List Str
  enlargeIn : Nat
  dictSize : Nat
  numBits : Nat
  result : List Str
  w : Str
  rd : DData
  deriving Repr, DecidableEq

/-- The part of the loop body after the `switch (c = bits)`: optional
code-width growth, entry resolution (with the `c === dictSize` special case),
output of the entry, the new dictionary phrase `w + entry.charAt(0)`, and the
second width check. `none` is the source's `return null`; `some st` continues
the loop with the updated state. `if (dictionary[c])` tests JavaScript
truthiness: `undefined` (index out of range) and the empty string read as
false. -/
def growWidth (st : DState) : DState :=
  if st.enlargeIn = 0 then
    { st with enlargeIn := 2 ^ st.numBits, numBits := st.numBits + 1 }
  else st

def decompressTailState (c : Nat) (st1 : DState) : Option DState :=
  let st2 := growWidth st1
  let lk := (st2.dictionary.get? c).getD []
  if lk = [] ∧ c ≠ st2.dictSize then none
  else
    let entry := if lk ≠ [] then lk else st2.w ++ st2.w.take 1
    some (growWidth
      { st2 with result := st2.result ++ [entry],
                 dictionary := st2.dictionary ++ [st2.w ++ entry.take 1],
                 dictSize := st2.dictSize + 1,
                 enlargeIn := st2.enlargeIn - 1,
                 w := entry })

/-- The `switch (c = bits)` of the loop body: `some (c, st)` falls through to
the common tail with code `c`, `none` is the `case 2` return. The
character-introduction cases read 8 or 16 further bits and intern the fresh
character at `dictSize++`. -/
def decompressSwitch (rv : Nat) (next : Nat → Option Nat) (bits : Nat)
    (rd1 : DData) (st0 : DState) : Option (Nat × DState) :=
  match bits with
  | 2 => none
  | 0 =>
      let (cb, rd2) := readBits rv next 8 rd1
      some (st0.dictSize,
        { st0 with rd := rd2, dictionary := st0.dictionary ++ [[cb]],
                   dictSize := st0.dictSize + 1,
                   enlargeIn := st0.enlargeIn - 1 })
  | 1 =>
      let (cb, rd2) := readBits rv next 16 rd1
      some (st0.dictSize,
        { st0 with rd := rd2, dictionary := st0.dictionary ++ [[cb]],
                   dictSize := st0.dictSize + 1,
                   enlargeIn := st0.enlargeIn - 1 })
  | c => some (c, { st0 with rd := rd1 })

/-- The `while (true)` loop of `_decompress`. The fuel argument makes
termination explicit; `decompressLoop_no_fuelOut` shows the source's loop
always returns. -/
def decompressLoop (len rv : Nat) (next : Nat → Option Nat) :
    Nat → DState → DecOut
  | 0, _ => .fuelOut
  | fuel + 1, st0 =>
    if st0.rd.index > len then .done (some []) else
    let (bits, rd1) := readBits rv next st0.numBits st0.rd
    match decompressSwitch rv next bits rd1 st0 with
    | none => .done (some st0.result.flatten)
    | some (c, st1) =>
      match decompressTailState c st1 with
      | none => .done none
      | some st4 => decompressLoop len rv next fuel st4

/-- Entry into the main loop of `_decompress` after the first character has
been read: `dictionary[3] = c; w = c; result.push(c);`. The fuel `2*len + 16`
is enough for the loop to reach one of its `return`s
(`decompressLoop_no_fuelOut`). -/
def decompressRun (len rv : Nat) (next : Nat → Option Nat)
    (c : Str) (rd : DData) : DecOut :=
  decompressLoop len rv next (2 * len + 16)
    { dictionary := [[], [], [], c], enlargeIn := 4, dictSize := 4,
      numBits := 3, result := [c], w := c, rd := rd }

/-- `LZString._decompress(length, resetValue, getNextValue)`: initial read of
a 2-bit code selecting an 8-bit character (`0`), a 16-bit character (`1`),
the empty string (`2`), or — for input that is not compressor output — the
abnormal `undefined` continuation (`3`). -/
def lzDecompress (len rv : Nat) (next : Nat → Option Nat) : DecOut :=
  let rd0 : DData := { val := next 0, pos := rv, index := 1 }
  let (bits, rd1) := readBits rv next 2 rd0
  match bits with
  | 0 =>
      let (cb, rd2) := readBits rv next 8 rd1
      decompressRun len rv next [cb] rd2
  | 1 =>
      let (cb, rd2) := readBits rv next 16 rd1
      decompressRun len rv next [cb] rd2
  | 2 => .done (some [])
  | _ => .abnormal

/-- `getNextValue` of `decompressFromEncodedURIComponent`:
`getBaseValue(keyStrUriSafe, input.charAt(index))`; `charAt` past the end
yields the empty string, which is not in the alphabet. -/
def nextUriVal (input : Str) (i : Nat) : Option Nat :=
  match input.get? i with
  | some c => getBaseValue keyStrUriSafe c
  | none => none

/-- `LZString.decompressFromEncodedURIComponent`: empty input returns `null`;
otherwise spaces are turned back into `+` and `_decompress` runs with
`resetValue = 32`. (The `input == null` case cannot arise here.) -/
def decompressFromEncodedURIComponent (input : Str) : DecOut :=
  if input = [] then .done none
  else
    let input := input.map (fun c => if c = 32 then 43 else c)
    lzDecompress input.length 32 (nextUriVal input)

/-! ## JSON

`encodeCode` serializes with `JSON.stringify({html, css, js})`, `decodeCode`
parses with `JSON.parse`. Values are modelled by `JValue`; a JSON number is
kept as its source lexeme (none of the verified properties depends on the
numeric value of a parsed number — the payloads produced by `encodeCode`
contain no numbers at all). -/

/-- A JavaScript JSON value. Object members are kept in property insertion
order with duplicate keys resolved last-write-wins, as `JSON.parse` does. -/
inductive JValue where
  | null
  | bool (b : Bool)
  | num (lexeme : Str)
  | str (s : Str)
  | arr (elems : List JValue)
  | obj (members : List (Str × JValue))

/-- Lowercase hexadecimal digit, as produced by `Number::toString(16)`. -/
def hexDigit (n : Nat) : Nat := if n < 10 then 48 + n else 87 + n

/-- `UnicodeEscape(C)` of ECMAScript `QuoteJSONString`: `\uXXXX` with four
lowercase hex digits. -/
def unicodeEscape (c : Nat) : Str :=
  [92, 117, hexDigit (c / 4096 % 16), hexDigit (c / 256 % 16),
   hexDigit (c / 16 % 16), hexDigit (c % 16)]

/-- Is `c` a leading (high) surrogate code unit? -/
def isLeadSurrogate (c : Nat) : Bool := 55296 ≤ c && c ≤ 56319

/-- Is `c` a trailing (low) surrogate code unit? -/
def isTrailSurrogate (c : Nat) : Bool := 56320 ≤ c && c ≤ 57343

/-- The escape of one code unit in ECMAScript `QuoteJSONString`, for a unit
that does not begin a surrogate pair: short escapes for `"` `\` and the five
named control characters, `\uXXXX` for other code units below `0x20` and for
unpaired surrogates, the unit itself otherwise. -/
def escChar (c : Nat) : Str :=
  if c = 34 then [92, 34]
  else if c = 92 then [92, 92]
  else if c = 8 then [92, 98]
  else if c = 9 then [92, 116]
  else if c = 10 then [92, 110]
  else if c = 12 then [92, 102]
  else if c = 13 then [92, 114]
  else if c < 32 then unicodeEscape c
  else if isLeadSurrogate c then unicodeEscape c
  else if isTrailSurrogate c then unicodeEscape c
  else [c]

/-- The body of ECMAScript `QuoteJSONString` (ES2019 well-formed
`JSON.stringify`): surrogate pairs pass through; every other code unit is
encoded by `escChar`. -/
def quoteBody : Str → Str
  | [] => []
  | [c] => escChar c
  | c :: d :: rest =>
    if isLeadSurrogate c && isTrailSurrogate d then c :: d :: quoteBody rest
    else escChar c ++ quoteBody (d :: rest)

/-- ECMAScript `QuoteJSONString`: the escaped body between two quotes. -/
def quoteJSONString (s : Str) : Str := 34 :: (quoteBody s ++ [34])

/-- `JSON.stringify({html, css, js})` for string-valued fields: members in
property insertion order `html`, `css`, `js`, with no whitespace. This is the
intermediate "payload" string of `encodeCode`. -/
def stringifyDoc (html css js : Str) : Str :=
  [123] ++ quoteJSONString (utf16 "html") ++ [58] ++ quoteJSONString html
        ++ [44] ++ quoteJSONString (utf16 "css") ++ [58] ++ quoteJSONString css
        ++ [44] ++ quoteJSONString (utf16 "js") ++ [58] ++ quoteJSONString js
        ++ [125]

/-! ### `JSON.parse`

A recursive-descent reading of the JSON grammar (ECMA-404, as fixed by
ECMAScript `25.5.1`): whitespace is tab, line feed, carriage return and
space; strings take the nine escapes and reject raw control characters;
numbers are `-? int frac? exp?`. The parser is total by structural recursion
on a fuel argument; `jsonParse` supplies fuel `|s| + 1`, which is enough
because every recursive descent first consumes at least one input character
(`parse_fuel_enough`). -/

/-- Result of a parsing function: a parsed value with the remaining input,
a syntax error, or fuel exhaustion (the last never occurs at the fuel used
by `jsonParse`). -/
inductive PR (α : Type) where
  | ok (a : α) (rest : Str)
  | err
  | out
  deriving Repr

/-- JSON whitespace. -/
def isJsonWs (c : Nat) : Bool := c = 9 || c = 10 || c = 13 || c = 32

/-- Drop leading JSON whitespace. -/
def skipWs : Str → Str
  | [] => []
  | c :: rest => if isJsonWs c then skipWs rest else c :: rest

/-- ASCII digit. -/
def isDigit (c : Nat) : Bool := 48 ≤ c && c ≤ 57

/-- Split leading digits. -/
def takeDigits : Str → Str × Str
  | [] => ([], [])
  | c :: rest =>
    if isDigit c then
      let (ds, r) := takeDigits rest
      (c :: ds, r)
    else ([], c :: rest)

/-- Value of a hex digit of a `\u` escape (case-insensitive), if any. -/
def hexVal (c : Nat) : Option Nat :=
  if 48 ≤ c ∧ c ≤ 57 then some (c - 48)
  else if 97 ≤ c ∧ c ≤ 102 then some (c - 87)
  else if 65 ≤ c ∧ c ≤ 70 then some (c - 55)
  else none

/-- The single-character escapes of a JSON string:
`\" \\ \/ \b \f \n \r \t`. -/
def escMap (e : Nat) : Option Nat :=
  if e = 34 ∨ e = 92 ∨ e = 47 then some e
  else if e = 98 then some 8
  else if e = 102 then some 12
  else if e = 110 then some 10
  else if e = 114 then some 13
  else if e = 116 then some 9
  else none

/-- Prepend a decoded code unit to a successful parse. -/
def consOk (c : Nat) : PR Str → PR Str
  | .ok s r => .ok (c :: s) r
  | o => o

/-- Parse the remainder of a JSON string (after the opening quote):
the nine escapes, rejection of raw control characters, all other code units
(unpaired surrogates included) taken verbatim. Returns the decoded code
units and the input after the closing quote. -/
def parseStringRest : Str → PR Str
  | [] => .err
  | c :: rest =>
    if c = 34 then .ok [] rest
    else if c = 92 then
      match rest with
      | [] => .err
      | 117 :: h1 :: h2 :: h3 :: h4 :: rest' =>
        (match hexVal h1, hexVal h2, hexVal h3, hexVal h4 with
         | some v1, some v2, some v3, some v4 =>
             consOk (v1 * 4096 + v2 * 256 + v3 * 16 + v4) (parseStringRest rest')
         | _, _, _, _ => .err)
      | e :: rest' =>
        (match escMap e with
         | some u => consOk u (parseStringRest rest')
         | none => .err)
    else if c < 32 then .err
    else consOk c (parseStringRest rest)

/-- Split an optional leading sign (`+` or `-`) off an exponent. -/
def splitSign (s : Str) : Str × Str :=
  match s with
  | 43 :: r => ([43], r)
  | 45 :: r => ([45], r)
  | r => ([], r)

/-- The exponent part of a JSON number, after the `e`/`E` (given as `e`):
optional sign, then at least one digit. -/
def parseExpTail (lex : Str) (e : Nat) (s : Str) : PR Str :=
  match takeDigits (splitSign s).2 with
  | ([], _) => .err
  | (ds, r') => .ok (lex ++ e :: (splitSign s).1 ++ ds) r'

/-- Optional exponent of a JSON number. -/
def parseExpOpt (lex : Str) (s : Str) : PR Str :=
  match s with
  | 101 :: r => parseExpTail lex 101 r
  | 69 :: r => parseExpTail lex 69 r
  | _ => .ok lex s

/-- Optional fraction (a `.` must be followed by at least one digit), then
optional exponent. -/
def parseFracExp (lex : Str) (s : Str) : PR Str :=
  match s with
  | 46 :: r =>
    (match takeDigits r with
     | ([], _) => .err
     | (ds, r') => parseExpOpt (lex ++ 46 :: ds) r')
  | _ => parseExpOpt lex s

/-- Split an optional leading minus sign off a number. -/
def splitNeg (s : Str) : Str × Str :=
  match s with
  | 45 :: r => ([45], r)
  | r => ([], r)

/-- Parse a JSON number starting at the current position, returning its
lexeme: `-? (0 | [1-9][0-9]*) frac? exp?`. -/
def parseNumberLex (s : Str) : PR Str :=
  match (splitNeg s).2 with
  | [] => .err
  | c :: r =>
    if c = 48 then
      parseFracExp ((splitNeg s).1 ++ [48]) r
    else if isDigit c then
      parseFracExp ((splitNeg s).1 ++ c :: (takeDigits r).1) (takeDigits r).2
    else .err

/-- Match a literal keyword. -/
def expectLit : Str → Str → Option Str
  | [], s => some s
  | c :: k, d :: s => if c = d then expectLit k s else none
  | _ :: _, [] => none

/-- JavaScript property assignment `obj[key] = v` on an insertion-ordered
member list: overwrite in place if present, else append. -/
def insertMember (acc : List (Str × JValue)) (key : Str) (v : JValue) :
    List (Str × JValue) :=
  match acc with
  | [] => [(key, v)]
  | (k, w) :: rest =>
      if k = key then (k, v) :: rest else (k, w) :: insertMember rest key v

mutual

/-- Parse a JSON value whose first character is at the head of the input
(whitespace already consumed by the caller). -/
def parseValue : Nat → Str → PR JValue
  | 0, _ => .out
  | fuel + 1, s =>
    match s with
    | [] => .err
    | 123 :: rest => parseObjectBody fuel rest
    | 91 :: rest => parseArrayBody fuel rest
    | 34 :: rest =>
      (match parseStringRest rest with
       | .ok str r => .ok (.str str) r
       | .err => .err
       | .out => .out)
    | 116 :: rest =>
      (match expectLit (utf16 "rue") rest with
       | some r => .ok (.bool true) r
       | none => .err)
    | 102 :: rest =>
      (match expectLit (utf16 "alse") rest with
       | some r => .ok (.bool false) r
       | none => .err)
    | 110 :: rest =>
      (match expectLit (utf16 "ull") rest with
       | some r => .ok .null r
       | none => .err)
    | c :: _ =>
      if c = 45 ∨ isDigit c then
        match parseNumberLex s with
        | .ok lex r => .ok (.num lex) r
        | .err => .err
        | .out => .out
      else .err

/-- Parse the inside of an object, after the `{`. -/
def parseObjectBody : Nat → Str → PR JValue
  | 0, _ => .out
  | fuel + 1, s =>
    match skipWs s with
    | 125 :: rest => .ok (.obj []) rest
    | s' => parseMembers fuel s' []

/-- Parse object members (the cursor is at the first character of a member's
key string, whitespace already skipped), accumulating with JavaScript
property-assignment semantics: a repeated key overwrites in place. -/
def parseMembers : Nat → Str → List (Str × JValue) → PR JValue
  | 0, _, _ => .out
  | fuel + 1, s, acc =>
    match s with
    | 34 :: rest =>
      (match parseStringRest rest with
       | .ok key r1 =>
         (match skipWs r1 with
          | 58 :: r2 =>
            (match parseValue fuel (skipWs r2) with
             | .ok v r3 =>
               let acc' := insertMember acc key v
               (match skipWs r3 with
                | 44 :: r4 => parseMembers fuel (skipWs r4) acc'
                | 125 :: r4 => .ok (.obj acc') r4
                | _ => .err)
             | .err => .err
             | .out => .out)
          | _ => .err)
       | .err => .err
       | .out => .out)
    | _ => .err

/-- Parse the inside of an array, after the `[`. -/
def parseArrayBody : Nat → Str → PR JValue
  | 0, _ => .out
  | fuel + 1, s =>
    match skipWs s with
    | 93 :: rest => .ok (.arr []) rest
    | s' => parseElements fuel s' []

/-- Parse array elements (cursor at the first character of an element,
whitespace already skipped). -/
def parseElements : Nat → Str → List JValue → PR JValue
  | 0, _, _ => .out
  | fuel + 1, s, acc =>
    match parseValue fuel s with
    | .ok v r1 =>
      (match skipWs r1 with
       | 44 :: r2 => parseElements fuel (skipWs r2) (acc ++ [v])
       | 93 :: r2 => .ok (.arr (acc ++ [v])) r2
       | _ => .err)
    | .err => .err
    | .out => .out

end

/-- `JSON.parse(text)`: parse one value surrounded by optional whitespace;
trailing input is a syntax error. `none` models a thrown `SyntaxError`. The
fuel `3*|text| + 3` is enough for the whole parse, because each nested
descent into `parseValue` follows the consumption of at least one input
character, at no more than three fuel decrements per character. -/
def jsonParse (text : Str) : Option JValue :=
  match parseValue (3 * text.length + 3) (skipWs text) with
  | .ok v rest => if skipWs rest = [] then some v else none
  | _ => none

/-! ## The codec of `App.tsx` -/

/-- `encodeCode(html, css, js)` from `App.tsx`:
`LZString.compressToEncodedURIComponent(JSON.stringify({ html, css, js }))`. -/
def encodeCode (html css js : Str) : Str :=
  compressToEncodedURIComponent (stringifyDoc html css js)

/-- The result of `decodeCode` together with the evidence that no fuel ran
out anywhere inside it (`decodeCodeR_not_fuelOut`): `ok r` is the source's
return value (`none` = `null`), `fuelOut` marks exhaustion of one of the
explicit fuels of the model. -/
inductive DecodeOutcome where
  | ok (r : Option JValue)
  | fuelOut

/-- `decodeCode(encoded)` from `App.tsx`, instrumented with the fuel marker:
`decompressFromEncodedURIComponent`, then the `if (!data) return null`
falsiness check (both `null` and the empty string are falsy), then
`JSON.parse` inside `try { ... } catch { return null }`. The decompressor's
`abnormal` outcome also yields `null`: its continuation in the source either
throws (caught here) or produces a result string beginning with the coerced
text `undefined`, which `JSON.parse` rejects. -/
def decodeCodeR (encoded : Str) : DecodeOutcome :=
  match decompressFromEncodedURIComponent encoded with
  | .fuelOut => .fuelOut
  | .abnormal => .ok none
  | .done none => .ok none
  | .done (some []) => .ok none
  | .done (some data) =>
    match parseValue (3 * data.length + 3) (skipWs data) with
    | .out => .fuelOut
    | .ok v rest => .ok (if skipWs rest = [] then some v else none)
    | .err => .ok none

/-- `decodeCode(encoded)` from `App.tsx`: a `Document` shaped JSON value, or
`null` (`none`). The parsed value is returned without shape validation, just
as in the source. -/
def decodeCode (encoded : Str) : Option JValue :=
  match decodeCodeR encoded with
  | .ok r => r
  | .fuelOut => none

/-- The JSON value of a decoded Document as `decodeCode` returns it for a
well-formed token: `{ html: ..., css: ..., js: ... }`. -/
def docValue (html css js : Str) : JValue :=
  .obj [(utf16 "html", .str html), (utf16 "css", .str css),
        (utf16 "js", .str js)]

/-! ## Link assembly and loading (`generateLink` and the hash-loading
effect of `App`) -/

/-- `generateLink(viewOnly)` from `App.tsx`:
`` `${origin}${pathname}${viewOnly ? "#view/" : "#"}${encodeCode(html, css, js)}` ``. -/
def generateLink (origin pathname : Str) (viewOnly : Bool)
    (html css js : Str) : Str :=
  origin ++ pathname ++ (if viewOnly then utf16 "#view/" else utf16 "#")
         ++ encodeCode html css js

/-- The fragment (`window.location.hash.slice(1)`) of a link produced by
`generateLink`: everything after the `#`. -/
def fragmentOf (viewOnly : Bool) (html css js : Str) : Str :=
  (if viewOnly then utf16 "view/" else []) ++ encodeCode html css js

/-- The hash-loading effect of `App`: given the fragment, detect
`hash.startsWith("view/")`, strip the five-character prefix when present,
and decode the rest. Returns the decoded value (if any) and whether
view-only mode was requested. -/
def loadFromHash (hash : Str) : Option JValue × Bool :=
  let isViewOnly := (utf16 "view/").isPrefixOf hash
  let encoded := if isViewOnly then hash.drop 5 else hash
  (decodeCode encoded, isViewOnly)

/-! ## Alphabet safety

Every character the compressor emits is `charOfUriSafe v` for some `v < 64`,
hence a letter, a digit, `+` or `-` — all legal in a URL fragment without
percent-encoding. -/

/-- The URL-fragment-safe output alphabet: ASCII letters, digits, `+` (43)
and `-` (45). These are the first 64 characters of `keyStrUriSafe`. -/
def UriFragmentSafe (c : Nat) : Prop :=
  (65 ≤ c ∧ c ≤ 90) ∨ (97 ≤ c ∧ c ≤ 122) ∨ (48 ≤ c ∧ c ≤ 57) ∨ c = 43 ∨ c = 45

instance (c : Nat) : Decidable (UriFragmentSafe c) := by
  unfold UriFragmentSafe; infer_instance

/-- A well-formed bit accumulator with URL-safe output so far. -/
def SafeData (st : CData) : Prop :=
  (∀ c ∈ st.data, UriFragmentSafe c) ∧ st.val < 2 ^ st.pos ∧ st.pos < 6

theorem charOfUriSafe_safe_ball : ∀ v < 64, UriFragmentSafe (charOfUriSafe v) := by
  decide

theorem charOfUriSafe_safe {v : Nat} (h : v < 64) :
    UriFragmentSafe (charOfUriSafe v) :=
  charOfUriSafe_safe_ball v h

theorem pushBit_safe {b : Nat} (hb : b ≤ 1) {st : CData} (h : SafeData st) :
    SafeData (pushBit 6 charOfUriSafe b st) := by
  obtain ⟨hdata, hval, hpos⟩ := h
  have hpow : (2 : Nat) ^ (st.pos + 1) = 2 * 2 ^ st.pos := by
    rw [pow_succ]; ring
  unfold pushBit
  by_cases h5 : st.pos = 6 - 1
  · simp only [if_pos h5]
    refine ⟨?_, by norm_num, by norm_num⟩
    intro c hc
    rcases List.mem_append.mp hc with hm | hm
    · exact hdata c hm
    · rcases List.mem_singleton.mp hm with rfl
      refine charOfUriSafe_safe ?_
      have h32 : st.val < 32 := by
        have : st.pos = 5 := by omega
        rw [this] at hval; simpa using hval
      omega
  · simp only [if_neg h5]
    refine ⟨hdata, ?_, ?_⟩
    · show 2 * st.val + b < 2 ^ (st.pos + 1)
      omega
    · show st.pos + 1 < 6
      omega

theorem writeValue_safe (n v : Nat) {st : CData} (h : SafeData st) :
    SafeData (writeValue 6 charOfUriSafe n v st) := by
  induction n generalizing v st with
  | zero => exact h
  | succ k ih =>
      exact ih (v / 2) (pushBit_safe (Nat.le_of_lt_succ (Nat.mod_lt v (by norm_num))) h)

theorem applyBump_out (ctx : CCtx) : (applyBump ctx).out = ctx.out := by
  unfold applyBump; split <;> rfl

theorem produceW_safe (ctx : CCtx) (h : SafeData ctx.out) :
    SafeData (produceW 6 charOfUriSafe ctx).out := by
  unfold produceW
  by_cases hc : ctx.toCreate.contains ctx.w
  · simp only [if_pos hc, applyBump_out]
    rcases hw : ctx.w with _ | ⟨c0, w'⟩ <;> simp only [hw]
    · exact writeValue_safe _ _ (writeValue_safe _ _ h)
    · by_cases h256 : c0 < 256
      · simp only [if_pos h256]
        exact writeValue_safe _ _ (writeValue_safe _ _ h)
      · simp only [if_neg h256]
        exact writeValue_safe _ _ (writeValue_safe _ _ h)
  · simp only [if_neg hc]
    exact writeValue_safe _ _ h

theorem emitW_safe (ctx : CCtx) (h : SafeData ctx.out) :
    SafeData (emitW 6 charOfUriSafe ctx).out := by
  unfold emitW
  rw [applyBump_out]
  exact produceW_safe ctx h

theorem compressStepA_out (ctx : CCtx) (c : Nat) :
    (compressStepA ctx c).out = ctx.out := by
  unfold compressStepA; split <;> rfl

theorem compressStep_safe (ctx : CCtx) (c : Nat) (h : SafeData ctx.out) :
    SafeData (compressStep 6 charOfUriSafe ctx c).out := by
  unfold compressStep compressStepB
  have hA : SafeData (compressStepA ctx c).out := by rw [compressStepA_out]; exact h
  split
  · exact hA
  · exact emitW_safe _ hA

theorem foldl_compressStep_safe (s : Str) (ctx : CCtx) (h : SafeData ctx.out) :
    SafeData (List.foldl (compressStep 6 charOfUriSafe) ctx s).out := by
  induction s generalizing ctx with
  | nil => exact h
  | cons c rest ih => exact ih _ (compressStep_safe ctx c h)

theorem flushData_safe (k : Nat) (st : CData) (h : SafeData st) :
    ∀ c ∈ flushData 6 charOfUriSafe k st, UriFragmentSafe c := by
  induction k generalizing st with
  | zero => exact fun c hc => h.1 c hc
  | succ m ih =>
      obtain ⟨hdata, hval, hpos⟩ := h
      have hpow : (2 : Nat) ^ (st.pos + 1) = 2 * 2 ^ st.pos := by
        rw [pow_succ]; ring
      unfold flushData
      by_cases h5 : st.pos = 6 - 1
      · simp only [if_pos h5]
        intro c hc
        rcases List.mem_append.mp hc with hm | hm
        · exact hdata c hm
        · rcases List.mem_singleton.mp hm with rfl
          refine charOfUriSafe_safe ?_
          have h32 : st.val < 32 := by
            have : st.pos = 5 := by omega
            rw [this] at hval; simpa using hval
          omega
      · simp only [if_neg h5]
        refine ih _ ⟨hdata, ?_, ?_⟩
        · show 2 * st.val < 2 ^ (st.pos + 1)
          omega
        · show st.pos + 1 < 6
          omega

/-- Every character of `compressToEncodedURIComponent`'s output is in the
URL-fragment-safe alphabet. -/
theorem compress_chars_safe (input : Str) :
    ∀ c ∈ compressToEncodedURIComponent input, UriFragmentSafe c := by
  unfold compressToEncodedURIComponent lzCompress
  refine flushData_safe _ _ (writeValue_safe _ _ ?_)
  have hinit : SafeData { data := [], val := 0, pos := 0 } := by
    refine ⟨by simp, by norm_num, by norm_num⟩
  split
  · exact emitW_safe _ (foldl_compressStep_safe input _ hinit)
  · exact foldl_compressStep_safe input _ hinit

/-- Every character of `encodeCode`'s output is in the URL-fragment-safe
alphabet. -/
theorem encodeCode_chars_safe (html css js : Str) :
    ∀ c ∈ encodeCode html css js, UriFragmentSafe c :=
  compress_chars_safe (stringifyDoc html css js)

/-! ## JSON round trip

`JSON.parse` inverts `JSON.stringify` on the Document payloads. -/

theorem hexVal_hexDigit : ∀ x < 16, hexVal (hexDigit x) = some x := by decide

/-- A non-special code unit parses as itself. -/
theorem parseStringRest_raw (c : Nat) (h34 : c ≠ 34) (h92 : c ≠ 92)
    (h32 : ¬ c < 32) (r : Str) :
    parseStringRest (c :: r) = consOk c (parseStringRest r) := by
  rw [parseStringRest.eq_def]
  simp only [if_neg h34, if_neg h92, if_neg h32]

/-- The closing quote ends the string body. -/
theorem parseStringRest_quote (r : Str) :
    parseStringRest (34 :: r) = .ok [] r := by
  rw [parseStringRest.eq_def]
  rfl

/-- A `\uXXXX` escape parses back to its code unit. -/
theorem parseStringRest_unicodeEscape (c : Nat) (hc : c < 65536) (r : Str) :
    parseStringRest (unicodeEscape c ++ r) = consOk c (parseStringRest r) := by
  have e1 := hexVal_hexDigit (c / 4096 % 16) (Nat.mod_lt _ (by norm_num))
  have e2 := hexVal_hexDigit (c / 256 % 16) (Nat.mod_lt _ (by norm_num))
  have e3 := hexVal_hexDigit (c / 16 % 16) (Nat.mod_lt _ (by norm_num))
  have e4 := hexVal_hexDigit (c % 16) (Nat.mod_lt _ (by norm_num))
  have hrec : c / 4096 % 16 * 4096 + c / 256 % 16 * 256 + c / 16 % 16 * 16 + c % 16 = c := by
    omega
  simp only [unicodeEscape, List.cons_append, List.nil_append, parseStringRest,
             e1, e2, e3, e4]
  norm_num [hrec]

/-- Parsing after a produced escape: `escChar c` followed by anything parses
to `c` consed onto the parse of the rest. -/
theorem parseStringRest_escChar (c : Nat) (hc : c < 65536) (r : Str) :
    parseStringRest (escChar c ++ r) = consOk c (parseStringRest r) := by
  unfold escChar
  by_cases h34 : c = 34
  · subst h34
    simp only [if_pos rfl, List.cons_append, List.nil_append]
    simp [parseStringRest, escMap]
  by_cases h92 : c = 92
  · subst h92
    simp only [if_neg h34, if_pos rfl, List.cons_append, List.nil_append]
    simp [parseStringRest, escMap]
  by_cases h8 : c = 8
  · subst h8
    simp only [if_neg h34, if_neg h92, if_pos rfl, List.cons_append, List.nil_append]
    simp [parseStringRest, escMap]
  by_cases h9 : c = 9
  · subst h9
    simp only [if_neg h34, if_neg h92, if_neg h8, if_pos rfl, List.cons_append,
               List.nil_append]
    simp [parseStringRest, escMap]
  by_cases h10 : c = 10
  · subst h10
    simp only [if_neg h34, if_neg h92, if_neg h8, if_neg h9, if_pos rfl,
               List.cons_append, List.nil_append]
    simp [parseStringRest, escMap]
  by_cases h12 : c = 12
  · subst h12
    simp only [if_neg h34, if_neg h92, if_neg h8, if_neg h9, if_neg h10,
               if_pos rfl, List.cons_append, List.nil_append]
    simp [parseStringRest, escMap]
  by_cases h13 : c = 13
  · subst h13
    simp only [if_neg h34, if_neg h92, if_neg h8, if_neg h9, if_neg h10,
               if_neg h12, if_pos rfl, List.cons_append, List.nil_append]
    simp [parseStringRest, escMap]
  simp only [if_neg h34, if_neg h92, if_neg h8, if_neg h9, if_neg h10,
             if_neg h12, if_neg h13]
  by_cases hlt : c < 32
  · simp only [if_pos hlt]
    exact parseStringRest_unicodeEscape c hc r
  · simp only [if_neg hlt]
    by_cases hls : isLeadSurrogate c
    · simp only [hls, if_pos rfl]
      exact parseStringRest_unicodeEscape c hc r
    · simp only [hls, Bool.false_eq_true, if_false]
      by_cases hts : isTrailSurrogate c
      · simp only [hts, if_pos rfl]
        exact parseStringRest_unicodeEscape c hc r
      · simp only [hts, Bool.false_eq_true, if_false]
        exact parseStringRest_raw c h34 h92 hlt r

/-- `parseStringRest` inverts `quoteBody`: reading the escaped body followed
by the closing quote recovers the original code units. -/
theorem parseStringRest_quoteBody (s : Str) (hs : CodeUnits s) (r : Str) :
    parseStringRest (quoteBody s ++ 34 :: r) = .ok s r := by
  induction s using quoteBody.induct with
  | case1 =>
      show parseStringRest ([] ++ 34 :: r) = .ok [] r
      rw [List.nil_append, parseStringRest_quote]
  | case2 c =>
      have hc : c < 65536 := hs c (by simp)
      show parseStringRest (escChar c ++ 34 :: r) = _
      rw [parseStringRest_escChar c hc, parseStringRest_quote]
      rfl
  | case3 c d rest hpair ih =>
      have hrest : CodeUnits rest := fun x hx => hs x (by simp [hx])
      have hp : (55296 ≤ c ∧ c ≤ 56319) ∧ 56320 ≤ d ∧ d ≤ 57343 := by
        simpa [isLeadSurrogate, isTrailSurrogate] using hpair
      have hq : quoteBody (c :: d :: rest) = c :: d :: quoteBody rest := by
        simp only [quoteBody, if_pos hpair]
      rw [hq]
      simp only [List.cons_append]
      rw [parseStringRest_raw c (by omega) (by omega) (by omega),
          parseStringRest_raw d (by omega) (by omega) (by omega),
          ih hrest]
      rfl
  | case4 c d rest hpair ih =>
      have hc : c < 65536 := hs c (by simp)
      have hrest : CodeUnits (d :: rest) := fun x hx => hs x (by simp [hx])
      have hq : quoteBody (c :: d :: rest) = escChar c ++ quoteBody (d :: rest) := by
        simp only [quoteBody, hpair]
        split
        · simp_all
        · rfl
      rw [hq, List.append_assoc, parseStringRest_escChar c hc, ih hrest]
      rfl

/-- Parsing a serialized string value. -/
theorem parseValue_string (f : Nat) (s : Str) (hs : CodeUnits s) (r : Str) :
    parseValue (f + 1) (34 :: (quoteBody s ++ 34 :: r)) = .ok (.str s) r := by
  rw [parseValue.eq_def]
  simp only [parseStringRest_quoteBody s hs r]

/-- Parsing one serialized object member (key, colon, string value) followed
by a separator character: the step lemma for `stringifyDoc`'s members. -/
theorem parseMembers_member (f : Nat) (key v : Str) (hkey : CodeUnits key)
    (hv : CodeUnits v) (r : Str) (acc : List (Str × JValue)) :
    parseMembers (f + 2) (34 :: (quoteBody key ++ 34 :: 58 :: 34 ::
        (quoteBody v ++ 34 :: r))) acc =
      (match skipWs r with
       | 44 :: r4 => parseMembers (f + 1) (skipWs r4) (insertMember acc key (.str v))
       | 125 :: r4 => .ok (.obj (insertMember acc key (.str v))) r4
       | _ => .err) := by
  rw [parseMembers.eq_def]
  simp only [parseStringRest_quoteBody key hkey]
  have h58 : skipWs (58 :: 34 :: (quoteBody v ++ 34 :: r)) =
      58 :: 34 :: (quoteBody v ++ 34 :: r) := rfl
  simp only [h58]
  have h34 : skipWs (34 :: (quoteBody v ++ 34 :: r)) =
      34 :: (quoteBody v ++ 34 :: r) := rfl
  simp only [h34, parseValue_string f v hv r]

/-- `JSON.parse` recovers the three fields from `JSON.stringify`'s output. -/
theorem parseValue_stringifyDoc (f : Nat) (h c j : Str)
    (hh : CodeUnits h) (hc : CodeUnits c) (hj : CodeUnits j) :
    parseValue (f + 8) (stringifyDoc h c j) = .ok (docValue h c j) [] := by
  have hKH : CodeUnits (utf16 "html") := by decide
  have hKC : CodeUnits (utf16 "css") := by decide
  have hKJ : CodeUnits (utf16 "js") := by decide
  have hobj : ∀ (g : Nat) (t : Str),
      parseValue (g + 1) (123 :: t) = parseObjectBody g t := by
    intro g t
    rw [parseValue.eq_def]
  have hmem : ∀ (g : Nat) (t : Str),
      parseObjectBody (g + 1) (34 :: t) = parseMembers g (34 :: t) [] := by
    intro g t
    rw [parseObjectBody.eq_def]
    rfl
  have hshape : stringifyDoc h c j =
      123 :: 34 :: (quoteBody (utf16 "html") ++ 34 :: 58 :: 34 ::
        (quoteBody h ++ 34 :: 44 :: 34 :: (quoteBody (utf16 "css") ++ 34 :: 58 :: 34 ::
        (quoteBody c ++ 34 :: 44 :: 34 :: (quoteBody (utf16 "js") ++ 34 :: 58 :: 34 ::
        (quoteBody j ++ 34 :: 125 :: [])))))) := by
    simp [stringifyDoc, quoteJSONString]
  rw [hshape]
  rw [show f + 8 = (f + 7) + 1 from rfl, hobj]
  rw [show f + 7 = (f + 6) + 1 from rfl, hmem]
  rw [show f + 6 = (f + 4) + 2 from rfl]
  rw [parseMembers_member (f + 4) (utf16 "html") h hKH hh]
  have hsk44 : ∀ t : Str, skipWs (44 :: t) = 44 :: t := fun _ => rfl
  have hsk34 : ∀ t : Str, skipWs (34 :: t) = 34 :: t := fun _ => rfl
  simp only [hsk44, hsk34]
  rw [show f + 4 + 1 = (f + 3) + 2 from rfl]
  rw [parseMembers_member (f + 3) (utf16 "css") c hKC hc]
  simp only [hsk44, hsk34]
  rw [show f + 3 + 1 = (f + 2) + 2 from rfl]
  rw [parseMembers_member (f + 2) (utf16 "js") j hKJ hj]
  have hsk125 : ∀ t : Str, skipWs (125 :: t) = 125 :: t := fun _ => rfl
  simp only [hsk125]
  simp [docValue, insertMember,
        show utf16 "html" ≠ utf16 "js" from by decide,
        show utf16 "css" ≠ utf16 "js" from by decide,
        show utf16 "html" ≠ utf16 "css" from by decide]

/-- `stringifyDoc` output is nonempty (it starts with `{`). -/
theorem stringifyDoc_length_ge (h c j : Str) : 2 ≤ (stringifyDoc h c j).length := by
  simp [stringifyDoc, quoteJSONString]

/-- `JSON.parse` inverts `JSON.stringify` on Documents. -/
theorem jsonParse_stringifyDoc (h c j : Str)
    (hh : CodeUnits h) (hc : CodeUnits c) (hj : CodeUnits j) :
    jsonParse (stringifyDoc h c j) = some (docValue h c j) := by
  unfold jsonParse
  have hlen := stringifyDoc_length_ge h c j
  obtain ⟨f, hf⟩ : ∃ f, 3 * (stringifyDoc h c j).length + 3 = f + 8 :=
    ⟨3 * (stringifyDoc h c j).length - 5, by omega⟩
  have hhead : skipWs (stringifyDoc h c j) = stringifyDoc h c j := by
    simp [stringifyDoc, quoteJSONString]
    rfl
  rw [hhead, hf, parseValue_stringifyDoc f h c j hh hc hj]
  rfl

/-! ## Mode flag and fragment prefix -/

theorem UriFragmentSafe_ne_47 {ch : Nat} (h : UriFragmentSafe ch) : ch ≠ 47 := by
  rcases h with h | h | h | h | h <;> omega

/-- The token never contains a `/`. -/
theorem encodeCode_no_slash (html css js : Str) :
    47 ∉ encodeCode html css js := by
  intro hmem
  exact UriFragmentSafe_ne_47 (encodeCode_chars_safe html css js 47 hmem) rfl

/-- A token can never start with the `view/` marker, because `/` is not in
the output alphabet. -/
theorem view_not_prefix_encode (html css js : Str) :
    (utf16 "view/").isPrefixOf (encodeCode html css js) = false := by
  by_contra hne
  have hb : (utf16 "view/").isPrefixOf (encodeCode html css js) = true := by
    revert hne
    cases (utf16 "view/").isPrefixOf (encodeCode html css js) <;> simp
  have hp : utf16 "view/" <+: encodeCode html css js :=
    List.isPrefixOf_iff_prefix.mp hb
  obtain ⟨t, ht⟩ := hp
  have h47 : 47 ∈ encodeCode html css js := by
    rw [← ht]
    exact List.mem_append.mpr (Or.inl (by decide))
  exact encodeCode_no_slash html css js h47

/-- Loading the fragment of a preview-only link: the `view/` prefix is
detected and stripped, the decoded value is that of the bare token. -/
theorem loadFromHash_view (html css js : Str) :
    loadFromHash (fragmentOf true html css js) =
      (decodeCode (encodeCode html css js), true) := by
  unfold loadFromHash fragmentOf
  have hpre : (utf16 "view/").isPrefixOf
      (utf16 "view/" ++ encodeCode html css js) = true := by
    rw [List.isPrefixOf_iff_prefix]
    exact ⟨_, rfl⟩
  simp only [if_true, hpre]
  have h5 : (5 : Nat) = (utf16 "view/").length := rfl
  rw [h5, List.drop_left]

/-- Loading the fragment of an editor link: no `view/` prefix is detected
and the whole fragment is the token. -/
theorem loadFromHash_editor (html css js : Str) :
    loadFromHash (fragmentOf false html css js) =
      (decodeCode (encodeCode html css js), false) := by
  unfold loadFromHash fragmentOf
  simp [view_not_prefix_encode html css js]

/-! ## Termination of the decompressor loop

The source's `while (true)` loop always reaches a `return`: each iteration
reads at least `numBits ≥ 3` bits, each bit read either halves the position
mask or advances the input index, and the loop exits as soon as the index
passes the input length. `Phi` is the decreasing measure. -/

/-- Logarithm of the position mask: `32,16,8,4,2,1 ↦ 5,4,3,2,1,0`. -/
def posLog (p : Nat) : Nat :=
  if p = 32 then 5 else if p = 16 then 4 else if p = 8 then 3
  else if p = 4 then 2 else if p = 2 then 1 else 0

/-- The position mask is one of the six values reachable with
`resetValue = 32`. -/
def PosOk (p : Nat) : Prop :=
  p = 32 ∨ p = 16 ∨ p = 8 ∨ p = 4 ∨ p = 2 ∨ p = 1

/-- Bits remaining before the loop's index guard must fire (scaled by 2). -/
def Phi (len : Nat) (rd : DData) : Nat :=
  12 * (len + 8 - rd.index) + 2 * posLog rd.pos

theorem readBit_phi (next : Nat → Option Nat) (st : DData) (hP : PosOk st.pos)
    (len : Nat) :
    PosOk (readBit 32 next st).2.pos ∧
    st.index ≤ (readBit 32 next st).2.index ∧
    ((readBit 32 next st).2.index ≤ len + 8 →
      Phi len (readBit 32 next st).2 + 2 = Phi len st) := by
  rcases hP with h | h | h | h | h | h <;>
    simp only [readBit, h, Phi, posLog] <;>
    norm_num [PosOk] <;>
    omega

theorem readBits_succ_snd (rv : Nat) (next : Nat → Option Nat) (n : Nat)
    (st : DData) :
    (readBits rv next (n + 1) st).2 =
      (readBits rv next n (readBit rv next st).2).2 := by
  rcases hrb : readBit rv next st with ⟨b, st1⟩
  rcases hrs : readBits rv next n st1 with ⟨rest, st2⟩
  simp [readBits, hrb, hrs]

theorem readBits_phi (next : Nat → Option Nat) (n : Nat) (st : DData)
    (hP : PosOk st.pos) (len : Nat) :
    PosOk (readBits 32 next n st).2.pos ∧
    st.index ≤ (readBits 32 next n st).2.index ∧
    ((readBits 32 next n st).2.index ≤ len + 8 →
      Phi len (readBits 32 next n st).2 + 2 * n = Phi len st) := by
  induction n generalizing st with
  | zero =>
      refine ⟨?_, ?_, ?_⟩ <;> simp [readBits, hP]
  | succ k ih =>
      have hstep := readBit_phi next st hP len
      have hrec := ih (readBit 32 next st).2 hstep.1
      rw [readBits_succ_snd]
      refine ⟨hrec.1, le_trans hstep.2.1 hrec.2.1, ?_⟩
      intro hle
      have h1 := hrec.2.2 hle
      have h2 : (readBit 32 next st).2.index ≤ len + 8 :=
        le_trans hrec.2.1 hle
      have h3 := hstep.2.2 h2
      omega

/-- The common tail keeps the bit reader unchanged and never shrinks the
code width. -/
theorem growWidth_rd (st : DState) : (growWidth st).rd = st.rd := by
  unfold growWidth; split <;> rfl

theorem growWidth_numBits_ge (st : DState) : st.numBits ≤ (growWidth st).numBits := by
  unfold growWidth; split <;> simp

theorem decompressTailState_rd (c : Nat) (st1 st4 : DState)
    (h : decompressTailState c st1 = some st4) :
    st4.rd = st1.rd ∧ st1.numBits ≤ st4.numBits := by
  revert h
  unfold decompressTailState
  dsimp only
  split
  · intro h; cases h
  · intro h
    injection h with h'
    subst h'
    constructor
    · rw [growWidth_rd]
      exact growWidth_rd st1
    · refine le_trans (growWidth_numBits_ge st1) (le_trans ?_ (growWidth_numBits_ge _))
      exact le_of_eq rfl

/-- The switch keeps the state's code width and position-mask wellformedness,
and only moves the reader forward by further reads. -/
theorem decompressSwitch_props (next : Nat → Option Nat) (bits : Nat)
    (rd1 : DData) (st0 : DState) (c : Nat) (st1 : DState)
    (h : decompressSwitch 32 next bits rd1 st0 = some (c, st1)) :
    st1.numBits = st0.numBits ∧
    (st1.rd = rd1 ∨ st1.rd = (readBits 32 next 8 rd1).2 ∨
     st1.rd = (readBits 32 next 16 rd1).2) := by
  revert h
  unfold decompressSwitch
  rcases bits with _ | _ | _ | b
  · rcases h8 : readBits 32 next 8 rd1 with ⟨cb, rd2⟩
    simp [h8]
    intro _ h
    subst h
    simp
  · rcases h16 : readBits 32 next 16 rd1 with ⟨cb, rd2⟩
    simp [h16]
    intro _ h
    subst h
    simp
  · simp
  · simp
    intro _ h
    subst h
    simp

/-- The loop terminates: with the fuel budget decreasing by one per
iteration and at least three bits consumed per iteration, fuel
`6F ≥ Phi + 12` is never exhausted. -/
theorem decompressLoop_no_fuelOut (len : Nat) (next : Nat → Option Nat) :
    ∀ (F : Nat) (st : DState), PosOk st.rd.pos → 3 ≤ st.numBits →
      Phi len st.rd + 12 ≤ 6 * F →
      decompressLoop len 32 next F st ≠ .fuelOut := by
  intro F
  induction F with
  | zero =>
      intro st _ _ hF
      omega
  | succ F ih =>
      intro st hP hnb hF
      rw [decompressLoop.eq_def]
      by_cases hidx : st.rd.index > len
      · simp [hidx]
      simp only [if_neg hidx]
      rcases hbits : readBits 32 next st.numBits st.rd with ⟨bits, rd1⟩
      simp only [hbits]
      have hrb0 := readBits_phi next st.numBits st.rd hP len
      rw [hbits] at hrb0
      have hrb : PosOk rd1.pos ∧ st.rd.index ≤ rd1.index ∧
          (rd1.index ≤ len + 8 → Phi len rd1 + 2 * st.numBits = Phi len st.rd) := hrb0
      rcases hsw : decompressSwitch 32 next bits rd1 st with _ | ⟨c, st1⟩
      · simp [hsw]
      · simp only [hsw]
        rcases hts : decompressTailState c st1 with _ | st4
        · simp
        · simp only []
          have hswp := decompressSwitch_props next bits rd1 st c st1 hsw
          have htp := decompressTailState_rd c st1 st4 hts
          -- the reader only advanced; numBits never shrank
          have hnb4 : 3 ≤ st4.numBits := by omega
          have hrb8 := readBits_phi next 8 rd1 hrb.1 len
          have hrb16 := readBits_phi next 16 rd1 hrb.1 len
          have hPos4 : PosOk st4.rd.pos := by
            rcases hswp.2 with h | h | h
            · rw [htp.1, h]; exact hrb.1
            · rw [htp.1, h]; exact hrb8.1
            · rw [htp.1, h]; exact hrb16.1
          by_cases hile : st4.rd.index ≤ len
          · -- all reads stayed in range: Phi dropped by at least 2 * numBits ≥ 6
            have hphi4 : Phi len st4.rd + 6 ≤ Phi len st.rd := by
              have hidx1 : rd1.index ≤ st4.rd.index := by
                rcases hswp.2 with h | h | h
                · rw [htp.1, h]
                · rw [htp.1, h]; exact hrb8.2.1
                · rw [htp.1, h]; exact hrb16.2.1
              have hphi1 : Phi len rd1 + 2 * st.numBits = Phi len st.rd :=
                hrb.2.2 (by omega)
              rcases hswp.2 with h | h | h
              · rw [htp.1, h]; omega
              · have h8 := hrb8.2.2 (by rw [← h, ← htp.1]; omega)
                rw [htp.1, h]; omega
              · have h16 := hrb16.2.2 (by rw [← h, ← htp.1]; omega)
                rw [htp.1, h]; omega
            exact ih st4 hPos4 hnb4 (by omega)
          · -- the reader ran past the end: the next iteration returns
            have hF1 : 1 ≤ F := by
              have : 0 ≤ Phi len st.rd := Nat.zero_le _
              omega
            obtain ⟨F', rfl⟩ : ∃ F', F = F' + 1 := ⟨F - 1, by omega⟩
            rw [decompressLoop.eq_def]
            simp [show st4.rd.index > len by omega]

theorem decompressRun_not_fuelOut (len : Nat) (next : Nat → Option Nat)
    (c : Str) (rd : DData) (hP : PosOk rd.pos)
    (hphi : Phi len rd + 12 ≤ 6 * (2 * len + 16) ∨ len < rd.index) :
    decompressRun len 32 next c rd ≠ .fuelOut := by
  unfold decompressRun
  rcases hphi with h | h
  · exact decompressLoop_no_fuelOut len next _ _ hP (by norm_num) h
  · obtain ⟨F', hF'⟩ : ∃ F', 2 * len + 16 = F' + 1 := ⟨2 * len + 15, by omega⟩
    rw [hF', decompressLoop.eq_def]
    simp [h]

theorem lzDecompress_not_fuelOut (len : Nat) (next : Nat → Option Nat) :
    lzDecompress len 32 next ≠ .fuelOut := by
  unfold lzDecompress
  have hP0 : PosOk (32 : Nat) := Or.inl rfl
  rcases hb : readBits 32 next 2 { val := next 0, pos := 32, index := 1 }
    with ⟨bits, rd1⟩
  have h20 := readBits_phi next 2 { val := next 0, pos := 32, index := 1 } hP0 len
  rw [hb] at h20
  have h2 : PosOk rd1.pos ∧ (1 : Nat) ≤ rd1.index ∧
      (rd1.index ≤ len + 8 → Phi len rd1 + 2 * 2 =
        Phi len { val := next 0, pos := 32, index := 1 }) := h20
  have hphi0 : Phi len { val := next 0, pos := 32, index := 1 } =
      12 * (len + 7) + 10 := by
    simp [Phi, posLog]
  simp only [hb]
  rcases bits with _ | _ | _ | b
  · rcases h8 : readBits 32 next 8 rd1 with ⟨cb, rd2⟩
    have h80 := readBits_phi next 8 rd1 h2.1 len
    rw [h8] at h80
    have h8c : PosOk rd2.pos ∧ rd1.index ≤ rd2.index ∧
        (rd2.index ≤ len + 8 → Phi len rd2 + 2 * 8 = Phi len rd1) := h80
    simp only []
    refine decompressRun_not_fuelOut len next _ _ h8c.1 ?_
    by_cases hle : rd2.index ≤ len
    · left
      have e8 := h8c.2.2 (by omega)
      have e2 := h2.2.2 (by omega)
      omega
    · right; omega
  · rcases h16 : readBits 32 next 16 rd1 with ⟨cb, rd2⟩
    have h160 := readBits_phi next 16 rd1 h2.1 len
    rw [h16] at h160
    have h16c : PosOk rd2.pos ∧ rd1.index ≤ rd2.index ∧
        (rd2.index ≤ len + 8 → Phi len rd2 + 2 * 16 = Phi len rd1) := h160
    simp only []
    refine decompressRun_not_fuelOut len next _ _ h16c.1 ?_
    by_cases hle : rd2.index ≤ len
    · left
      have e16 := h16c.2.2 (by omega)
      have e2 := h2.2.2 (by omega)
      omega
    · right; omega
  · simp
  · simp

/-- The lz-string decompressor, as called by `decodeCode`, always reaches an
explicit `return`. -/
theorem decompress_not_fuelOut (input : Str) :
    decompressFromEncodedURIComponent input ≠ .fuelOut := by
  unfold decompressFromEncodedURIComponent
  split
  · simp
  · exact lzDecompress_not_fuelOut _ _

/-! ## Termination of the JSON parser

`jsonParse` hands `parseValue` fuel `3*|text| + 3`; every nested descent
follows consumption of input, at most three fuel decrements per character,
so the fuel never runs out. -/

theorem skipWs_length (s : Str) : (skipWs s).length ≤ s.length := by
  induction s with
  | nil => simp [skipWs]
  | cons c rest ih =>
      rw [skipWs]
      split
      · exact le_trans ih (by simp)
      · simp

theorem takeDigits_length (s : Str) : (takeDigits s).2.length ≤ s.length := by
  induction s with
  | nil => simp [takeDigits]
  | cons c rest ih =>
      rw [takeDigits]
      split
      · rcases h : takeDigits rest with ⟨ds, r⟩
        rw [h] at ih
        simp at ih ⊢
        omega
      · simp

theorem consOk_ok {c : Nat} {p : PR Str} {v r : Str}
    (h : consOk c p = .ok v r) : ∃ s', p = .ok s' r ∧ v = c :: s' := by
  cases p with
  | ok s' r' =>
      simp [consOk] at h
      exact ⟨s', by rw [h.2], h.1.symm⟩
  | err => simp [consOk] at h
  | out => simp [consOk] at h

theorem consOk_not_out {c : Nat} {p : PR Str} (h : p ≠ .out) :
    consOk c p ≠ .out := by
  cases p <;> simp_all [consOk]

theorem parseStringRest_length_aux :
    ∀ (n : Nat) (s : Str), s.length ≤ n →
      ∀ v r, parseStringRest s = .ok v r → r.length < s.length := by
  intro n
  induction n with
  | zero =>
      intro s hs v r h
      rcases s with _ | ⟨c, rest⟩
      · rw [parseStringRest.eq_def] at h; cases h
      · simp at hs
  | succ k ih =>
      intro s hs v r h
      rcases s with _ | ⟨c, rest⟩
      · rw [parseStringRest.eq_def] at h; cases h
      · by_cases h34 : c = 34
        · subst h34
          rw [parseStringRest_quote] at h
          injection h with h1 h2
          subst h2
          simp
        · rw [parseStringRest.eq_def] at h
          simp only [if_neg h34] at h
          by_cases h92 : c = 92
          · simp only [if_pos h92] at h
            split at h
            · cases h
            · split at h
              · obtain ⟨s', hps, hv⟩ := consOk_ok h
                have hlt := ih _ (by simp_all; omega) _ _ hps
                simp_all
                omega
              · cases h
            · split at h
              · obtain ⟨s', hps, hv⟩ := consOk_ok h
                have hlt := ih _ (by simp_all; omega) _ _ hps
                simp_all
                omega
              · cases h
          · simp only [if_neg h92] at h
            split at h
            · cases h
            · obtain ⟨s', hps, hv⟩ := consOk_ok h
              have hlt := ih rest (by simp_all) _ _ hps
              simp
              omega

theorem parseStringRest_length (s v r : Str) (h : parseStringRest s = .ok v r) :
    r.length < s.length :=
  parseStringRest_length_aux s.length s (le_refl _) v r h

theorem parseStringRest_not_out_aux :
    ∀ (n : Nat) (s : Str), s.length ≤ n → parseStringRest s ≠ .out := by
  intro n
  induction n with
  | zero =>
      intro s hs
      rcases s with _ | ⟨c, rest⟩
      · rw [parseStringRest.eq_def]; simp
      · simp at hs
  | succ k ih =>
      intro s hs
      rcases s with _ | ⟨c, rest⟩
      · rw [parseStringRest.eq_def]; simp
      · rw [parseStringRest.eq_def]
        by_cases h34 : c = 34
        · simp [h34]
        · simp only [if_neg h34]
          by_cases h92 : c = 92
          · simp only [if_pos h92]
            split
            · simp
            · split
              · exact consOk_not_out (ih _ (by simp_all; omega))
              · simp
            · split
              · exact consOk_not_out (ih _ (by simp_all; omega))
              · simp
          · simp only [if_neg h92]
            split
            · simp
            · exact consOk_not_out (ih rest (by simp_all))

theorem parseStringRest_not_out (s : Str) : parseStringRest s ≠ .out :=
  parseStringRest_not_out_aux s.length s (le_refl _)

theorem expectLit_length :
    ∀ (k s r : Str), expectLit k s = some r → r.length ≤ s.length := by
  intro k
  induction k with
  | nil =>
      intro s r h
      simp [expectLit] at h
      simp [h]
  | cons c k ih =>
      intro s r h
      rcases s with _ | ⟨d, s'⟩
      · simp [expectLit] at h
      · rw [expectLit] at h
        split at h
        · have := ih s' r h
          simp
          omega
        · cases h

theorem splitSign_length (s : Str) : (splitSign s).2.length ≤ s.length := by
  unfold splitSign
  split <;> simp

theorem splitNeg_length (s : Str) : (splitNeg s).2.length ≤ s.length := by
  unfold splitNeg
  split <;> simp

theorem parseExpTail_length (lex : Str) (e : Nat) (s lx r : Str)
    (h : parseExpTail lex e s = .ok lx r) : r.length ≤ s.length := by
  unfold parseExpTail at h
  split at h
  · cases h
  · rename_i ds r' heq
    injection h with h1 h2
    subst h2
    have h1 := takeDigits_length (splitSign s).2
    rw [heq] at h1
    exact le_trans h1 (splitSign_length s)

theorem parseExpTail_not_out (lex : Str) (e : Nat) (s : Str) :
    parseExpTail lex e s ≠ .out := by
  unfold parseExpTail
  split <;> simp

theorem parseExpOpt_length (lex : Str) (s lx r : Str)
    (h : parseExpOpt lex s = .ok lx r) : r.length ≤ s.length := by
  unfold parseExpOpt at h
  split at h
  · rename_i r0
    have := parseExpTail_length _ _ _ _ _ h
    simp
    omega
  · rename_i r0
    have := parseExpTail_length _ _ _ _ _ h
    simp
    omega
  · injection h with h1 h2
    subst h2
    exact le_refl _

theorem parseExpOpt_not_out (lex : Str) (s : Str) :
    parseExpOpt lex s ≠ .out := by
  unfold parseExpOpt
  split
  · exact parseExpTail_not_out _ _ _
  · exact parseExpTail_not_out _ _ _
  · simp

theorem parseFracExp_length (lex : Str) (s lx r : Str)
    (h : parseFracExp lex s = .ok lx r) : r.length ≤ s.length := by
  unfold parseFracExp at h
  split at h
  · rename_i r0
    split at h
    · cases h
    · rename_i ds r' heq
      have h1 := parseExpOpt_length _ _ _ _ h
      have h2 := takeDigits_length r0
      rw [heq] at h2
      simp at h2
      simp
      omega
  · exact parseExpOpt_length _ _ _ _ h

theorem parseFracExp_not_out (lex : Str) (s : Str) :
    parseFracExp lex s ≠ .out := by
  unfold parseFracExp
  split
  · split
    · simp
    · exact parseExpOpt_not_out _ _
  · exact parseExpOpt_not_out _ _

theorem parseNumberLex_length (s lx r : Str)
    (h : parseNumberLex s = .ok lx r) : r.length < s.length := by
  unfold parseNumberLex at h
  split at h
  · cases h
  · rename_i c r0 heq
    have hsn : r0.length + 1 ≤ s.length := by
      have h1 := splitNeg_length s
      rw [heq] at h1
      simp at h1
      omega
    split_ifs at h with h48 hdig
    · have := parseFracExp_length _ _ _ _ h
      omega
    · have h1 := parseFracExp_length _ _ _ _ h
      have h2 := takeDigits_length r0
      omega

theorem parseNumberLex_not_out (s : Str) : parseNumberLex s ≠ .out := by
  unfold parseNumberLex
  split
  · simp
  · split_ifs <;>
      first
        | exact parseFracExp_not_out _ _
        | simp

/-- Simultaneous consumption and fuel-sufficiency invariant for the mutual
JSON value parser: a successful parse consumes at least one input character,
and with fuel at least three per remaining input character plus a small
constant depending on the entry point, the parser never runs out of fuel. -/
theorem parser_inv (f : Nat) :
    (∀ s v r, parseValue f s = .ok v r → r.length < s.length) ∧
    (∀ s v r, parseObjectBody f s = .ok v r → r.length < s.length) ∧
    (∀ s acc v r, parseMembers f s acc = .ok v r → r.length < s.length) ∧
    (∀ s v r, parseArrayBody f s = .ok v r → r.length < s.length) ∧
    (∀ s acc v r, parseElements f s acc = .ok v r → r.length < s.length) ∧
    (∀ s, 3 * s.length + 1 ≤ f → parseValue f s ≠ .out) ∧
    (∀ s, 3 * s.length + 2 ≤ f → parseObjectBody f s ≠ .out) ∧
    (∀ s acc, 3 * s.length + 1 ≤ f → parseMembers f s acc ≠ .out) ∧
    (∀ s, 3 * s.length + 3 ≤ f → parseArrayBody f s ≠ .out) ∧
    (∀ s acc, 3 * s.length + 2 ≤ f → parseElements f s acc ≠ .out) := by
  induction f with
  | zero =>
      refine ⟨?_, ?_, ?_, ?_, ?_, ?_, ?_, ?_, ?_, ?_⟩
      · intro s v r h; rw [parseValue.eq_1] at h; exact PR.noConfusion h
      · intro s v r h; rw [parseObjectBody.eq_1] at h; exact PR.noConfusion h
      · intro s acc v r h; rw [parseMembers.eq_1] at h; exact PR.noConfusion h
      · intro s v r h; rw [parseArrayBody.eq_1] at h; exact PR.noConfusion h
      · intro s acc v r h; rw [parseElements.eq_1] at h; exact PR.noConfusion h
      · intro s hle; exact absurd hle (by omega)
      · intro s hle; exact absurd hle (by omega)
      · intro s acc hle; exact absurd hle (by omega)
      · intro s hle; exact absurd hle (by omega)
      · intro s acc hle; exact absurd hle (by omega)
  | succ f ih =>
      obtain ⟨ihVc, ihOc, ihMc, ihAc, ihEc, ihVo, ihOo, ihMo, ihAo, ihEo⟩ := ih
      have hVc : ∀ s v r, parseValue (f + 1) s = .ok v r → r.length < s.length := by
        intro s v r h
        rw [parseValue.eq_def] at h
        split at h
        · omega
        rename_i fuel hfe
        obtain rfl : fuel = f := by omega
        split at h
        · exact PR.noConfusion h
        · have := ihOc _ _ _ h
          simp only [List.length_cons]
          omega
        · have := ihAc _ _ _ h
          simp only [List.length_cons]
          omega
        · rename_i rest
          split at h
          · rename_i str r1 heq
            cases h
            have := parseStringRest_length _ _ _ heq
            simp only [List.length_cons]
            omega
          · exact PR.noConfusion h
          · exact PR.noConfusion h
        · rename_i rest
          split at h
          · rename_i r1 heq
            cases h
            have := expectLit_length _ _ _ heq
            simp only [List.length_cons]
            omega
          · exact PR.noConfusion h
        · rename_i rest
          split at h
          · rename_i r1 heq
            cases h
            have := expectLit_length _ _ _ heq
            simp only [List.length_cons]
            omega
          · exact PR.noConfusion h
        · rename_i rest
          split at h
          · rename_i r1 heq
            cases h
            have := expectLit_length _ _ _ heq
            simp only [List.length_cons]
            omega
          · exact PR.noConfusion h
        · split_ifs at h
          · split at h
            · rename_i lex r1 heq
              cases h
              exact parseNumberLex_length _ _ _ heq
            · exact PR.noConfusion h
            · exact PR.noConfusion h
      have hOc : ∀ s v r, parseObjectBody (f + 1) s = .ok v r → r.length < s.length := by
        intro s v r h
        rw [parseObjectBody.eq_def] at h
        split at h
        · omega
        rename_i s0 a b fuel hfe
        obtain rfl : fuel = f := by omega
        split at h
        · rename_i rest heq
          cases h
          have h1 := skipWs_length s0
          rw [heq] at h1
          simp only [List.length_cons] at h1
          omega
        · have := ihMc _ _ _ _ h
          have h1 := skipWs_length s0
          omega
      have hMc : ∀ s acc v r, parseMembers (f + 1) s acc = .ok v r → r.length < s.length := by
        intro s acc v r h
        rw [parseMembers.eq_def] at h
        split at h
        · omega
        rename_i fuel hfe
        obtain rfl : fuel = f := by omega
        split at h
        · rename_i rest
          split at h
          · rename_i key r1 heq1
            split at h
            · rename_i r2 heq2
              split at h
              · rename_i v3 r3 heq3
                have l1 := parseStringRest_length _ _ _ heq1
                have l2 := skipWs_length r1
                rw [heq2] at l2
                simp only [List.length_cons] at l2
                have l3 := ihVc _ _ _ heq3
                have l4 := skipWs_length r2
                split at h
                · rename_i r4 heq4
                  have l5 := skipWs_length r3
                  rw [heq4] at l5
                  simp only [List.length_cons] at l5
                  have l6 := ihMc _ _ _ _ h
                  have l7 := skipWs_length r4
                  simp only [List.length_cons]
                  omega
                · rename_i r4 heq4
                  cases h
                  have l5 := skipWs_length r3
                  rw [heq4] at l5
                  simp only [List.length_cons] at l5
                  simp only [List.length_cons]
                  omega
                · exact PR.noConfusion h
              · exact PR.noConfusion h
              · exact PR.noConfusion h
            · exact PR.noConfusion h
          · exact PR.noConfusion h
          · exact PR.noConfusion h
        · exact PR.noConfusion h
      have hAc : ∀ s v r, parseArrayBody (f + 1) s = .ok v r → r.length < s.length := by
        intro s v r h
        rw [parseArrayBody.eq_def] at h
        split at h
        · omega
        rename_i s0 a b fuel hfe
        obtain rfl : fuel = f := by omega
        split at h
        · rename_i rest heq
          cases h
          have h1 := skipWs_length s0
          rw [heq] at h1
          simp only [List.length_cons] at h1
          omega
        · have := ihEc _ _ _ _ h
          have h1 := skipWs_length s0
          omega
      have hEc : ∀ s acc v r, parseElements (f + 1) s acc = .ok v r → r.length < s.length := by
        intro s acc v r h
        rw [parseElements.eq_def] at h
        split at h
        · omega
        rename_i fuel hfe
        obtain rfl : fuel = f := by omega
        split at h
        · rename_i v1 r1 heq1
          have l1 := ihVc _ _ _ heq1
          split at h
          · rename_i r2 heq2
            have l2 := skipWs_length r1
            rw [heq2] at l2
            simp only [List.length_cons] at l2
            have l3 := ihEc _ _ _ _ h
            have l4 := skipWs_length r2
            omega
          · rename_i r2 heq2
            cases h
            have l2 := skipWs_length r1
            rw [heq2] at l2
            simp only [List.length_cons] at l2
            omega
          · exact PR.noConfusion h
        · exact PR.noConfusion h
        · exact PR.noConfusion h
      have hVo : ∀ s, 3 * s.length + 1 ≤ f + 1 → parseValue (f + 1) s ≠ .out := by
        intro s hle
        rw [parseValue.eq_def]
        split
        · omega
        rename_i fuel hfe
        obtain rfl : fuel = f := by omega
        split
        · simp
        · rename_i rest
          simp only [List.length_cons] at hle
          exact ihOo rest (by omega)
        · rename_i rest
          simp only [List.length_cons] at hle
          exact ihAo rest (by omega)
        · rename_i rest
          split
          · simp
          · simp
          · rename_i heq
            exact absurd heq (parseStringRest_not_out rest)
        · split <;> simp
        · split <;> simp
        · split <;> simp
        · split_ifs
          · split
            · simp
            · simp
            · rename_i heq
              exact absurd heq (parseNumberLex_not_out _)
          · simp
      have hOo : ∀ s, 3 * s.length + 2 ≤ f + 1 → parseObjectBody (f + 1) s ≠ .out := by
        intro s hle
        rw [parseObjectBody.eq_def]
        split
        · omega
        rename_i s0 a b fuel hfe
        obtain rfl : fuel = f := by omega
        split
        · simp
        · have h1 := skipWs_length s0
          exact ihMo _ [] (by omega)
      have hMo : ∀ s acc, 3 * s.length + 1 ≤ f + 1 → parseMembers (f + 1) s acc ≠ .out := by
        intro s acc hle
        rw [parseMembers.eq_def]
        split
        · omega
        rename_i fuel hfe
        obtain rfl : fuel = f := by omega
        split
        · rename_i rest
          simp only [List.length_cons] at hle
          split
          · rename_i key r1 heq1
            have l1 := parseStringRest_length _ _ _ heq1
            split
            · rename_i r2 heq2
              have l2 := skipWs_length r1
              rw [heq2] at l2
              simp only [List.length_cons] at l2
              have l4 := skipWs_length r2
              split
              · rename_i v3 r3 heq3
                have l3 := ihVc _ _ _ heq3
                split
                · rename_i r4 heq4
                  have l5 := skipWs_length r3
                  rw [heq4] at l5
                  simp only [List.length_cons] at l5
                  have l7 := skipWs_length r4
                  exact ihMo _ _ (by omega)
                · simp
                · simp
              · simp
              · rename_i heq3
                exact absurd heq3 (ihVo _ (by omega))
            · simp
          · simp
          · rename_i heq1
            exact absurd heq1 (parseStringRest_not_out rest)
        · simp
      have hAo : ∀ s, 3 * s.length + 3 ≤ f + 1 → parseArrayBody (f + 1) s ≠ .out := by
        intro s hle
        rw [parseArrayBody.eq_def]
        split
        · omega
        rename_i s0 a b fuel hfe
        obtain rfl : fuel = f := by omega
        split
        · simp
        · have h1 := skipWs_length s0
          exact ihEo _ [] (by omega)
      have hEo : ∀ s acc, 3 * s.length + 2 ≤ f + 1 → parseElements (f + 1) s acc ≠ .out := by
        intro s acc hle
        rw [parseElements.eq_def]
        split
        · omega
        rename_i fuel hfe
        obtain rfl : fuel = f := by omega
        split
        · rename_i v1 r1 heq1
          have l1 := ihVc _ _ _ heq1
          split
          · rename_i r2 heq2
            have l2 := skipWs_length r1
            rw [heq2] at l2
            simp only [List.length_cons] at l2
            have l4 := skipWs_length r2
            exact ihEo _ _ (by omega)
          · simp
          · simp
        · simp
        · rename_i heq1
          exact absurd heq1 (ihVo _ (by omega))
      exact ⟨hVc, hOc, hMc, hAc, hEc, hVo, hOo, hMo, hAo, hEo⟩


/-- The fuel `jsonParse` provides is always sufficient. -/
theorem parseValue_not_out (f : Nat) (s : Str) (h : 3 * s.length + 1 ≤ f) :
    parseValue f s ≠ .out :=
  (parser_inv f).2.2.2.2.2.1 s h

/-- `decodeCode` never runs out of fuel: neither the decompressor nor the
JSON parser can exhaust the fuel budgets they are given. -/
theorem decodeCodeR_not_fuelOut (encoded : Str) :
    decodeCodeR encoded ≠ .fuelOut := by
  unfold decodeCodeR
  split
  · rename_i heq
    exact absurd heq (decompress_not_fuelOut encoded)
  · simp
  · simp
  · simp
  · rename_i data hne heq
    split
    · rename_i heq2
      refine absurd heq2 (parseValue_not_out _ _ ?_)
      have := skipWs_length data
      omega
    · simp
    · simp


/-! ## The bit stream of the compressor

`_compress` writes variable-width values bit by bit; `_decompress` reads them
back. We characterise the packed character stream in terms of the flat list
of bits written, and show that reading from any position returns the bits
written there — independently of anything appended after the token. -/

/-- The low `n` bits of `value`, least-significant first: the order in which
`writeValue` pushes them. -/
def bitsLSB : Nat → Nat → List Nat
  | 0, _ => []
  | n + 1, v => v % 2 :: bitsLSB n (v / 2)

/-- Push a list of bits through `pushBit`. -/
def writeBits (bpc : Nat) (charOf : Nat → Nat) (bs : List Nat) (st : CData) : CData :=
  bs.foldl (fun st b => pushBit bpc charOf b st) st

theorem bitsLSB_length (n v : Nat) : (bitsLSB n v).length = n := by
  induction n generalizing v with
  | zero => rfl
  | succ n ih => simp [bitsLSB, ih]

theorem bitsLSB_le_one (n v : Nat) : ∀ b ∈ bitsLSB n v, b ≤ 1 := by
  induction n generalizing v with
  | zero => simp [bitsLSB]
  | succ n ih =>
      intro b hb
      simp only [bitsLSB, List.mem_cons] at hb
      rcases hb with h | h
      · omega
      · exact ih _ _ h

theorem bitsLSB_getD (n v : Nat) : ∀ i < n, (bitsLSB n v).getD i 0 = v / 2 ^ i % 2 := by
  induction n generalizing v with
  | zero => intro i h; omega
  | succ n ih =>
      intro i hi
      match i with
      | 0 => simp [bitsLSB]
      | i + 1 =>
          have := ih (v / 2) i (by omega)
          simp only [bitsLSB, List.getD_cons_succ]
          rw [this, Nat.div_div_eq_div_mul, pow_succ]
          ring_nf

theorem writeValue_eq_writeBits (bpc : Nat) (charOf : Nat → Nat) (n v : Nat) (st : CData) :
    writeValue bpc charOf n v st = writeBits bpc charOf (bitsLSB n v) st := by
  induction n generalizing v st with
  | zero => rfl
  | succ n ih => simp [writeValue, bitsLSB, writeBits, List.foldl_cons, ih]

theorem writeBits_append (bpc : Nat) (charOf : Nat → Nat) (a b : List Nat) (st : CData) :
    writeBits bpc charOf (a ++ b) st = writeBits bpc charOf b (writeBits bpc charOf a st) := by
  simp [writeBits, List.foldl_append]

/-- The characters of the complete 6-bit chunks of a bit list, each chunk
packed most-significant bit first, as `pushBit` does for `bitsPerChar = 6`. -/
def fullChars : List Nat → Str
  | b0 :: b1 :: b2 :: b3 :: b4 :: b5 :: rest =>
      charOfUriSafe (32 * b0 + 16 * b1 + 8 * b2 + 4 * b3 + 2 * b4 + b5) :: fullChars rest
  | _ => []

/-- The trailing incomplete chunk (fewer than six bits) of a bit list. -/
def lastBits : List Nat → List Nat
  | _ :: _ :: _ :: _ :: _ :: _ :: rest => lastBits rest
  | bs => bs

/-- The value of a partial chunk, most-significant bit first. -/
def partVal (bs : List Nat) : Nat := bs.foldl (fun a b => 2 * a + b) 0

theorem lastBits_length_lt (B : List Nat) : (lastBits B).length < 6 := by
  induction B using lastBits.induct with
  | case1 b0 b1 b2 b3 b4 b5 rest ih => simpa [lastBits] using ih
  | case2 bs h =>
      rw [lastBits.eq_def]
      split
      · rename_i b0 b1 b2 b3 b4 b5 rest
        exact absurd rfl (h b0 b1 b2 b3 b4 b5 rest)
      · rcases bs with _ | ⟨a0, _ | ⟨a1, _ | ⟨a2, _ | ⟨a3, _ | ⟨a4, _ | ⟨a5, tl⟩⟩⟩⟩⟩⟩ <;>
          first
            | exact absurd rfl (h a0 a1 a2 a3 a4 a5 tl)
            | simp

/-- Packing characterisation: pushing a bit list into an aligned accumulator
emits one character per complete chunk and leaves the partial chunk pending. -/
theorem writeBits_spec (B : List Nat) : ∀ d,
    writeBits 6 charOfUriSafe B { data := d, val := 0, pos := 0 } =
      { data := d ++ fullChars B, val := partVal (lastBits B),
        pos := (lastBits B).length } := by
  induction B using fullChars.induct with
  | case1 b0 b1 b2 b3 b4 b5 rest ih =>
      intro d
      have step : writeBits 6 charOfUriSafe (b0 :: b1 :: b2 :: b3 :: b4 :: b5 :: rest)
          { data := d, val := 0, pos := 0 } =
          writeBits 6 charOfUriSafe rest
            { data := d ++ [charOfUriSafe (32 * b0 + 16 * b1 + 8 * b2 + 4 * b3 + 2 * b4 + b5)],
              val := 0, pos := 0 } := by
        simp only [writeBits, List.foldl_cons, pushBit]
        norm_num
        congr 2
        ring
      rw [step, ih]
      simp [fullChars, lastBits, List.append_assoc]
  | case2 bs h =>
      intro d
      rcases bs with _ | ⟨a0, _ | ⟨a1, _ | ⟨a2, _ | ⟨a3, _ | ⟨a4, _ | ⟨a5, tl⟩⟩⟩⟩⟩⟩
      · simp [writeBits, fullChars, lastBits, partVal]
      · simp [writeBits, fullChars, lastBits, partVal, pushBit]
      · simp [writeBits, fullChars, lastBits, partVal, pushBit]
      · simp [writeBits, fullChars, lastBits, partVal, pushBit]
      · simp [writeBits, fullChars, lastBits, partVal, pushBit]
      · simp [writeBits, fullChars, lastBits, partVal, pushBit]
      · exact absurd rfl (h a0 a1 a2 a3 a4 a5 tl)

/-- The final flush: shift the pending partial chunk to the top of a
character and append it. -/
theorem flushData_spec (st : CData) (h : st.pos < 6) :
    flushData 6 charOfUriSafe 6 st = st.data ++ [charOfUriSafe (st.val * 2 ^ (6 - st.pos))] := by
  rcases st with ⟨d, v, p⟩
  simp only at h
  interval_cases p <;> simp [flushData] <;> ring_nf

/-- The complete packed character stream of a bit list: chunk characters
followed by the flush character. -/
def packChars (B : List Nat) : Str :=
  fullChars B ++ [charOfUriSafe (partVal (lastBits B) * 2 ^ (6 - (lastBits B).length))]

theorem pack_flush (B : List Nat) :
    flushData 6 charOfUriSafe 6 (writeBits 6 charOfUriSafe B { data := [], val := 0, pos := 0 }) =
      packChars B := by
  rw [writeBits_spec B []]
  rw [flushData_spec _ (by simpa using lastBits_length_lt B)]
  simp [packChars]

/-- The value the decompressor's bit reader sees at input index `i`. -/
def streamVal (T : Str) (i : Nat) : Nat := (nextUriVal T i).getD 0

/-- Bit `p` of the packed stream as the reader extracts it: bit `5 - p % 6`
of character `p / 6`. -/
def streamBit (T : Str) (p : Nat) : Nat := streamVal T (p / 6) / 2 ^ (5 - p % 6) % 2

theorem getBaseValue_charOf (v : Nat) (hv : v < 64) :
    getBaseValue keyStrUriSafe (charOfUriSafe v) = some v := by
  interval_cases v <;> rfl

theorem partVal_aux (bs : List Nat) (h : ∀ b ∈ bs, b ≤ 1) :
    ∀ a, bs.foldl (fun a b => 2 * a + b) a < (a + 1) * 2 ^ bs.length := by
  induction bs with
  | nil => intro a; simp
  | cons b tl ih =>
      intro a
      have hb : b ≤ 1 := h b (List.mem_cons_self ..)
      have h2 := ih (fun x hx => h x (List.mem_cons_of_mem _ hx)) (2 * a + b)
      have h3 : (2 * a + b + 1) * 2 ^ tl.length ≤ (2 * (a + 1)) * 2 ^ tl.length :=
        Nat.mul_le_mul_right _ (by omega)
      have h4 : (2 * (a + 1)) * 2 ^ tl.length = (a + 1) * 2 ^ (tl.length + 1) := by ring
      simp only [List.foldl_cons, List.length_cons]
      omega

theorem partVal_lt (bs : List Nat) (h : ∀ b ∈ bs, b ≤ 1) : partVal bs < 2 ^ bs.length := by
  have := partVal_aux bs h 0
  simpa [partVal] using this

/-- The reader positioned at bit `p` of the stream: the character holding bit
`p` is loaded, the mask selects bit `5 - p % 6` of it. -/
def rdAt (T : Str) (p : Nat) : DData :=
  { val := nextUriVal T (p / 6), pos := 2 ^ (5 - p % 6), index := p / 6 + 1 }

theorem nextUriVal_lt (T : Str) (i v : Nat) (h : nextUriVal T i = some v) : v < 65 := by
  unfold nextUriVal at h
  split at h
  · unfold getBaseValue List.indexOf? at h
    have h1 := (List.findIdx?_eq_some_iff_findIdx_eq.mp h).1
    have h2 : keyStrUriSafe.length = 65 := rfl
    omega
  · cases h

theorem bitTest_eq (v k : Nat) (hv : v < 65) (hk : k < 6) :
    (if v &&& 2 ^ k > 0 then 1 else 0) = v / 2 ^ k % 2 := by
  interval_cases k <;> interval_cases v <;> decide

/-- Reading one bit from position `p` yields stream bit `p` and advances to
position `p + 1`. Holds for every `p`: an absent character reads as zero. -/
theorem readBit_at (T : Str) (p : Nat) :
    readBit 32 (nextUriVal T) (rdAt T p) = (streamBit T p, rdAt T (p + 1)) := by
  have hv : (nextUriVal T (p / 6)).getD 0 < 65 := by
    rcases h : nextUriVal T (p / 6) with _ | v
    · simp
    · simpa using nextUriVal_lt T _ _ h
  have hmod : p % 6 < 6 := Nat.mod_lt _ (by omega)
  have hbit := bitTest_eq ((nextUriVal T (p / 6)).getD 0) (5 - p % 6) hv (by omega)
  by_cases hc : p % 6 = 5
  · have h1 : (5 : Nat) - p % 6 = 0 := by omega
    have h2 : (p + 1) / 6 = p / 6 + 1 := by omega
    have h3 : (5 : Nat) - (p + 1) % 6 = 5 := by omega
    rw [h1] at hbit
    rcases hnv : nextUriVal T (p / 6) with _ | v
    · rw [hnv] at hbit
      simp [readBit, rdAt, streamBit, streamVal, hnv, h1, h2, h3, hbit]
    · rw [hnv] at hbit
      simp [readBit, rdAt, streamBit, streamVal, hnv, h1, h2, h3, hbit]
      split_ifs <;> omega
  · have h7 : (5 : Nat) - (p + 1) % 6 = 4 - p % 6 := by omega
    have h6 : (5 : Nat) - p % 6 = (4 - p % 6) + 1 := by omega
    have h1 : (2 : Nat) ^ (5 - p % 6) / 2 = 2 ^ (5 - (p + 1) % 6) := by
      rw [h6, h7, pow_succ, Nat.mul_div_cancel _ (by omega : (0 : Nat) < 2)]
    have h2 : (p + 1) / 6 = p / 6 := by omega
    have h4 : (2 : Nat) ^ (5 - (p + 1) % 6) ≠ 0 := by positivity
    rcases hnv : nextUriVal T (p / 6) with _ | v
    · rw [hnv] at hbit
      simp [readBit, rdAt, streamBit, streamVal, hnv, h1, h2, h4, hbit]
    · rw [hnv] at hbit
      simp only [Option.getD_some] at hbit
      simp [readBit, rdAt, streamBit, streamVal, hnv, h1, h2, h4]
      simpa using hbit

/-- The value of `n` stream bits starting at position `p`, least-significant
first. -/
def segVal (T : Str) : Nat → Nat → Nat
  | 0, _ => 0
  | n + 1, p => streamBit T p + 2 * segVal T n (p + 1)

/-- Reading `n` bits from position `p` yields the stream value there and
advances to position `p + n`. -/
theorem readBits_at (T : Str) (n p : Nat) :
    readBits 32 (nextUriVal T) n (rdAt T p) = (segVal T n p, rdAt T (p + n)) := by
  induction n generalizing p with
  | zero => simp [readBits, segVal]
  | succ n ih =>
      rw [readBits, readBit_at]
      simp only
      rw [ih (p + 1)]
      simp only [segVal]
      rw [show p + 1 + n = p + (n + 1) from by omega]

/-- If the stream bits at `p, ..., p + n - 1` are the binary digits of `v`
(least-significant first) and `v < 2 ^ n`, reading `n` bits returns `v`. -/
theorem segVal_of_bits (T : Str) (n : Nat) : ∀ p v, v < 2 ^ n →
    (∀ i < n, streamBit T (p + i) = v / 2 ^ i % 2) → segVal T n p = v := by
  induction n with
  | zero => intro p v hv _; simp [segVal]; omega
  | succ n ih =>
      intro p v hv hbits
      have h0 := hbits 0 (by omega)
      have hrec : segVal T n (p + 1) = v / 2 := by
        refine ih (p + 1) (v / 2) (by omega) ?_
        intro i hi
        have := hbits (i + 1) (by omega)
        rw [show p + 1 + i = p + (i + 1) from by omega, this,
          Nat.div_div_eq_div_mul, pow_succ]
        ring_nf
      simp only [segVal, hrec, h0]
      simp at h0 ⊢
      omega

/-- Bit `p` of the packed stream of `B` is `B`'s bit `p` — whatever characters
follow the token. -/
theorem streamBit_pack (B : List Nat) : ∀ junk p, (∀ b ∈ B, b ≤ 1) → p < B.length →
    streamBit (packChars B ++ junk) p = B.getD p 0 := by
  induction B using fullChars.induct with
  | case1 b0 b1 b2 b3 b4 b5 rest ih =>
      intro junk p hval hp
      have hb0 : b0 ≤ 1 := hval _ (by simp)
      have hb1 : b1 ≤ 1 := hval _ (by simp)
      have hb2 : b2 ≤ 1 := hval _ (by simp)
      have hb3 : b3 ≤ 1 := hval _ (by simp)
      have hb4 : b4 ≤ 1 := hval _ (by simp)
      have hb5 : b5 ≤ 1 := hval _ (by simp)
      have hpk : packChars (b0 :: b1 :: b2 :: b3 :: b4 :: b5 :: rest) ++ junk =
          charOfUriSafe (32 * b0 + 16 * b1 + 8 * b2 + 4 * b3 + 2 * b4 + b5) ::
            (packChars rest ++ junk) := by
        simp [packChars, fullChars, lastBits]
      rw [hpk]
      by_cases hp6 : p < 6
      · have hv64 : 32 * b0 + 16 * b1 + 8 * b2 + 4 * b3 + 2 * b4 + b5 < 64 := by omega
        have hd0 : p / 6 = 0 := by omega
        unfold streamBit streamVal nextUriVal
        rw [hd0]
        simp only [List.get?_cons_zero]
        rw [getBaseValue_charOf _ hv64]
        simp only [Option.getD_some]
        interval_cases p <;> simp <;> omega
      · have hd : p / 6 = (p - 6) / 6 + 1 := by omega
        have hm : p % 6 = (p - 6) % 6 := by omega
        have hget : (b0 :: b1 :: b2 :: b3 :: b4 :: b5 :: rest).getD p 0 =
            rest.getD (p - 6) 0 := by
          rcases p with _ | _ | _ | _ | _ | _ | q
          all_goals first
            | omega
            | simp [List.getD_cons_succ]
        have hnext : ∀ i, nextUriVal
            (charOfUriSafe (32 * b0 + 16 * b1 + 8 * b2 + 4 * b3 + 2 * b4 + b5) ::
              (packChars rest ++ junk)) (i + 1) = nextUriVal (packChars rest ++ junk) i := by
          intro i
          unfold nextUriVal
          simp [List.get?_cons_succ]
        have goal2 : streamBit (charOfUriSafe (32 * b0 + 16 * b1 + 8 * b2 + 4 * b3 + 2 * b4 + b5) ::
            (packChars rest ++ junk)) p = streamBit (packChars rest ++ junk) (p - 6) := by
          unfold streamBit streamVal
          rw [hd, hm, hnext]
        rw [goal2, hget]
        refine ih junk (p - 6) (fun b hb => hval b (by simp [hb])) ?_
        simp at hp
        omega
  | case2 bs h =>
      intro junk p hval hp
      rcases bs with _ | ⟨a0, _ | ⟨a1, _ | ⟨a2, _ | ⟨a3, _ | ⟨a4, _ | ⟨a5, tl⟩⟩⟩⟩⟩⟩
      · simp at hp
      · -- [a0]
        have e0 : a0 ≤ 1 := hval _ (by simp)
        have hch : packChars [a0] ++ junk = charOfUriSafe (a0 * 2 ^ 5) :: junk := by
          show charOfUriSafe (partVal [a0] * 2 ^ 5) :: junk = _
          simp [partVal]
        rw [hch]
        have hpr : p < 1 := by simpa using hp
        unfold streamBit streamVal nextUriVal
        have hd0 : p / 6 = 0 := by omega
        have hm : p % 6 = p := by omega
        rw [hd0, hm]
        simp only [List.get?_cons_zero]
        rw [getBaseValue_charOf _ (by omega)]
        simp only [Option.getD_some]
        interval_cases p <;> simp <;> omega
      · -- [a0, a1]
        have e0 : a0 ≤ 1 := hval _ (by simp)
        have e1 : a1 ≤ 1 := hval _ (by simp)
        have hch : packChars [a0, a1] ++ junk = charOfUriSafe ((2 * a0 + a1) * 2 ^ 4) :: junk := by
          show charOfUriSafe (partVal [a0, a1] * 2 ^ 4) :: junk = _
          simp [partVal]
        rw [hch]
        have hpr : p < 2 := by simpa using hp
        unfold streamBit streamVal nextUriVal
        have hd0 : p / 6 = 0 := by omega
        have hm : p % 6 = p := by omega
        rw [hd0, hm]
        simp only [List.get?_cons_zero]
        rw [getBaseValue_charOf _ (by omega)]
        simp only [Option.getD_some]
        interval_cases p <;> simp <;> omega
      · -- [a0, a1, a2]
        have e0 : a0 ≤ 1 := hval _ (by simp)
        have e1 : a1 ≤ 1 := hval _ (by simp)
        have e2 : a2 ≤ 1 := hval _ (by simp)
        have hch : packChars [a0, a1, a2] ++ junk = charOfUriSafe ((4 * a0 + 2 * a1 + a2) * 2 ^ 3) :: junk := by
          show charOfUriSafe (partVal [a0, a1, a2] * 2 ^ 3) :: junk = _
          simp [partVal]
          congr 1
          ring
        rw [hch]
        have hpr : p < 3 := by simpa using hp
        unfold streamBit streamVal nextUriVal
        have hd0 : p / 6 = 0 := by omega
        have hm : p % 6 = p := by omega
        rw [hd0, hm]
        simp only [List.get?_cons_zero]
        rw [getBaseValue_charOf _ (by omega)]
        simp only [Option.getD_some]
        interval_cases p <;> simp <;> omega
      · -- [a0, a1, a2, a3]
        have e0 : a0 ≤ 1 := hval _ (by simp)
        have e1 : a1 ≤ 1 := hval _ (by simp)
        have e2 : a2 ≤ 1 := hval _ (by simp)
        have e3 : a3 ≤ 1 := hval _ (by simp)
        have hch : packChars [a0, a1, a2, a3] ++ junk = charOfUriSafe ((8 * a0 + 4 * a1 + 2 * a2 + a3) * 2 ^ 2) :: junk := by
          show charOfUriSafe (partVal [a0, a1, a2, a3] * 2 ^ 2) :: junk = _
          simp [partVal]
          congr 1
          ring
        rw [hch]
        have hpr : p < 4 := by simpa using hp
        unfold streamBit streamVal nextUriVal
        have hd0 : p / 6 = 0 := by omega
        have hm : p % 6 = p := by omega
        rw [hd0, hm]
        simp only [List.get?_cons_zero]
        rw [getBaseValue_charOf _ (by omega)]
        simp only [Option.getD_some]
        interval_cases p <;> simp <;> omega
      · -- [a0, a1, a2, a3, a4]
        have e0 : a0 ≤ 1 := hval _ (by simp)
        have e1 : a1 ≤ 1 := hval _ (by simp)
        have e2 : a2 ≤ 1 := hval _ (by simp)
        have e3 : a3 ≤ 1 := hval _ (by simp)
        have e4 : a4 ≤ 1 := hval _ (by simp)
        have hch : packChars [a0, a1, a2, a3, a4] ++ junk = charOfUriSafe ((16 * a0 + 8 * a1 + 4 * a2 + 2 * a3 + a4) * 2 ^ 1) :: junk := by
          show charOfUriSafe (partVal [a0, a1, a2, a3, a4] * 2 ^ 1) :: junk = _
          simp [partVal]
          congr 1
          ring
        rw [hch]
        have hpr : p < 5 := by simpa using hp
        unfold streamBit streamVal nextUriVal
        have hd0 : p / 6 = 0 := by omega
        have hm : p % 6 = p := by omega
        rw [hd0, hm]
        simp only [List.get?_cons_zero]
        rw [getBaseValue_charOf _ (by omega)]
        simp only [Option.getD_some]
        interval_cases p <;> simp <;> omega
      · exact absurd rfl (h a0 a1 a2 a3 a4 a5 tl)

/-! ## The compressor as a bit-list producer

Every write of `_compress` goes through `writeValue`; collecting the written
bits gives a flat bit list, and the output token is its packing. -/

/-- The initial `context` of `_compress`. -/
def cInit : CCtx :=
  { dict := [], toCreate := [], w := [], enlargeIn := 2, dictSize := 3,
    numBits := 2, out := { data := [], val := 0, pos := 0 } }

/-- The bits `produceW` writes for the pending phrase `context_w`. -/
def emitBitsW (ctx : CCtx) : List Nat :=
  if ctx.toCreate.contains ctx.w then
    match ctx.w with
    | c0 :: _ =>
        if c0 < 256 then bitsLSB ctx.numBits 0 ++ bitsLSB 8 c0
        else bitsLSB ctx.numBits 1 ++ bitsLSB 16 c0
    | [] => bitsLSB ctx.numBits 1 ++ bitsLSB 16 0
  else bitsLSB ctx.numBits ((ctx.dict.lookup ctx.w).getD 0)

/-- The `enlargeIn` / `numBits` update of `applyBump`, on the bare pair. -/
def bumpEN (en : Nat × Nat) : Nat × Nat :=
  if en.1 - 1 = 0 then (2 ^ en.2, en.2 + 1) else (en.1 - 1, en.2)

/-- The width bookkeeping of one full emission: two bumps for a
character-introduction, one for a plain code. -/
def emitEN (ctx : CCtx) : Nat × Nat :=
  if ctx.toCreate.contains ctx.w then bumpEN (bumpEN (ctx.enlargeIn, ctx.numBits))
  else bumpEN (ctx.enlargeIn, ctx.numBits)

theorem applyBump_spec (ctx : CCtx) :
    applyBump ctx = { ctx with enlargeIn := (bumpEN (ctx.enlargeIn, ctx.numBits)).1,
                               numBits := (bumpEN (ctx.enlargeIn, ctx.numBits)).2 } := by
  unfold applyBump bumpEN
  split <;> rename_i h <;> simp [h]

/-- Full characterisation of `emitW`: it writes `emitBitsW`, erases the
pending-introduction mark, applies the width bumps, and touches nothing
else. -/
theorem emitW_spec (ctx : CCtx) :
    emitW 6 charOfUriSafe ctx =
      { dict := ctx.dict,
        toCreate := if ctx.toCreate.contains ctx.w then ctx.toCreate.erase ctx.w
                    else ctx.toCreate,
        w := ctx.w,
        enlargeIn := (emitEN ctx).1,
        numBits := (emitEN ctx).2,
        dictSize := ctx.dictSize,
        out := writeBits 6 charOfUriSafe (emitBitsW ctx) ctx.out } := by
  unfold emitW produceW emitBitsW emitEN
  split
  · rename_i hc
    rw [applyBump_spec]
    split
    · rename_i c0 w' hw
      split
      · rename_i h256
        rw [applyBump_spec]
        simp [hc, hw, h256, writeValue_eq_writeBits, writeBits_append, applyBump_spec]
      · rename_i h256
        rw [applyBump_spec]
        simp [hc, hw, h256, writeValue_eq_writeBits, writeBits_append, applyBump_spec]
    · rename_i hw
      rw [applyBump_spec]
      simp [hc, hw, writeValue_eq_writeBits, writeBits_append, applyBump_spec]
  · rename_i hc
    rw [applyBump_spec]
    simp [hc, writeValue_eq_writeBits]

theorem compressStepA_w (ctx : CCtx) (c : Nat) : (compressStepA ctx c).w = ctx.w := by
  unfold compressStepA
  split <;> rfl

/-- The bits one loop iteration of `_compress` writes. -/
def stepBits (ctx : CCtx) (c : Nat) : List Nat :=
  if (((compressStepA ctx c).dict.lookup ((compressStepA ctx c).w ++ [c])).isSome) then []
  else emitBitsW (compressStepA ctx c)

/-- All bits the rest of the compressor run will write from state `ctx`:
the loop emissions, the final emission, and the end-of-stream marker. -/
def futBits (ctx : CCtx) : Str → List Nat
  | [] =>
      (if ctx.w ≠ [] then emitBitsW ctx else []) ++
        bitsLSB (if ctx.w ≠ [] then (emitEN ctx).2 else ctx.numBits) 2
  | c :: rest => stepBits ctx c ++ futBits (compressStep 6 charOfUriSafe ctx c) rest

/-- The tail of `lzCompress` from an arbitrary mid-run state. -/
def compressFinish (ctx : CCtx) (rest : Str) : CData :=
  let ctx1 := rest.foldl (compressStep 6 charOfUriSafe) ctx
  let ctx2 := if ctx1.w ≠ [] then emitW 6 charOfUriSafe ctx1 else ctx1
  writeValue 6 charOfUriSafe ctx2.numBits 2 ctx2.out

theorem compressToEncoded_eq_finish (input : Str) :
    compressToEncodedURIComponent input =
      flushData 6 charOfUriSafe 6 (compressFinish cInit input) := rfl

theorem compressStep_out (ctx : CCtx) (c : Nat) :
    (compressStep 6 charOfUriSafe ctx c).out =
      writeBits 6 charOfUriSafe (stepBits ctx c) ctx.out := by
  unfold compressStep compressStepB stepBits
  split
  · rename_i h
    simp [h, writeBits, compressStepA_out]
  · rename_i h
    simp only [h]
    rw [emitW_spec]
    simp [h, compressStepA_out]

theorem compressFinish_eq (rest : Str) : ∀ ctx : CCtx,
    compressFinish ctx rest = writeBits 6 charOfUriSafe (futBits ctx rest) ctx.out := by
  induction rest with
  | nil =>
      intro ctx
      unfold compressFinish futBits
      by_cases hw : ctx.w = []
      · simp [hw, writeValue_eq_writeBits]
      · simp only [hw, List.foldl_nil, ne_eq, not_false_iff, if_true, if_pos]
        rw [emitW_spec]
        simp [writeValue_eq_writeBits, writeBits_append, hw]
  | cons c rest ih =>
      intro ctx
      have hstep : compressFinish ctx (c :: rest) =
          compressFinish (compressStep 6 charOfUriSafe ctx c) rest := rfl
      rw [hstep, ih, futBits]
      rw [writeBits_append, compressStep_out]

theorem emitBitsW_le_one (ctx : CCtx) : ∀ b ∈ emitBitsW ctx, b ≤ 1 := by
  unfold emitBitsW
  split
  · split
    · split <;>
        (intro b hb
         rcases List.mem_append.mp hb with h | h
         · exact bitsLSB_le_one _ _ _ h
         · exact bitsLSB_le_one _ _ _ h)
    · intro b hb
      rcases List.mem_append.mp hb with h | h
      · exact bitsLSB_le_one _ _ _ h
      · exact bitsLSB_le_one _ _ _ h
  · exact bitsLSB_le_one _ _

theorem futBits_le_one (rest : Str) : ∀ ctx, ∀ b ∈ futBits ctx rest, b ≤ 1 := by
  induction rest with
  | nil =>
      intro ctx b hb
      unfold futBits at hb
      rcases List.mem_append.mp hb with h | h
      · split at h
        · exact emitBitsW_le_one _ _ h
        · simp at h
      · exact bitsLSB_le_one _ _ _ h
  | cons c rest ih =>
      intro ctx b hb
      unfold futBits at hb
      rcases List.mem_append.mp hb with h | h
      · unfold stepBits at h
        split at h
        · simp at h
        · exact emitBitsW_le_one _ _ h
      · exact ih _ _ h

/-! ## Synchronisation of compressor and decompressor

The decompressor replays the compressor dictionary one emission behind.
`SInv` is the simulation invariant at emission boundaries. -/

theorem fullChars_length (B : List Nat) : (fullChars B).length = B.length / 6 := by
  induction B using fullChars.induct with
  | case1 b0 b1 b2 b3 b4 b5 rest ih =>
      simp only [fullChars, List.length_cons, ih]
      omega
  | case2 bs h =>
      rw [fullChars.eq_def]
      split
      · rename_i b0 b1 b2 b3 b4 b5 rest
        exact absurd rfl (h b0 b1 b2 b3 b4 b5 rest)
      · rcases bs with _ | ⟨a0, _ | ⟨a1, _ | ⟨a2, _ | ⟨a3, _ | ⟨a4, _ | ⟨a5, tl⟩⟩⟩⟩⟩⟩ <;>
          first
            | exact absurd rfl (h a0 a1 a2 a3 a4 a5 tl)
            | simp

theorem packChars_length (B : List Nat) : (packChars B).length = B.length / 6 + 1 := by
  simp [packChars, fullChars_length]

theorem rdAt_index_le (Bt : List Nat) (junk : Str) (p : Nat) (hp : p ≤ Bt.length) :
    p / 6 + 1 ≤ (packChars Bt ++ junk).length := by
  have h1 := packChars_length Bt
  have h2 : p / 6 ≤ Bt.length / 6 := Nat.div_le_div_right hp
  simp only [List.length_append]
  omega

theorem getD_append_right (a b : List Nat) (i : Nat) :
    (a ++ b).getD (a.length + i) 0 = b.getD i 0 := by
  simp only [List.getD]
  rw [List.get?_append_right (by omega : a.length ≤ a.length + i)]
  rw [Nat.add_sub_cancel_left]

/-- Reading back a written value: if the stream is the packing of
`B ++ bitsLSB n v ++ C`, reading `n` bits from position `|B|` returns `v`. -/
theorem read_written (T : Str) (B C : List Nat) (junk : Str) (n v : Nat)
    (hT : T = packChars (B ++ bitsLSB n v ++ C) ++ junk)
    (hB : ∀ b ∈ B, b ≤ 1) (hC : ∀ b ∈ C, b ≤ 1) (hv : v < 2 ^ n) :
    readBits 32 (nextUriVal T) n (rdAt T B.length) = (v, rdAt T (B.length + n)) := by
  rw [readBits_at]
  refine congrArg (fun x => (x, rdAt T (B.length + n))) ?_
  refine segVal_of_bits T n B.length v hv ?_
  intro i hi
  have hval : ∀ b ∈ B ++ bitsLSB n v ++ C, b ≤ 1 := by
    intro b hb
    rcases List.mem_append.mp hb with h | h
    · rcases List.mem_append.mp h with h2 | h2
      · exact hB _ h2
      · exact bitsLSB_le_one _ _ _ h2
    · exact hC _ h
  have hlen : B.length + i < (B ++ bitsLSB n v ++ C).length := by
    simp [bitsLSB_length]
    omega
  rw [hT, streamBit_pack _ junk _ hval hlen]
  rw [List.append_assoc, getD_append_right]
  rw [List.getD_append _ _ _ _ (by rw [bitsLSB_length]; omega)]
  exact bitsLSB_getD n v i hi

theorem bumpEN_pos (e n : Nat) : 1 ≤ (bumpEN (e, n)).1 := by
  unfold bumpEN
  split
  · simp only
    exact Nat.one_le_two_pow
  · simp only
    omega

theorem bumpEN_n_ge (e n : Nat) : n ≤ (bumpEN (e, n)).2 := by
  unfold bumpEN
  split <;> simp <;> omega

theorem bumpEN_sum (d e n : Nat) (h : d + e = 2 ^ n) (he : 1 ≤ e) :
    d + 1 + (bumpEN (e, n)).1 = 2 ^ (bumpEN (e, n)).2 := by
  unfold bumpEN
  split
  · rename_i h0
    simp only at h0 ⊢
    have : e = 1 := by omega
    subst this
    simp [pow_succ]
    omega
  · rename_i h0
    simp only at h0 ⊢
    omega

/-- The `growWidth` / decrement path of the decompressor loop body equals
`bumpEN`. -/
theorem grow_decr (e n : Nat) :
    (if e - 1 = 0 then (2 ^ n, n + 1) else (e - 1, n)) = bumpEN (e, n) := rfl

theorem decompressLoop_succ (len rv : Nat) (next : Nat → Option Nat) (fuel : Nat) (st0 : DState) :
    decompressLoop len rv next (fuel + 1) st0 =
      if st0.rd.index > len then .done (some []) else
      let (bits, rd1) := readBits rv next st0.numBits st0.rd
      match decompressSwitch rv next bits rd1 st0 with
      | none => .done (some st0.result.flatten)
      | some (c, st1) =>
        match decompressTailState c st1 with
        | none => .done none
        | some st4 => decompressLoop len rv next fuel st4 := rfl

/-- `decompressTailState` with both `growWidth` checks expressed through
`bumpEN`. -/
theorem decompressTailState_spec (c : Nat) (st1 : DState) :
    decompressTailState c st1 =
      (if ((st1.dictionary.get? c).getD []) = [] ∧ c ≠ st1.dictSize then none
       else
         some { dictionary := st1.dictionary ++
                  [st1.w ++ (if ((st1.dictionary.get? c).getD []) ≠ []
                             then ((st1.dictionary.get? c).getD [])
                             else st1.w ++ st1.w.take 1).take 1],
                enlargeIn := (bumpEN (bumpEN (st1.enlargeIn + 1, st1.numBits))).1,
                dictSize := st1.dictSize + 1,
                numBits := (bumpEN (bumpEN (st1.enlargeIn + 1, st1.numBits))).2,
                result := st1.result ++
                  [if ((st1.dictionary.get? c).getD []) ≠ []
                   then ((st1.dictionary.get? c).getD [])
                   else st1.w ++ st1.w.take 1],
                w := (if ((st1.dictionary.get? c).getD []) ≠ []
                      then ((st1.dictionary.get? c).getD [])
                      else st1.w ++ st1.w.take 1),
                rd := st1.rd }) := by
  unfold decompressTailState growWidth
  by_cases h1 : st1.enlargeIn = 0
  · have hb1 : bumpEN (st1.enlargeIn + 1, st1.numBits) = (2 ^ st1.numBits, st1.numBits + 1) := by
      unfold bumpEN
      simp [h1]
    rw [if_pos h1, hb1]
    simp only
    split
    · rfl
    · by_cases h2 : 2 ^ st1.numBits - 1 = 0
      · have hb2 : bumpEN (2 ^ st1.numBits, st1.numBits + 1) =
            (2 ^ (st1.numBits + 1), st1.numBits + 1 + 1) := by
          unfold bumpEN
          simp [h2]
        rw [if_pos h2, hb2]
      · have hb2 : bumpEN (2 ^ st1.numBits, st1.numBits + 1) =
            (2 ^ st1.numBits - 1, st1.numBits + 1) := by
          unfold bumpEN
          simp [h2]
        rw [if_neg h2, hb2]
  · have hb1 : bumpEN (st1.enlargeIn + 1, st1.numBits) = (st1.enlargeIn, st1.numBits) := by
      unfold bumpEN
      simp [h1]
    rw [if_neg h1, hb1]
    simp only
    split
    · rfl
    · by_cases h2 : st1.enlargeIn - 1 = 0
      · have hb2 : bumpEN (st1.enlargeIn, st1.numBits) =
            (2 ^ st1.numBits, st1.numBits + 1) := by
          unfold bumpEN
          simp [h2]
        rw [if_pos h2, hb2]
      · have hb2 : bumpEN (st1.enlargeIn, st1.numBits) =
            (st1.enlargeIn - 1, st1.numBits) := by
          unfold bumpEN
          simp [h2]
        rw [if_neg h2, hb2]

/-- Processing one emitted code: from a synchronised reader position the
decompressor loop consumes exactly the bits of the emission, resolves the
entry to the emitted phrase `ctxE.w`, and performs the bookkeeping mirrored
by the compressor. -/
theorem decode_emit (T : Str) (B C : List Nat) (junk : Str) (ctxE : CCtx) (dst : DState)
    (hT : T = packChars (B ++ (emitBitsW ctxE ++ C)) ++ junk)
    (hB : ∀ b ∈ B, b ≤ 1) (hC : ∀ b ∈ C, b ≤ 1)
    (hrd : dst.rd = rdAt T B.length)
    (he : dst.enlargeIn = ctxE.enlargeIn) (hn : dst.numBits = ctxE.numBits)
    (hep : 1 ≤ ctxE.enlargeIn) (hng : 3 ≤ ctxE.numBits)
    (hsum : dst.dictSize + dst.enlargeIn = 2 ^ dst.numBits)
    (hdlen : dst.dictionary.length = dst.dictSize)
    (hdw : dst.w ≠ []) (hwne : ctxE.w ≠ [])
    (hintro : ctxE.toCreate.contains ctxE.w = true → ∃ c0, ctxE.w = [c0] ∧ c0 < 65536)
    (href : ctxE.toCreate.contains ctxE.w = false →
      ∃ v, ctxE.dict.lookup ctxE.w = some v ∧ 3 ≤ v ∧
        ((v < dst.dictSize ∧ dst.dictionary.get? v = some ctxE.w) ∨
         (v = dst.dictSize ∧ ctxE.w = dst.w ++ ctxE.w.take 1)))
    (fuel : Nat) :
    decompressLoop T.length 32 (nextUriVal T) (fuel + 1) dst =
      decompressLoop T.length 32 (nextUriVal T) fuel
        { dictionary := (dst.dictionary ++
            (if ctxE.toCreate.contains ctxE.w then [ctxE.w] else [])) ++
            [dst.w ++ ctxE.w.take 1],
          enlargeIn := (emitEN ctxE).1,
          dictSize := dst.dictSize + (if ctxE.toCreate.contains ctxE.w then 2 else 1),
          numBits := (emitEN ctxE).2,
          result := dst.result ++ [ctxE.w],
          w := ctxE.w,
          rd := rdAt T (B.length + (emitBitsW ctxE).length) } := by
  have hidx : ¬ dst.rd.index > T.length := by
    rw [hrd]
    simp only [rdAt, not_lt]
    rw [hT]
    exact rdAt_index_le _ _ _ (by simp)
  rw [decompressLoop_succ, if_neg hidx]
  by_cases hc : ctxE.toCreate.contains ctxE.w
  · -- character introduction
    obtain ⟨c0, hw, hc0⟩ := hintro hc
    by_cases h256 : c0 < 256
    · have hemit : emitBitsW ctxE = bitsLSB ctxE.numBits 0 ++ bitsLSB 8 c0 := by
        unfold emitBitsW
        rw [if_pos hc, hw]
        simp [h256]
      have hr1 : readBits 32 (nextUriVal T) dst.numBits dst.rd =
          (0, rdAt T (B.length + ctxE.numBits)) := by
        rw [hrd, hn]
        refine read_written T B (bitsLSB 8 c0 ++ C) junk ctxE.numBits 0 ?_ hB ?_ (by positivity)
        · rw [hT, hemit]
          simp [List.append_assoc]
        · intro b hb
          rcases List.mem_append.mp hb with h | h
          · exact bitsLSB_le_one _ _ _ h
          · exact hC _ h
      have hr2 : readBits 32 (nextUriVal T) 8 (rdAt T (B.length + ctxE.numBits)) =
          (c0, rdAt T (B.length + ctxE.numBits + 8)) := by
        have h0 := read_written T (B ++ bitsLSB ctxE.numBits 0) C junk 8 c0 ?_ ?_ hC (by omega)
        · rw [List.length_append, bitsLSB_length] at h0
          exact h0
        · rw [hT, hemit]
          simp [List.append_assoc]
        · intro b hb
          rcases List.mem_append.mp hb with h | h
          · exact hB _ h
          · exact bitsLSB_le_one _ _ _ h
      have hsw : decompressSwitch 32 (nextUriVal T) 0 (rdAt T (B.length + ctxE.numBits)) dst =
          some (dst.dictSize,
            { dst with rd := rdAt T (B.length + ctxE.numBits + 8),
                       dictionary := dst.dictionary ++ [[c0]],
                       dictSize := dst.dictSize + 1,
                       enlargeIn := dst.enlargeIn - 1 }) := by
        unfold decompressSwitch
        rw [hr2]
      simp only [hr1]
      rw [hsw]
      simp only
      rw [decompressTailState_spec]
      simp only
      have hget1 : (((dst.dictionary ++ [[c0]]).get? dst.dictSize).getD []) = [c0] := by
        rw [← hdlen, List.get?_concat_length]
        rfl
      rw [hget1]
      rw [if_neg (by simp)]
      rw [if_pos (by simp)]
      congr 1
      have hE1 : dst.enlargeIn - 1 + 1 = dst.enlargeIn := by omega
      simp only [DState.mk.injEq, hE1, hemit, bitsLSB_length, List.length_append]
      rw [if_pos hc]
      unfold emitEN
      rw [if_pos hc, hw]
      have hcm : ([c0] : Str) ∈ ctxE.toCreate := by
        rw [← hw]
        simpa using hc
      simp [he, hn, List.append_assoc, Nat.add_assoc, hcm]
    · have hemit : emitBitsW ctxE = bitsLSB ctxE.numBits 1 ++ bitsLSB 16 c0 := by
        unfold emitBitsW
        rw [if_pos hc, hw]
        simp [h256]
      have hr1 : readBits 32 (nextUriVal T) dst.numBits dst.rd =
          (1, rdAt T (B.length + ctxE.numBits)) := by
        rw [hrd, hn]
        refine read_written T B (bitsLSB 16 c0 ++ C) junk ctxE.numBits 1 ?_ hB ?_
          (by
            have h8 : (2:Nat) ^ 3 ≤ 2 ^ ctxE.numBits := Nat.pow_le_pow_right (by omega) hng
            omega)
        · rw [hT, hemit]
          simp [List.append_assoc]
        · intro b hb
          rcases List.mem_append.mp hb with h | h
          · exact bitsLSB_le_one _ _ _ h
          · exact hC _ h
      have hr2 : readBits 32 (nextUriVal T) 16 (rdAt T (B.length + ctxE.numBits)) =
          (c0, rdAt T (B.length + ctxE.numBits + 16)) := by
        have h0 := read_written T (B ++ bitsLSB ctxE.numBits 1) C junk 16 c0 ?_ ?_ hC (by omega)
        · rw [List.length_append, bitsLSB_length] at h0
          exact h0
        · rw [hT, hemit]
          simp [List.append_assoc]
        · intro b hb
          rcases List.mem_append.mp hb with h | h
          · exact hB _ h
          · exact bitsLSB_le_one _ _ _ h
      have hsw : decompressSwitch 32 (nextUriVal T) 1 (rdAt T (B.length + ctxE.numBits)) dst =
          some (dst.dictSize,
            { dst with rd := rdAt T (B.length + ctxE.numBits + 16),
                       dictionary := dst.dictionary ++ [[c0]],
                       dictSize := dst.dictSize + 1,
                       enlargeIn := dst.enlargeIn - 1 }) := by
        unfold decompressSwitch
        rw [hr2]
      simp only [hr1]
      rw [hsw]
      simp only
      rw [decompressTailState_spec]
      simp only
      have hget1 : (((dst.dictionary ++ [[c0]]).get? dst.dictSize).getD []) = [c0] := by
        rw [← hdlen, List.get?_concat_length]
        rfl
      rw [hget1]
      rw [if_neg (by simp)]
      rw [if_pos (by simp)]
      congr 1
      have hE1 : dst.enlargeIn - 1 + 1 = dst.enlargeIn := by omega
      simp only [DState.mk.injEq, hE1, hemit, bitsLSB_length, List.length_append]
      rw [if_pos hc]
      unfold emitEN
      rw [if_pos hc, hw]
      have hcm : ([c0] : Str) ∈ ctxE.toCreate := by
        rw [← hw]
        simpa using hc
      simp [he, hn, List.append_assoc, Nat.add_assoc, hcm]
  · -- plain dictionary code
    obtain ⟨v, hlk, hv3, hres⟩ := href (by simpa using hc)
    have hemit : emitBitsW ctxE = bitsLSB ctxE.numBits v := by
      unfold emitBitsW
      rw [if_neg hc, hlk]
      simp
    have hvlt : v < 2 ^ dst.numBits := by
      rcases hres with ⟨h1, _⟩ | ⟨h1, _⟩ <;> omega
    have hr1 : readBits 32 (nextUriVal T) dst.numBits dst.rd =
        (v, rdAt T (B.length + ctxE.numBits)) := by
      rw [hrd, hn]
      refine read_written T B C junk ctxE.numBits v ?_ hB hC (by rw [← hn]; exact hvlt)
      rw [hT, hemit]
      simp [List.append_assoc]
    obtain ⟨k, rfl⟩ : ∃ k, v = k + 3 := ⟨v - 3, by omega⟩
    have hsw : decompressSwitch 32 (nextUriVal T) (k + 3)
        (rdAt T (B.length + ctxE.numBits)) dst =
        some (k + 3, { dst with rd := rdAt T (B.length + ctxE.numBits) }) := rfl
    simp only [hr1]
    rw [hsw]
    simp only
    rw [decompressTailState_spec]
    dsimp only
    have hstep : bumpEN (dst.enlargeIn + 1, dst.numBits) = (dst.enlargeIn, dst.numBits) := by
      unfold bumpEN
      have h0 : dst.enlargeIn + 1 - 1 = dst.enlargeIn := rfl
      simp only [h0]
      rw [if_neg (by omega)]
    rcases hres with ⟨hvlt2, hget⟩ | ⟨hveq, hweq⟩
    · rw [hget]
      simp only [Option.getD_some]
      rw [if_neg (by simp [hwne])]
      rw [if_pos hwne]
      congr 1
      simp only [DState.mk.injEq, hstep, hemit, bitsLSB_length]
      rw [if_neg hc, if_neg hc]
      unfold emitEN
      rw [if_neg hc]
      simp [he, hn]
    · have hget : dst.dictionary.get? (k + 3) = none := by
        rw [List.get?_eq_none]
        omega
      rw [hget]
      simp only [Option.getD_none]
      rw [if_neg (by first
          | (simp; omega)
          | simp
          | omega)]
      rw [if_neg (by simp)]
      have htk : ctxE.w.take 1 = dst.w.take 1 := by
        rcases hW : dst.w with _ | ⟨x, xs⟩
        · exact absurd hW hdw
        · conv_lhs => rw [hweq, hW]
          simp
      have hentry : dst.w ++ dst.w.take 1 = ctxE.w := by
        rw [← htk, ← hweq]
      congr 1
      simp only [DState.mk.injEq, hstep, hemit, bitsLSB_length, hentry]
      rw [if_neg hc, if_neg hc]
      unfold emitEN
      rw [if_neg hc]
      simp [he, hn, htk, hentry]

theorem bumpEN_pos' (p : Nat × Nat) : 1 ≤ (bumpEN p).1 := by
  rcases p with ⟨e, n⟩
  exact bumpEN_pos e n

theorem bumpEN_n_ge' (p : Nat × Nat) : p.2 ≤ (bumpEN p).2 := by
  rcases p with ⟨e, n⟩
  exact bumpEN_n_ge e n

theorem emitEN_pos (ctx : CCtx) : 1 ≤ (emitEN ctx).1 := by
  unfold emitEN
  split
  · exact bumpEN_pos' _
  · exact bumpEN_pos' _

theorem emitEN_n_ge (ctx : CCtx) : ctx.numBits ≤ (emitEN ctx).2 := by
  unfold emitEN
  split
  · exact le_trans (bumpEN_n_ge _ _) (bumpEN_n_ge' _)
  · exact bumpEN_n_ge _ _

theorem bumpEN_sum' (d : Nat) (p : Nat × Nat) (h : d + p.1 = 2 ^ p.2) (he : 1 ≤ p.1) :
    d + 1 + (bumpEN p).1 = 2 ^ (bumpEN p).2 := by
  rcases p with ⟨e, n⟩
  exact bumpEN_sum d e n h he

/-- Reading the end-of-stream marker: the loop returns the accumulated
result. -/
theorem decode_end (T : Str) (B : List Nat) (junk : Str) (n : Nat) (dst : DState)
    (hT : T = packChars (B ++ bitsLSB n 2) ++ junk)
    (hB : ∀ b ∈ B, b ≤ 1)
    (hrd : dst.rd = rdAt T B.length)
    (hn : dst.numBits = n) (hng : 3 ≤ n) (fuel : Nat) :
    decompressLoop T.length 32 (nextUriVal T) (fuel + 1) dst =
      .done (some dst.result.flatten) := by
  have hidx : ¬ dst.rd.index > T.length := by
    rw [hrd]
    simp only [rdAt, not_lt]
    rw [hT]
    exact rdAt_index_le _ _ _ (by simp)
  rw [decompressLoop_succ, if_neg hidx]
  have h2lt : (2 : Nat) < 2 ^ n := by
    have h8 : (2 : Nat) ^ 3 ≤ 2 ^ n := Nat.pow_le_pow_right (by omega) hng
    omega
  have hr1 : readBits 32 (nextUriVal T) dst.numBits dst.rd =
      (2, rdAt T (B.length + n)) := by
    rw [hrd, hn]
    refine read_written T B [] junk n 2 ?_ hB (by simp) h2lt
    rw [hT]
    simp
  simp only [hr1]
  rfl

/-- The simulation invariant relating the compressor state after an emission
to the decompressor state after processing the corresponding code, with the
reader at bit position `|B|`. -/
structure SInv (T : Str) (ctx : CCtx) (dst : DState) (B : List Nat) : Prop where
  out_eq : ctx.out = writeBits 6 charOfUriSafe B { data := [], val := 0, pos := 0 }
  bits_le : ∀ b ∈ B, b ≤ 1
  rd_eq : dst.rd = rdAt T B.length
  en_e : dst.enlargeIn = ctx.enlargeIn
  en_n : dst.numBits = ctx.numBits
  e_pos : 1 ≤ ctx.enlargeIn
  n_ge : 3 ≤ ctx.numBits
  size_sum : dst.dictSize + dst.enlargeIn = 2 ^ dst.numBits
  dlen : dst.dictionary.length = dst.dictSize
  dsize4 : 4 ≤ dst.dictSize
  w_ne : ctx.w ≠ []
  dw_ne : dst.w ≠ []
  wchars : ∀ x ∈ ctx.w, x < 65536
  codes_lt : ∀ p c, ctx.dict.lookup p = some c → 3 ≤ c ∧ c < ctx.dictSize ∧ p ≠ []
  codes_inj : ∀ p q c, ctx.dict.lookup p = some c → ctx.dict.lookup q = some c → p = q
  chars_first : ∀ p c, ctx.dict.lookup p = some c → ∀ x ∈ p,
    ∃ cx, ctx.dict.lookup [x] = some cx ∧ cx ≤ c
  w_code : ∃ cw, ctx.dict.lookup dst.w = some cw ∧ cw < dst.dictSize
  cw_code : ∃ cv, ctx.dict.lookup ctx.w = some cv
  tc_shape : ctx.toCreate = [] ∨
    (ctx.toCreate = [ctx.w] ∧ ctx.w.length = 1 ∧
     ctx.dict.lookup ctx.w = some dst.dictSize ∧
     ∀ c', ctx.dict.lookup (ctx.w ++ [c']) = none)
  size_rel : ctx.dictSize = dst.dictSize + 1 + (if ctx.toCreate = [] then 0 else 1)
  newphrase : ctx.dict.lookup (dst.w ++ ctx.w.take 1) =
    some (dst.dictSize + (if ctx.toCreate = [] then 0 else 1))
  low_codes : ∀ p c, ctx.dict.lookup p = some c → c < dst.dictSize →
    dst.dictionary.get? c = some p
  dict_ne : ∀ i e, 3 ≤ i → dst.dictionary.get? i = some e → e ≠ []
  high_codes : ∀ p c, ctx.dict.lookup p = some c → dst.dictSize ≤ c →
    (p = dst.w ++ ctx.w.take 1 ∧
     c = dst.dictSize + (if ctx.toCreate = [] then 0 else 1)) ∨
    (ctx.toCreate = [ctx.w] ∧ p = ctx.w ∧ c = dst.dictSize)

/-- The statement of the main simulation, parameterised by the remaining
compressor input. -/
def SimGoal (rest : Str) : Prop :=
  ∀ (ctx : CCtx) (dst : DState) (B : List Nat) (junk T : Str) (fuel : Nat),
    T = packChars (B ++ futBits ctx rest) ++ junk →
    SInv T ctx dst B →
    CodeUnits rest →
    3 * fuel ≥ (futBits ctx rest).length + 3 →
    decompressLoop T.length 32 (nextUriVal T) fuel dst =
      .done (some (dst.result.flatten ++ ctx.w ++ rest))

theorem emitBitsW_length_ge (ctx : CCtx) : ctx.numBits ≤ (emitBitsW ctx).length := by
  unfold emitBitsW
  split
  · split
    · split <;> simp [bitsLSB_length]
    · simp [bitsLSB_length]
  · simp [bitsLSB_length]

theorem sinv_hintro {T : Str} {ctx : CCtx} {dst : DState} {B : List Nat}
    (hSI : SInv T ctx dst B) (hc : ctx.toCreate.contains ctx.w = true) :
    ∃ c0, ctx.w = [c0] ∧ c0 < 65536 := by
  rcases hSI.tc_shape with h | ⟨h1, h2, _, _⟩
  · rw [h] at hc
    simp at hc
  · rcases hw : ctx.w with _ | ⟨c0, tl⟩
    · exact absurd hw hSI.w_ne
    · rw [hw] at h2
      simp at h2
      subst h2
      exact ⟨c0, rfl, hSI.wchars c0 (by rw [hw]; simp)⟩

theorem sinv_href {T : Str} {ctx : CCtx} {dst : DState} {B : List Nat}
    (hSI : SInv T ctx dst B) (hc : ctx.toCreate.contains ctx.w = false) :
    ∃ v, ctx.dict.lookup ctx.w = some v ∧ 3 ≤ v ∧
      ((v < dst.dictSize ∧ dst.dictionary.get? v = some ctx.w) ∨
       (v = dst.dictSize ∧ ctx.w = dst.w ++ ctx.w.take 1)) := by
  have htc : ctx.toCreate = [] := by
    rcases hSI.tc_shape with h | ⟨h, _⟩
    · exact h
    · exfalso
      rw [h] at hc
      simp at hc
  obtain ⟨v, hv⟩ := hSI.cw_code
  refine ⟨v, hv, (hSI.codes_lt _ _ hv).1, ?_⟩
  have hlt : v < ctx.dictSize := (hSI.codes_lt _ _ hv).2.1
  rw [hSI.size_rel, if_pos htc] at hlt
  by_cases hveq : v < dst.dictSize
  · exact Or.inl ⟨hveq, hSI.low_codes _ _ hv hveq⟩
  · have hge := hSI.high_codes _ _ hv (by omega)
    rcases hge with ⟨hp, _⟩ | ⟨htc2, _, _⟩
    · exact Or.inr ⟨by omega, hp⟩
    · rw [htc2] at htc
      cases htc

/-- The simulation, base case: the final emission followed by the
end-of-stream marker. -/
theorem sim_nil : SimGoal [] := by
  intro ctx dst B junk T fuel hT hSI hcu hfuel
  have hw := hSI.w_ne
  have hfut : futBits ctx [] = emitBitsW ctx ++ bitsLSB (emitEN ctx).2 2 := by
    unfold futBits
    rw [if_pos hw, if_pos hw]
  have hng2 : 3 ≤ (emitEN ctx).2 := le_trans hSI.n_ge (emitEN_n_ge ctx)
  have hlen1 : 3 ≤ (emitBitsW ctx).length := le_trans hSI.n_ge (emitBitsW_length_ge ctx)
  have hlen2 : (futBits ctx []).length = (emitBitsW ctx).length + (emitEN ctx).2 := by
    rw [hfut]
    simp [bitsLSB_length]
  obtain ⟨f, rfl⟩ : ∃ f, fuel = f + 2 := ⟨fuel - 2, by omega⟩
  rw [hfut] at hT
  rw [show f + 2 = (f + 1) + 1 from rfl]
  rw [decode_emit T B (bitsLSB (emitEN ctx).2 2) junk ctx dst hT hSI.bits_le
    (bitsLSB_le_one _ _) hSI.rd_eq hSI.en_e hSI.en_n hSI.e_pos hSI.n_ge hSI.size_sum
    hSI.dlen hSI.dw_ne hSI.w_ne (fun hc => sinv_hintro hSI hc)
    (fun hc => sinv_href hSI hc) (f + 1)]
  rw [decode_end T (B ++ emitBitsW ctx) junk (emitEN ctx).2 _ ?_ ?_ ?_ rfl hng2 f]
  · simp
  · rw [hT]
    simp [List.append_assoc]
  · intro b hb
    rcases List.mem_append.mp hb with h | h
    · exact hSI.bits_le _ h
    · exact emitBitsW_le_one _ _ h
  · simp [List.length_append]

theorem lookup_cons' (p k : Str) (v : Nat) (l : List (Str × Nat)) :
    List.lookup p ((k, v) :: l) = if p = k then some v else List.lookup p l := by
  rw [List.lookup_cons]
  by_cases h : p = k
  · rw [if_pos h]
    rw [show (p == k) = true from beq_iff_eq.mpr h]
  · rw [if_neg h]
    rw [show (p == k) = false from by simpa using h]

/-- The simulation, emission step: a dictionary miss at character `c` makes
the compressor emit `ctx.w`; the decompressor processes that code and both
sides re-synchronise. `ctxA` is the compressor state after the first-seen
interning of `c` (the right disjunct of `hshape`). -/
theorem sim_emit (c : Nat) (rest : Str) (ih : SimGoal rest)
    (ctx ctxA : CCtx) (dst : DState) (B : List Nat) (junk T : Str) (f : Nat)
    (hSI : SInv T ctx dst B)
    (hT : T = packChars (B ++ futBits ctx (c :: rest)) ++ junk)
    (hc16 : c < 65536) (hcur : CodeUnits rest)
    (hA : compressStepA ctx c = ctxA)
    (hAw : ctxA.w = ctx.w) (hAe : ctxA.enlargeIn = ctx.enlargeIn)
    (hAn : ctxA.numBits = ctx.numBits) (hAo : ctxA.out = ctx.out)
    (hshape : (ctxA.dict = ctx.dict ∧ ctxA.dictSize = ctx.dictSize ∧
               ctxA.toCreate = ctx.toCreate ∧ (ctx.dict.lookup [c]).isSome) ∨
              (ctxA.dict = ([c], ctx.dictSize) :: ctx.dict ∧
               ctxA.dictSize = ctx.dictSize + 1 ∧
               ctxA.toCreate = [c] :: ctx.toCreate ∧ ctx.dict.lookup [c] = none))
    (hMiss : ctx.dict.lookup (ctx.w ++ [c]) = none)
    (hfuel : 3 * (f + 1) ≥ (futBits ctx (c :: rest)).length + 3) :
    decompressLoop T.length 32 (nextUriVal T) (f + 1) dst =
      .done (some (dst.result.flatten ++ ctx.w ++ (c :: rest))) := by
  obtain ⟨cv, hcv⟩ := hSI.cw_code
  have hwc_ne : ∀ hn : ctx.dict.lookup [c] = none, ctx.w ≠ [c] := by
    intro hn heq
    rw [heq, hn] at hcv
    cases hcv
  have hwc_len : ctx.w ++ [c] ≠ [c] := by
    intro heq
    have h1 := congrArg List.length heq
    simp at h1
    exact absurd h1 hSI.w_ne
  have hMissA : (ctxA.dict.lookup (ctxA.w ++ [c])).isSome = false := by
    rw [hAw]
    rcases hshape with ⟨hd, _, _, _⟩ | ⟨hd, _, _, _⟩
    · rw [hd, hMiss]
      rfl
    · rw [hd, lookup_cons', if_neg hwc_len, hMiss]
      rfl
  have hlkA_old : ∀ p cc, ctx.dict.lookup p = some cc → ctxA.dict.lookup p = some cc := by
    intro p cc hp
    rcases hshape with ⟨hd, _, _, _⟩ | ⟨hd, _, _, hnone⟩
    · rw [hd]
      exact hp
    · rw [hd, lookup_cons', if_neg ?_]
      · exact hp
      · intro heq
        rw [heq, hnone] at hp
        cases hp
  have hlkA_inv : ∀ p cc, ctxA.dict.lookup p = some cc →
      (p = [c] ∧ cc = ctx.dictSize ∧ ctx.dict.lookup [c] = none) ∨
      ctx.dict.lookup p = some cc := by
    intro p cc hp
    rcases hshape with ⟨hd, _, _, _⟩ | ⟨hd, _, _, hnone⟩
    · rw [hd] at hp
      exact Or.inr hp
    · rw [hd, lookup_cons'] at hp
      by_cases heq : p = [c]
      · rw [if_pos heq] at hp
        cases hp
        exact Or.inl ⟨heq, rfl, hnone⟩
      · rw [if_neg heq] at hp
        exact Or.inr hp
  have hlkA_c : ∃ cc, ctxA.dict.lookup [c] = some cc ∧ cc < ctxA.dictSize := by
    rcases hshape with ⟨hd, hs, _, hsome⟩ | ⟨hd, hs, _, _⟩
    · obtain ⟨cc, hcc⟩ := Option.isSome_iff_exists.mp hsome
      refine ⟨cc, by rw [hd]; exact hcc, ?_⟩
      have := (hSI.codes_lt _ _ hcc).2.1
      omega
    · refine ⟨ctx.dictSize, ?_, by omega⟩
      rw [hd, lookup_cons', if_pos rfl]
  have hpendA : ctxA.toCreate.contains ctxA.w = ctx.toCreate.contains ctx.w := by
    rw [hAw]
    rcases hshape with ⟨_, _, ht, _⟩ | ⟨_, _, ht, hnone⟩
    · rw [ht]
    · rw [ht, List.contains_cons]
      have hne : (ctx.w == [c]) = false := by simpa using hwc_ne hnone
      rw [hne]
      simp
  have hpend_tc : ctx.toCreate.contains ctx.w = true →
      (ctx.toCreate = [ctx.w] ∧ ctx.w.length = 1 ∧
       ctx.dict.lookup ctx.w = some dst.dictSize ∧
       ∀ c', ctx.dict.lookup (ctx.w ++ [c']) = none) := by
    intro hp
    rcases hSI.tc_shape with h | h
    · rw [h] at hp
      simp at hp
    · exact h
  have hnop_tc : ctx.toCreate.contains ctx.w = false → ctx.toCreate = [] := by
    intro hp
    rcases hSI.tc_shape with h | ⟨h, _⟩
    · exact h
    · rw [h] at hp
      simp at hp
  have hintroA : ctxA.toCreate.contains ctxA.w = true → ∃ c0, ctxA.w = [c0] ∧ c0 < 65536 := by
    intro hp
    rw [hpendA] at hp
    obtain ⟨c0, h1, h2⟩ := sinv_hintro hSI hp
    exact ⟨c0, by rw [hAw, h1], h2⟩
  have hrefA : ctxA.toCreate.contains ctxA.w = false →
      ∃ v, ctxA.dict.lookup ctxA.w = some v ∧ 3 ≤ v ∧
        ((v < dst.dictSize ∧ dst.dictionary.get? v = some ctxA.w) ∨
         (v = dst.dictSize ∧ ctxA.w = dst.w ++ ctxA.w.take 1)) := by
    intro hp
    rw [hpendA] at hp
    obtain ⟨v, h1, h2, h3⟩ := sinv_href hSI hp
    refine ⟨v, by rw [hAw]; exact hlkA_old _ _ h1, h2, by rw [hAw]; exact h3⟩
  have hstep : compressStep 6 charOfUriSafe ctx c =
      { dict := (ctx.w ++ [c], ctxA.dictSize) :: ctxA.dict,
        toCreate := if ctxA.toCreate.contains ctxA.w then ctxA.toCreate.erase ctxA.w
                    else ctxA.toCreate,
        w := [c],
        enlargeIn := (emitEN ctxA).1,
        numBits := (emitEN ctxA).2,
        dictSize := ctxA.dictSize + 1,
        out := writeBits 6 charOfUriSafe (emitBitsW ctxA) ctxA.out } := by
    unfold compressStep compressStepB
    rw [hA]
    rw [hMissA]
    simp only [Bool.false_eq_true, if_false]
    rw [emitW_spec]
    rw [hAw]
  have hfutc : futBits ctx (c :: rest) =
      emitBitsW ctxA ++ futBits (compressStep 6 charOfUriSafe ctx c) rest := by
    rw [futBits]
    congr 1
    unfold stepBits
    rw [hA, hMissA]
    simp
  have hemlen : 3 ≤ (emitBitsW ctxA).length :=
    le_trans (by rw [hAn]; exact hSI.n_ge) (emitBitsW_length_ge ctxA)
  have hpend_size : ctx.toCreate.contains ctx.w = true →
      ctx.dictSize = dst.dictSize + 2 := by
    intro hp
    have h1 := (hpend_tc hp).1
    have h2 := hSI.size_rel
    rw [h1] at h2
    simpa using h2
  have hnop_size : ctx.toCreate.contains ctx.w = false →
      ctx.dictSize = dst.dictSize + 1 := by
    intro hp
    have h1 := hnop_tc hp
    have h2 := hSI.size_rel
    rw [h1] at h2
    simpa using h2
  have hds5 : 5 ≤ ctx.dictSize := by
    have h2 := hSI.size_rel
    have h4 := hSI.dsize4
    split_ifs at h2 <;> omega
  have hnewkey_ne : ∀ x : Nat, ([x] : Str) ≠ ctx.w ++ [c] := by
    intro x heq
    have h1 := congrArg List.length heq
    simp at h1
    exact absurd h1 hSI.w_ne
  have hlkA_c_none : ctx.dict.lookup [c] = none → ctxA.dict.lookup [c] = some ctx.dictSize := by
    intro hn
    rcases hshape with ⟨_, _, _, hsome⟩ | ⟨hd, _, _, _⟩
    · rw [hn] at hsome
      simp at hsome
    · rw [hd, lookup_cons', if_pos rfl]
  have hAub : ctxA.dictSize ≤ ctx.dictSize + 1 ∧ ctx.dictSize ≤ ctxA.dictSize := by
    rcases hshape with ⟨_, hs, _, _⟩ | ⟨_, hs, _, _⟩ <;> omega
  have hdstE_eq : dst.dictSize + (if ctxA.toCreate.contains ctxA.w = true then 2 else 1) =
      ctx.dictSize := by
    rw [hpendA]
    by_cases hpp : ctx.toCreate.contains ctx.w = true
    · rw [if_pos hpp]
      have := hpend_size hpp
      omega
    · rw [if_neg hpp]
      have := hnop_size (by simpa using hpp)
      omega
  have hpair_ne : ∀ hn : ctx.dict.lookup [c] = none, ∀ c' : Nat,
      ([c, c'] : Str) ≠ ctx.w ++ [c] := by
    intro hn c' heq
    rcases hW : ctx.w with _ | ⟨w0, wr⟩
    · exact absurd hW hSI.w_ne
    · rw [hW] at heq
      rcases wr with _ | ⟨a, b⟩
      · simp at heq
        apply hwc_ne hn
        rw [hW, heq.1]
      · have h1 := congrArg List.length heq
        simp at h1
  have hnoext : ∀ hn : ctx.dict.lookup [c] = none, ∀ c' : Nat,
      List.lookup ([c] ++ [c']) ((ctx.w ++ [c], ctxA.dictSize) :: ctxA.dict) = none := by
    intro hn c'
    rw [List.singleton_append, lookup_cons', if_neg (hpair_ne hn c')]
    rcases hlk2 : ctxA.dict.lookup [c, c'] with _ | cc
    · rfl
    · exfalso
      rcases hlkA_inv _ _ hlk2 with ⟨h1, _, _⟩ | h2
      · simp at h1
      · obtain ⟨cx, hcx, _⟩ := hSI.chars_first _ _ h2 c (by simp)
        rw [hn] at hcx
        cases hcx
  have hTE : T = packChars (B ++ (emitBitsW ctxA ++
      futBits (compressStep 6 charOfUriSafe ctx c) rest)) ++ junk := by
    rw [hT, hfutc]
  rw [decode_emit T B (futBits (compressStep 6 charOfUriSafe ctx c) rest) junk ctxA dst
    hTE hSI.bits_le (futBits_le_one _ _) hSI.rd_eq
    (by rw [hSI.en_e, hAe]) (by rw [hSI.en_n, hAn])
    (by rw [hAe]; exact hSI.e_pos) (by rw [hAn]; exact hSI.n_ge)
    hSI.size_sum hSI.dlen hSI.dw_ne (by rw [hAw]; exact hSI.w_ne)
    hintroA hrefA f]
  have hSIP : SInv T
      { dict := (ctx.w ++ [c], ctxA.dictSize) :: ctxA.dict,
        toCreate := if ctxA.toCreate.contains ctxA.w then ctxA.toCreate.erase ctxA.w
                    else ctxA.toCreate,
        w := [c],
        enlargeIn := (emitEN ctxA).1,
        numBits := (emitEN ctxA).2,
        dictSize := ctxA.dictSize + 1,
        out := writeBits 6 charOfUriSafe (emitBitsW ctxA) ctxA.out }
      { dictionary := (dst.dictionary ++
          (if ctxA.toCreate.contains ctxA.w then [ctxA.w] else [])) ++
          [dst.w ++ ctxA.w.take 1],
        enlargeIn := (emitEN ctxA).1,
        dictSize := dst.dictSize + (if ctxA.toCreate.contains ctxA.w then 2 else 1),
        numBits := (emitEN ctxA).2,
        result := dst.result ++ [ctxA.w],
        w := ctxA.w,
        rd := rdAt T (B.length + (emitBitsW ctxA).length) }
      (B ++ emitBitsW ctxA) := by
    refine ⟨?_, ?_, ?_, ?_, ?_, ?_, ?_, ?_, ?_, ?_, ?_, ?_, ?_, ?_, ?_, ?_, ?_, ?_, ?_, ?_,
      ?_, ?_, ?_, ?_⟩
    case refine_1 =>
      simp only
      rw [hAo, hSI.out_eq, ← writeBits_append]
    case refine_2 =>
      intro b hb
      rcases List.mem_append.mp hb with h | h
      · exact hSI.bits_le _ h
      · exact emitBitsW_le_one _ _ h
    case refine_3 =>
      simp [List.length_append]
    case refine_4 => rfl
    case refine_5 => rfl
    case refine_6 => exact emitEN_pos ctxA
    case refine_7 =>
      exact le_trans (by rw [hAn]; exact hSI.n_ge) (emitEN_n_ge ctxA)
    case refine_8 =>
      simp only
      have hpr : (ctxA.enlargeIn, ctxA.numBits) = (dst.enlargeIn, dst.numBits) := by
        rw [hAe, hAn, hSI.en_e, hSI.en_n]
      have hpose : 1 ≤ dst.enlargeIn := by
        rw [hSI.en_e]
        exact hSI.e_pos
      have s1 := bumpEN_sum' dst.dictSize (dst.enlargeIn, dst.numBits)
        (by simpa using hSI.size_sum) (by simpa using hpose)
      unfold emitEN
      split
      · rw [hpr]
        have s2 := bumpEN_sum' (dst.dictSize + 1) (bumpEN (dst.enlargeIn, dst.numBits)) s1
          (bumpEN_pos' _)
        omega
      · rw [hpr]
        omega
    case refine_9 =>
      simp only
      split_ifs <;> simp [hSI.dlen]
    case refine_10 =>
      have := hSI.dsize4
      simp only
      split_ifs <;> omega
    case refine_11 => simp
    case refine_12 =>
      simp only
      rw [hAw]
      exact hSI.w_ne
    case refine_13 =>
      intro x hx
      simp at hx
      omega
    case refine_14 =>
      intro p cc hp
      simp only at hp
      rw [lookup_cons'] at hp
      by_cases hpk : p = ctx.w ++ [c]
      · rw [if_pos hpk] at hp
        cases hp
        refine ⟨by omega, by first
          | (simp; omega)
          | simp
          | omega, ?_⟩
        rw [hpk]
        simp
      · rw [if_neg hpk] at hp
        rcases hlkA_inv _ _ hp with ⟨hpc, hcc, _⟩ | hold2
        · subst hpc
          subst hcc
          refine ⟨by omega, by first
          | (simp; omega)
          | simp
          | omega, by simp⟩
        · have h3 := hSI.codes_lt _ _ hold2
          refine ⟨h3.1, by first
          | (simp; omega)
          | simp
          | omega, h3.2.2⟩
    case refine_15 =>
      intro p q cc hp hq
      simp only at hp hq
      rw [lookup_cons'] at hp hq
      by_cases hpk : p = ctx.w ++ [c] <;> by_cases hqk : q = ctx.w ++ [c]
      · rw [hpk, hqk]
      · rw [if_pos hpk] at hp
        cases hp
        rw [if_neg hqk] at hq
        exfalso
        rcases hlkA_inv _ _ hq with ⟨_, hcc, hn⟩ | hold2
        · rcases hshape with ⟨_, _, _, hsome⟩ | ⟨_, hs, _, _⟩
          · rw [hn] at hsome
            simp at hsome
          · omega
        · have := (hSI.codes_lt _ _ hold2).2.1
          omega
      · rw [if_pos hqk] at hq
        cases hq
        rw [if_neg hpk] at hp
        exfalso
        rcases hlkA_inv _ _ hp with ⟨_, hcc, hn⟩ | hold2
        · rcases hshape with ⟨_, _, _, hsome⟩ | ⟨_, hs, _, _⟩
          · rw [hn] at hsome
            simp at hsome
          · omega
        · have := (hSI.codes_lt _ _ hold2).2.1
          omega
      · rw [if_neg hpk] at hp
        rw [if_neg hqk] at hq
        rcases hlkA_inv _ _ hp with ⟨hp1, hp2, hpn⟩ | hp3 <;>
          rcases hlkA_inv _ _ hq with ⟨hq1, hq2, hqn⟩ | hq3
        · rw [hp1, hq1]
        · exfalso
          have := (hSI.codes_lt _ _ hq3).2.1
          omega
        · exfalso
          have := (hSI.codes_lt _ _ hp3).2.1
          omega
        · exact hSI.codes_inj _ _ _ hp3 hq3
    case refine_16 =>
      intro p cc hp x hx
      simp only at hp ⊢
      rw [lookup_cons'] at hp
      have hgoal : ∀ cx, ctxA.dict.lookup [x] = some cx → cx ≤ cc →
          ∃ cx', List.lookup [x] ((ctx.w ++ [c], ctxA.dictSize) :: ctxA.dict) = some cx' ∧
            cx' ≤ cc := by
        intro cx h1 h2
        exact ⟨cx, by rw [lookup_cons', if_neg (hnewkey_ne x)]; exact h1, h2⟩
      by_cases hpk : p = ctx.w ++ [c]
      · rw [if_pos hpk] at hp
        cases hp
        subst hpk
        rcases List.mem_append.mp hx with hxw | hxc
        · obtain ⟨cx, h1, h2⟩ := hSI.chars_first _ _ hcv x hxw
          refine hgoal cx (hlkA_old _ _ h1) ?_
          have := (hSI.codes_lt _ _ hcv).2.1
          omega
        · simp at hxc
          subst hxc
          obtain ⟨cx, h1, h2⟩ := hlkA_c
          exact hgoal cx h1 (by omega)
      · rw [if_neg hpk] at hp
        rcases hlkA_inv _ _ hp with ⟨hp1, hp2, hpn⟩ | hp3
        · subst hp1
          simp at hx
          subst hx
          exact hgoal ctx.dictSize (hlkA_c_none hpn) (by omega)
        · obtain ⟨cx, h1, h2⟩ := hSI.chars_first _ _ hp3 x hx
          exact hgoal cx (hlkA_old _ _ h1) h2
    case refine_17 =>
      simp only
      rw [hAw, lookup_cons', if_neg (by
        intro heq
        have h1 := congrArg List.length heq
        simp at h1)]
      refine ⟨cv, hlkA_old _ _ hcv, ?_⟩
      have hcvb : cv ≤ dst.dictSize := by
        by_cases hp : ctx.toCreate.contains ctx.w = true
        · have h1 := (hpend_tc hp).2.2.1
          rw [h1] at hcv
          cases hcv
          exact le_refl _
        · have h1 := hnop_size (by simpa using hp)
          have h2 := (hSI.codes_lt _ _ hcv).2.1
          omega
      split_ifs <;> omega
    case refine_18 =>
      simp only
      rw [lookup_cons', if_neg (hnewkey_ne c)]
      obtain ⟨cc, h1, _⟩ := hlkA_c
      exact ⟨cc, h1⟩
    case refine_19 =>
      simp only
      rcases hshape with ⟨hd, hs, ht, hsome⟩ | ⟨hd, hs, ht, hnone⟩
      · by_cases hp : ctx.toCreate.contains ctx.w = true
        · left
          rw [ht, (hpend_tc hp).1, hAw]
          simp
        · left
          rw [ht, hnop_tc (by simpa using hp)]
          simp
      · by_cases hp : ctx.toCreate.contains ctx.w = true
        · right
          rw [ht, (hpend_tc hp).1, hAw]
          have hne : ¬(([c] : Str) = ctx.w) := fun h => hwc_ne hnone h.symm
          refine ⟨?_, by simp, ?_, hnoext hnone⟩
          · simp [List.erase_cons, hne]
          · rw [lookup_cons', if_neg (hnewkey_ne c), hlkA_c_none hnone]
            have h2 := hpend_size hp
            simp only [Option.some.injEq]
            rw [if_pos (by simp)]
            omega
        · right
          rw [ht, hnop_tc (by simpa using hp), hAw]
          have hne2 : ctx.w ≠ [c] := hwc_ne hnone
          refine ⟨?_, by simp, ?_, hnoext hnone⟩
          · simp [hne2]
          · rw [lookup_cons', if_neg (hnewkey_ne c), hlkA_c_none hnone]
            have h2 := hnop_size (by simpa using hp)
            simp only [Option.some.injEq]
            rw [if_neg (by simp [hne2])]
            omega
    case refine_20 =>
      simp only
      rcases hshape with ⟨hd, hs, ht, hsome⟩ | ⟨hd, hs, ht, hnone⟩
      · by_cases hp : ctx.toCreate.contains ctx.w = true
        · have h2 := hpend_size hp
          rw [ht, (hpend_tc hp).1, hAw]
          simp
          omega
        · have h2 := hnop_size (by simpa using hp)
          rw [ht, hnop_tc (by simpa using hp)]
          simp
          omega
      · by_cases hp : ctx.toCreate.contains ctx.w = true
        · have h2 := hpend_size hp
          have hne : ¬(([c] : Str) = ctx.w) := fun h => hwc_ne hnone h.symm
          rw [ht, (hpend_tc hp).1, hAw]
          simp [List.erase_cons, hne]
          omega
        · have h2 := hnop_size (by simpa using hp)
          have hne2 : ctx.w ≠ [c] := hwc_ne hnone
          rw [ht, hnop_tc (by simpa using hp), hAw]
          simp [hne2]
          omega
    case refine_21 =>
      have htake : List.take 1 ([c] : Str) = [c] := rfl
      simp only
      rw [hAw, htake]
      rw [lookup_cons', if_pos rfl]
      rcases hshape with ⟨hd, hs, ht, hsome⟩ | ⟨hd, hs, ht, hnone⟩
      · by_cases hp : ctx.toCreate.contains ctx.w = true
        · have h2 := hpend_size hp
          rw [ht, (hpend_tc hp).1]
          simp
          omega
        · have h2 := hnop_size (by simpa using hp)
          rw [ht, hnop_tc (by simpa using hp)]
          simp
          omega
      · by_cases hp : ctx.toCreate.contains ctx.w = true
        · have h2 := hpend_size hp
          have hne : ¬(([c] : Str) = ctx.w) := fun h => hwc_ne hnone h.symm
          rw [ht, (hpend_tc hp).1]
          simp [List.erase_cons, hne]
          omega
        · have h2 := hnop_size (by simpa using hp)
          have hne2 : ctx.w ≠ [c] := hwc_ne hnone
          rw [ht, hnop_tc (by simpa using hp)]
          simp [hne2]
          omega
    case refine_22 =>
      intro p cc hp hlt
      simp only at hp hlt ⊢
      rw [lookup_cons'] at hp
      by_cases hpk : p = ctx.w ++ [c]
      · rw [if_pos hpk] at hp
        cases hp
        exfalso
        omega
      · rw [if_neg hpk] at hp
        rcases hlkA_inv _ _ hp with ⟨hp1, hp2, hpn⟩ | hp3
        · exfalso
          omega
        · have hcl := hSI.codes_lt _ _ hp3
          by_cases hc1 : cc < dst.dictSize
          · rw [List.append_assoc, List.get?_append (by rw [hSI.dlen]; exact hc1)]
            exact hSI.low_codes _ _ hp3 hc1
          · rcases hSI.high_codes _ _ hp3 (by omega) with ⟨hq1, hq2⟩ | ⟨hq1, hq2, hq3⟩
            · by_cases hpp : ctx.toCreate.contains ctx.w = true
              · have hpA : ctxA.toCreate.contains ctxA.w = true := by rw [hpendA]; exact hpp
                rw [(hpend_tc hpp).1, if_neg (by simp : ¬([ctx.w] : List Str) = [])] at hq2
                rw [if_pos hpA]
                rw [hq2, show dst.dictSize + 1 = (dst.dictionary ++ [ctxA.w]).length from
                  by simp [hSI.dlen], List.get?_concat_length, hq1, hAw]
              · have hpA : ctxA.toCreate.contains ctxA.w = false := by
                  rw [hpendA]
                  simpa using hpp
                rw [hnop_tc (by simpa using hpp), if_pos rfl] at hq2
                rw [if_neg (by rw [hpA]; simp)]
                rw [hq2, show dst.dictSize + 0 = (dst.dictionary ++ []).length from
                  by simp [hSI.dlen], List.get?_concat_length, hq1, hAw]
            · have hpp : ctx.toCreate.contains ctx.w = true := by rw [hq1]; simp
              have hpA : ctxA.toCreate.contains ctxA.w = true := by rw [hpendA]; exact hpp
              rw [if_pos hpA, hq3]
              rw [List.get?_append (by simp [hSI.dlen])]
              rw [show dst.dictSize = dst.dictionary.length from hSI.dlen.symm,
                List.get?_concat_length, hq2, hAw]
    case refine_23 =>
      intro i e h3 hget
      simp only at hget
      have hL : (dst.w ++ ctxA.w.take 1 : Str) ≠ [] := by simp [hSI.dw_ne]
      have hW : ctxA.w ≠ [] := by rw [hAw]; exact hSI.w_ne
      by_cases hi1 : i < dst.dictionary.length
      · rw [List.get?_append (by rw [List.length_append]; omega),
          List.get?_append hi1] at hget
        exact hSI.dict_ne i e h3 hget
      · rw [List.append_assoc, List.get?_append_right (by omega)] at hget
        have hmem := List.get?_mem hget
        rcases List.mem_append.mp hmem with hm | hm
        · by_cases hpA : ctxA.toCreate.contains ctxA.w = true
          · rw [if_pos hpA] at hm
            simp at hm
            rw [hm]
            exact hW
          · rw [if_neg hpA] at hm
            simp at hm
        · simp at hm
          rw [hm]
          exact hL
    case refine_24 =>
      intro p cc hp hge
      simp only at hp hge ⊢
      rw [lookup_cons'] at hp
      by_cases hpk : p = ctx.w ++ [c]
      · rw [if_pos hpk] at hp
        cases hp
        left
        have htake : List.take 1 ([c] : Str) = [c] := rfl
        refine ⟨by rw [hpk, hAw, htake], ?_⟩
        rcases hshape with ⟨hd, hs, ht, hsome⟩ | ⟨hd, hs, ht, hnone⟩
        · by_cases hpp : ctx.toCreate.contains ctx.w = true
          · have h2 := hpend_size hpp
            rw [ht, (hpend_tc hpp).1, hAw]
            simp
            omega
          · have h2 := hnop_size (by simpa using hpp)
            rw [ht, hnop_tc (by simpa using hpp)]
            simp
            omega
        · by_cases hpp : ctx.toCreate.contains ctx.w = true
          · have h2 := hpend_size hpp
            have hne : ¬(([c] : Str) = ctx.w) := fun h => hwc_ne hnone h.symm
            rw [ht, (hpend_tc hpp).1, hAw]
            simp [List.erase_cons, hne]
            omega
          · have h2 := hnop_size (by simpa using hpp)
            have hne2 : ctx.w ≠ [c] := hwc_ne hnone
            rw [ht, hnop_tc (by simpa using hpp), hAw]
            simp [hne2]
            omega
      · rw [if_neg hpk] at hp
        rcases hlkA_inv _ _ hp with ⟨hp1, hp2, hpn⟩ | hp3
        · right
          subst hp1
          subst hp2
          rcases hshape with ⟨hd, hs, ht, hsome⟩ | ⟨hd, hs, ht, hnone⟩
          · rw [hpn] at hsome
            simp at hsome
          · by_cases hpp : ctx.toCreate.contains ctx.w = true
            · have h2 := hpend_size hpp
              have hne : ¬(([c] : Str) = ctx.w) := fun h => hwc_ne hnone h.symm
              rw [ht, (hpend_tc hpp).1, hAw]
              refine ⟨?_, rfl, ?_⟩
              · simp [List.erase_cons, hne]
              · simp
                omega
            · have h2 := hnop_size (by simpa using hpp)
              have hne2 : ctx.w ≠ [c] := hwc_ne hnone
              rw [ht, hnop_tc (by simpa using hpp), hAw]
              refine ⟨?_, rfl, ?_⟩
              · simp [hne2]
              · simp [hne2]
                omega
        · exfalso
          have := (hSI.codes_lt _ _ hp3).2.1
          omega
  have hSI' : SInv T (compressStep 6 charOfUriSafe ctx c)
      { dictionary := (dst.dictionary ++
          (if ctxA.toCreate.contains ctxA.w then [ctxA.w] else [])) ++
          [dst.w ++ ctxA.w.take 1],
        enlargeIn := (emitEN ctxA).1,
        dictSize := dst.dictSize + (if ctxA.toCreate.contains ctxA.w then 2 else 1),
        numBits := (emitEN ctxA).2,
        result := dst.result ++ [ctxA.w],
        w := ctxA.w,
        rd := rdAt T (B.length + (emitBitsW ctxA).length) }
      (B ++ emitBitsW ctxA) := by
    rw [hstep]
    exact hSIP
  have hfuel' : 3 * f ≥ (futBits (compressStep 6 charOfUriSafe ctx c) rest).length + 3 := by
    rw [hfutc] at hfuel
    rw [List.length_append] at hfuel
    omega
  rw [ih (compressStep 6 charOfUriSafe ctx c) _ (B ++ emitBitsW ctxA) junk T f
    (by rw [hTE, List.append_assoc]) hSI' hcur hfuel']
  rw [hstep]
  simp [hAw, List.append_assoc]

/-- The main compressor/decompressor simulation: from synchronised states,
the decompressor reconstructs exactly the emitted output followed by the
remaining input. -/
theorem sim (rest : Str) : SimGoal rest := by
  induction rest with
  | nil => exact sim_nil
  | cons c rest ih =>
      intro ctx dst B junk T fuel hT hSI hcu hfuel
      have hc16 : c < 65536 := hcu c (by simp)
      have hcur : CodeUnits rest := fun x hx => hcu x (by simp [hx])
      by_cases hin : (ctx.dict.lookup [c]).isSome
      · have hA : compressStepA ctx c = ctx := by
          unfold compressStepA
          rw [if_pos hin]
        by_cases hext : (ctx.dict.lookup (ctx.w ++ [c])).isSome
        · obtain ⟨v, hv⟩ := Option.isSome_iff_exists.mp hext
          have htc : ctx.toCreate = [] := by
            rcases hSI.tc_shape with h | ⟨h1, h2, h3, h4⟩
            · exact h
            · rw [h4 c] at hv
              cases hv
          have hstep : compressStep 6 charOfUriSafe ctx c =
              { ctx with w := ctx.w ++ [c] } := by
            unfold compressStep
            rw [hA]
            unfold compressStepB
            rw [if_pos hext]
          have hsb : stepBits ctx c = [] := by
            unfold stepBits
            rw [hA, if_pos hext]
          have hfut : futBits ctx (c :: rest) =
              futBits { ctx with w := ctx.w ++ [c] } rest := by
            have h0 : futBits ctx (c :: rest) =
                stepBits ctx c ++ futBits (compressStep 6 charOfUriSafe ctx c) rest := rfl
            rw [h0, hsb, hstep, List.nil_append]
          have htake : (ctx.w ++ [c]).take 1 = ctx.w.take 1 := by
            rcases hw0 : ctx.w with _ | ⟨c0, tl⟩
            · exact absurd hw0 hSI.w_ne
            · simp
          have hSI' : SInv T { ctx with w := ctx.w ++ [c] } dst B :=
            { out_eq := hSI.out_eq, bits_le := hSI.bits_le, rd_eq := hSI.rd_eq,
              en_e := hSI.en_e, en_n := hSI.en_n, e_pos := hSI.e_pos,
              n_ge := hSI.n_ge, size_sum := hSI.size_sum, dlen := hSI.dlen,
              dsize4 := hSI.dsize4,
              w_ne := by simp,
              dw_ne := hSI.dw_ne,
              wchars := by
                intro x hx
                rcases List.mem_append.mp hx with h | h
                · exact hSI.wchars x h
                · simp at h
                  rw [h]
                  exact hc16,
              codes_lt := hSI.codes_lt, codes_inj := hSI.codes_inj,
              chars_first := hSI.chars_first, w_code := hSI.w_code,
              cw_code := ⟨v, hv⟩,
              tc_shape := Or.inl htc,
              size_rel := hSI.size_rel,
              newphrase := by
                show ctx.dict.lookup (dst.w ++ (ctx.w ++ [c]).take 1) = _
                rw [htake]
                exact hSI.newphrase,
              low_codes := hSI.low_codes, dict_ne := hSI.dict_ne,
              high_codes := by
                intro p cc hp hge
                rcases hSI.high_codes p cc hp hge with ⟨h1, h2⟩ | ⟨h1, _⟩
                · refine Or.inl ⟨?_, h2⟩
                  show p = dst.w ++ (ctx.w ++ [c]).take 1
                  rw [htake]
                  exact h1
                · rw [htc] at h1
                  exact absurd h1 (by simp) }
          rw [ih { ctx with w := ctx.w ++ [c] } dst B junk T fuel
            (by rw [hT, hfut]) hSI' hcur (by rw [← hfut]; exact hfuel)]
          simp [List.append_assoc]
        · have hMiss : ctx.dict.lookup (ctx.w ++ [c]) = none := by
            rcases h : ctx.dict.lookup (ctx.w ++ [c]) with _ | v
            · rfl
            · exact absurd (by rw [h]; rfl) hext
          obtain ⟨f, rfl⟩ : ∃ f, fuel = f + 1 := ⟨fuel - 1, by omega⟩
          exact sim_emit c rest ih ctx ctx dst B junk T f hSI hT hc16 hcur hA
            rfl rfl rfl rfl (Or.inl ⟨rfl, rfl, rfl, hin⟩) hMiss hfuel
      · have hnone : ctx.dict.lookup [c] = none := by
          rcases h : ctx.dict.lookup [c] with _ | v
          · rfl
          · exact absurd (by rw [h]; rfl) hin
        have hA : compressStepA ctx c =
            { ctx with dict := ([c], ctx.dictSize) :: ctx.dict,
                       dictSize := ctx.dictSize + 1,
                       toCreate := [c] :: ctx.toCreate } := by
          unfold compressStepA
          rw [if_neg hin]
        have hMiss : ctx.dict.lookup (ctx.w ++ [c]) = none := by
          rcases h : ctx.dict.lookup (ctx.w ++ [c]) with _ | v
          · rfl
          · obtain ⟨cx, hcx, _⟩ := hSI.chars_first _ _ h c (by simp)
            rw [hnone] at hcx
            cases hcx
        obtain ⟨f, rfl⟩ : ∃ f, fuel = f + 1 := ⟨fuel - 1, by omega⟩
        exact sim_emit c rest ih ctx _ dst B junk T f hSI hT hc16 hcur hA
          rfl rfl rfl rfl (Or.inr ⟨rfl, rfl, rfl, hnone⟩) hMiss hfuel

/-! ## Assembly: the full round trip -/

theorem charOfUriSafe_ne32 (v : Nat) : charOfUriSafe v ≠ 32 := by
  unfold charOfUriSafe
  rcases h : keyStrUriSafe[v]? with _ | c
  · simp [List.getD, h]
  · have h2 : keyStrUriSafe.get? v = some c := by rw [List.get?_eq_getElem?, h]
    have hm := List.get?_mem h2
    have hall : ∀ x ∈ keyStrUriSafe, x ≠ 32 := by decide
    simp only [List.getD]
    rw [h2]
    exact hall c hm

theorem mem_fullChars : ∀ B : List Nat, ∀ x ∈ fullChars B, ∃ v, x = charOfUriSafe v
  | b0 :: b1 :: b2 :: b3 :: b4 :: b5 :: rest => by
      intro x hx
      rw [show fullChars (b0 :: b1 :: b2 :: b3 :: b4 :: b5 :: rest) =
        charOfUriSafe (32 * b0 + 16 * b1 + 8 * b2 + 4 * b3 + 2 * b4 + b5) ::
          fullChars rest from rfl] at hx
      rcases List.mem_cons.mp hx with h | h
      · exact ⟨_, h⟩
      · exact mem_fullChars rest x h
  | [] => by intro x hx; cases hx
  | [b0] => by intro x hx; cases hx
  | [b0, b1] => by intro x hx; cases hx
  | [b0, b1, b2] => by intro x hx; cases hx
  | [b0, b1, b2, b3] => by intro x hx; cases hx
  | [b0, b1, b2, b3, b4] => by intro x hx; cases hx

theorem map_space_packChars (B : List Nat) (junk : Str) :
    (packChars B ++ junk).map (fun c => if c = 32 then 43 else c) =
      packChars B ++ junk.map (fun c => if c = 32 then 43 else c) := by
  rw [List.map_append]
  congr 1
  have hid : ∀ x ∈ packChars B, (fun c => if c = 32 then 43 else c) x = id x := by
    intro x hx
    rw [packChars] at hx
    simp only [id]
    rcases List.mem_append.mp hx with h | h
    · obtain ⟨v, rfl⟩ := mem_fullChars B x h
      rw [if_neg (charOfUriSafe_ne32 v)]
    · simp at h
      rw [h, if_neg (charOfUriSafe_ne32 _)]
  rw [List.map_congr_left hid, List.map_id]

/-- The bits of the very first emission: the character-introduction of the
first input code unit, written at the initial width of two bits. -/
def introBits (c1 : Nat) : List Nat :=
  if c1 < 256 then bitsLSB 2 0 ++ bitsLSB 8 c1 else bitsLSB 2 1 ++ bitsLSB 16 c1

/-- The compressor state after processing the first input character. -/
def ctxOne (c1 : Nat) : CCtx :=
  { dict := [([c1], 3)], toCreate := [[c1]], w := [c1], enlargeIn := 2,
    dictSize := 4, numBits := 2, out := { data := [], val := 0, pos := 0 } }

theorem stepBits_init (c1 : Nat) : stepBits cInit c1 = [] := by
  unfold stepBits compressStepA cInit
  simp [List.lookup, lookup_cons']

theorem compressStep_init (c1 : Nat) :
    compressStep 6 charOfUriSafe cInit c1 = ctxOne c1 := by
  unfold compressStep compressStepA cInit
  rw [if_neg (by simp [List.lookup])]
  unfold compressStepB
  rw [if_pos (by simp [lookup_cons'])]
  rfl

/-- The decompressor's initial 2-bit and 8/16-bit reads consume exactly the
first emission and set up the initial loop state. -/
theorem decode_first (c1 : Nat) (C : List Nat) (junk' : Str) (b m : Nat)
    (hbm : (b = 0 ∧ m = 8) ∨ (b = 1 ∧ m = 16)) (hc1 : c1 < 2 ^ m)
    (hC : ∀ x ∈ C, x ≤ 1) :
    lzDecompress (packChars ((bitsLSB 2 b ++ bitsLSB m c1) ++ C) ++ junk').length 32
      (nextUriVal (packChars ((bitsLSB 2 b ++ bitsLSB m c1) ++ C) ++ junk')) =
      decompressLoop (packChars ((bitsLSB 2 b ++ bitsLSB m c1) ++ C) ++ junk').length 32
        (nextUriVal (packChars ((bitsLSB 2 b ++ bitsLSB m c1) ++ C) ++ junk'))
        (2 * (packChars ((bitsLSB 2 b ++ bitsLSB m c1) ++ C) ++ junk').length + 16)
        { dictionary := [[], [], [], [c1]], enlargeIn := 4, dictSize := 4,
          numBits := 3, result := [[c1]], w := [c1],
          rd := rdAt (packChars ((bitsLSB 2 b ++ bitsLSB m c1) ++ C) ++ junk') (2 + m) } := by
  have hTdef : packChars ((bitsLSB 2 b ++ bitsLSB m c1) ++ C) ++ junk' =
      packChars ([] ++ bitsLSB 2 b ++ (bitsLSB m c1 ++ C)) ++ junk' := by
    simp [List.append_assoc]
  have hr2 : readBits 32
      (nextUriVal (packChars ((bitsLSB 2 b ++ bitsLSB m c1) ++ C) ++ junk')) 2
      { val := nextUriVal (packChars ((bitsLSB 2 b ++ bitsLSB m c1) ++ C) ++ junk') 0,
        pos := 32, index := 1 } =
      (b, rdAt (packChars ((bitsLSB 2 b ++ bitsLSB m c1) ++ C) ++ junk') 2) := by
    have h := read_written (packChars ((bitsLSB 2 b ++ bitsLSB m c1) ++ C) ++ junk')
      [] (bitsLSB m c1 ++ C) junk' 2 b hTdef (by simp)
      (fun x hx => by
        rcases List.mem_append.mp hx with h2 | h2
        · exact bitsLSB_le_one _ _ _ h2
        · exact hC _ h2)
      (by rcases hbm with ⟨rfl, _⟩ | ⟨rfl, _⟩ <;> omega)
    simpa using h
  have hr8 : readBits 32
      (nextUriVal (packChars ((bitsLSB 2 b ++ bitsLSB m c1) ++ C) ++ junk')) m
      (rdAt (packChars ((bitsLSB 2 b ++ bitsLSB m c1) ++ C) ++ junk') 2) =
      (c1, rdAt (packChars ((bitsLSB 2 b ++ bitsLSB m c1) ++ C) ++ junk') (2 + m)) := by
    have h := read_written (packChars ((bitsLSB 2 b ++ bitsLSB m c1) ++ C) ++ junk')
      (bitsLSB 2 b) C junk' m c1 (by simp [List.append_assoc]) (bitsLSB_le_one _ _)
      hC hc1
    rw [bitsLSB_length] at h
    exact h
  rcases hbm with ⟨rfl, rfl⟩ | ⟨rfl, rfl⟩
  · unfold lzDecompress
    simp only [hr2, hr8]
    rfl
  · unfold lzDecompress
    simp only [hr2, hr8]
    rfl

theorem introBits_le_one (c1 : Nat) : ∀ x ∈ introBits c1, x ≤ 1 := by
  intro x hx
  unfold introBits at hx
  split_ifs at hx <;> rcases List.mem_append.mp hx with h | h <;>
    exact bitsLSB_le_one _ _ _ h

/-- The compressor state after the first character when the second character
is the same code unit. -/
def ctxOneA (c1 c2 : Nat) : CCtx :=
  { dict := [([c2], 4), ([c1], 3)], toCreate := [[c2], [c1]], w := [c1], enlargeIn := 2,
    dictSize := 5, numBits := 2, out := { data := [], val := 0, pos := 0 } }

/-- The compressor state after processing `[c1, c1]`. -/
def ctxTwoS (c1 : Nat) : CCtx :=
  { dict := [([c1, c1], 4), ([c1], 3)], toCreate := [], w := [c1], enlargeIn := 4,
    dictSize := 5, numBits := 3,
    out := writeBits 6 charOfUriSafe (introBits c1) { data := [], val := 0, pos := 0 } }

/-- The compressor state after processing `[c1, c2]` with `c2 ≠ c1`. -/
def ctxTwoD (c1 c2 : Nat) : CCtx :=
  { dict := [([c1, c2], 5), ([c2], 4), ([c1], 3)], toCreate := [[c2]], w := [c2],
    enlargeIn := 4, dictSize := 6, numBits := 3,
    out := writeBits 6 charOfUriSafe (introBits c1) { data := [], val := 0, pos := 0 } }

/-- The decompressor state entering the main loop. -/
def dstOne (c1 : Nat) (rd : DData) : DState :=
  { dictionary := [[], [], [], [c1]], enlargeIn := 4, dictSize := 4, numBits := 3,
    result := [[c1]], w := [c1], rd := rd }

theorem stepA_one_same (c1 : Nat) : compressStepA (ctxOne c1) c1 = ctxOne c1 := by
  unfold compressStepA
  rw [if_pos (by simp [ctxOne, lookup_cons'])]

theorem stepA_one_diff (c1 c2 : Nat) (h : c2 ≠ c1) :
    compressStepA (ctxOne c1) c2 = ctxOneA c1 c2 := by
  unfold compressStepA
  rw [if_neg (by
    have hb : (c2 == c1) = false := by simpa using h
    simp [ctxOne, lookup_cons', List.lookup, hb])]
  rfl

theorem emitBitsW_ctxOne (c1 : Nat) : emitBitsW (ctxOne c1) = introBits c1 := by
  unfold emitBitsW ctxOne introBits
  rw [if_pos (by simp)]

theorem emitBitsW_ctxOneA (c1 c2 : Nat) : emitBitsW (ctxOneA c1 c2) = introBits c1 := by
  unfold emitBitsW ctxOneA introBits
  rw [if_pos (by simp)]

theorem emitEN_ctxOne (c1 : Nat) : emitEN (ctxOne c1) = (4, 3) := by
  unfold emitEN ctxOne
  rw [if_pos (by simp)]
  rfl

theorem emitEN_ctxOneA (c1 c2 : Nat) : emitEN (ctxOneA c1 c2) = (4, 3) := by
  unfold emitEN ctxOneA
  rw [if_pos (by simp)]
  rfl

theorem stepBits_one_same (c1 : Nat) : stepBits (ctxOne c1) c1 = introBits c1 := by
  unfold stepBits
  rw [stepA_one_same, if_neg (by simp [ctxOne, lookup_cons', List.lookup]),
    emitBitsW_ctxOne]

theorem stepBits_one_diff (c1 c2 : Nat) (h : c2 ≠ c1) :
    stepBits (ctxOne c1) c2 = introBits c1 := by
  unfold stepBits
  rw [stepA_one_diff c1 c2 h, if_neg (by simp [ctxOneA, lookup_cons', List.lookup]),
    emitBitsW_ctxOneA]

theorem compressStep_one_same (c1 : Nat) :
    compressStep 6 charOfUriSafe (ctxOne c1) c1 = ctxTwoS c1 := by
  unfold compressStep
  rw [stepA_one_same]
  unfold compressStepB
  rw [if_neg (by simp [ctxOne, lookup_cons', List.lookup])]
  rw [emitW_spec, emitEN_ctxOne, emitBitsW_ctxOne]
  simp [ctxOne, ctxTwoS, List.erase_cons]

theorem compressStep_one_diff (c1 c2 : Nat) (h : c2 ≠ c1) :
    compressStep 6 charOfUriSafe (ctxOne c1) c2 = ctxTwoD c1 c2 := by
  unfold compressStep
  rw [stepA_one_diff c1 c2 h]
  unfold compressStepB
  rw [if_neg (by simp [ctxOneA, lookup_cons', List.lookup])]
  rw [emitW_spec, emitEN_ctxOneA, emitBitsW_ctxOneA]
  have h21 : ¬(([c2] : Str) = [c1]) := by simp [h]
  simp [ctxOneA, ctxTwoD, List.erase_cons, h21]
  intro hh
  exact absurd hh h

theorem lookup2_inv (c1 : Nat) (p : Str) (cc : Nat)
    (hp : List.lookup p [([c1, c1], (4:Nat)), ([c1], 3)] = some cc) :
    (p = [c1, c1] ∧ cc = 4) ∨ (p = [c1] ∧ cc = 3) := by
  rw [lookup_cons'] at hp
  split_ifs at hp with h1
  · cases hp
    exact Or.inl ⟨h1, rfl⟩
  · rw [lookup_cons'] at hp
    split_ifs at hp with h2
    · cases hp
      exact Or.inr ⟨h2, rfl⟩
    · simp [List.lookup] at hp

theorem lookup2_c1 (c1 : Nat) :
    List.lookup [c1] [([c1, c1], (4:Nat)), ([c1], 3)] = some 3 := by
  rw [lookup_cons', if_neg (by simp), lookup_cons', if_pos rfl]

theorem lookup2_c11 (c1 : Nat) :
    List.lookup [c1, c1] [([c1, c1], (4:Nat)), ([c1], 3)] = some 4 := by
  rw [lookup_cons', if_pos rfl]

/-- The simulation invariant holds after the first emission when the second
input character repeats the first. -/
theorem sinv_two_same (c1 : Nat) (T : Str) (hc1 : c1 < 65536) :
    SInv T (ctxTwoS c1) (dstOne c1 (rdAt T (introBits c1).length)) (introBits c1) := by
  refine ⟨rfl, introBits_le_one c1, rfl, rfl, rfl, ?_, ?_, ?_, rfl, ?_, ?_, ?_, ?_,
    ?_, ?_, ?_, ?_, ?_, ?_, ?_, ?_, ?_, ?_, ?_⟩
  · show (1:Nat) ≤ 4
    omega
  · show (3:Nat) ≤ 3
    omega
  · show 4 + 4 = 2 ^ 3
    rfl
  · show (4:Nat) ≤ 4
    omega
  · show ([c1] : Str) ≠ []
    simp
  · show ([c1] : Str) ≠ []
    simp
  · intro x hx
    have hx1 : x = c1 := by simpa [ctxTwoS] using hx
    rw [hx1]
    exact hc1
  · intro p cc hp
    rcases lookup2_inv c1 p cc hp with ⟨h1, h2⟩ | ⟨h1, h2⟩ <;> subst h1 <;> subst h2
    · exact ⟨by omega, by show (4:Nat) < 5; omega, by simp⟩
    · exact ⟨by omega, by show (3:Nat) < 5; omega, by simp⟩
  · intro p q cc hp hq
    rcases lookup2_inv c1 p cc hp with ⟨hp1, hp2⟩ | ⟨hp1, hp2⟩ <;>
      rcases lookup2_inv c1 q cc hq with ⟨hq1, hq2⟩ | ⟨hq1, hq2⟩ <;>
      first | omega | (rw [hp1, hq1])
  · intro p cc hp x hx
    rcases lookup2_inv c1 p cc hp with ⟨h1, h2⟩ | ⟨h1, h2⟩ <;> subst h1 <;> subst h2
    · have hx1 : x = c1 := by simpa using hx
      rw [hx1]
      exact ⟨3, lookup2_c1 c1, by omega⟩
    · have hx1 : x = c1 := by simpa using hx
      rw [hx1]
      exact ⟨3, lookup2_c1 c1, by omega⟩
  · exact ⟨3, lookup2_c1 c1, by show (3:Nat) < 4; omega⟩
  · exact ⟨3, lookup2_c1 c1⟩
  · exact Or.inl rfl
  · rfl
  · exact lookup2_c11 c1
  · intro p cc hp hlt
    rcases lookup2_inv c1 p cc hp with ⟨h1, h2⟩ | ⟨h1, h2⟩ <;> subst h1 <;> subst h2
    · exact absurd hlt (by show ¬(4:Nat) < 4; omega)
    · rfl
  · intro i e h3 hget
    have hget2 : List.get? [[], [], [], [c1]] i = some e := hget
    rcases i with _ | _ | _ | _ | j
    · exact absurd h3 (by omega)
    · exact absurd h3 (by omega)
    · exact absurd h3 (by omega)
    · simp only [List.get?] at hget2
      cases hget2
      simp
    · simp [List.get?] at hget2
  · intro p cc hp hge
    rcases lookup2_inv c1 p cc hp with ⟨h1, h2⟩ | ⟨h1, h2⟩ <;> subst h1 <;> subst h2
    · exact Or.inl ⟨rfl, rfl⟩
    · exact absurd hge (by show ¬(4:Nat) ≤ 3; omega)

theorem lookup3_inv (c1 c2 : Nat) (p : Str) (cc : Nat)
    (hp : List.lookup p [([c1, c2], (5:Nat)), ([c2], 4), ([c1], 3)] = some cc) :
    (p = [c1, c2] ∧ cc = 5) ∨ (p = [c2] ∧ cc = 4) ∨ (p = [c1] ∧ cc = 3) := by
  rw [lookup_cons'] at hp
  split_ifs at hp with h1
  · cases hp
    exact Or.inl ⟨h1, rfl⟩
  · rw [lookup_cons'] at hp
    split_ifs at hp with h2
    · cases hp
      exact Or.inr (Or.inl ⟨h2, rfl⟩)
    · rw [lookup_cons'] at hp
      split_ifs at hp with h3
      · cases hp
        exact Or.inr (Or.inr ⟨h3, rfl⟩)
      · simp [List.lookup] at hp

theorem lookup3_c1 (c1 c2 : Nat) (h : c2 ≠ c1) :
    List.lookup [c1] [([c1, c2], (5:Nat)), ([c2], 4), ([c1], 3)] = some 3 := by
  have h12 : ([c1] : Str) ≠ [c2] := by
    intro hh
    injection hh with hh1 _
    exact h hh1.symm
  rw [lookup_cons', if_neg (by simp), lookup_cons', if_neg h12, lookup_cons',
    if_pos rfl]

theorem lookup3_c2 (c1 c2 : Nat) :
    List.lookup [c2] [([c1, c2], (5:Nat)), ([c2], 4), ([c1], 3)] = some 4 := by
  rw [lookup_cons', if_neg (by simp), lookup_cons', if_pos rfl]

theorem lookup3_c12 (c1 c2 : Nat) :
    List.lookup [c1, c2] [([c1, c2], (5:Nat)), ([c2], 4), ([c1], 3)] = some 5 := by
  rw [lookup_cons', if_pos rfl]

/-- The simulation invariant holds after the first emission when the second
input character differs from the first. -/
theorem sinv_two_diff (c1 c2 : Nat) (T : Str) (hc1 : c1 < 65536) (hc2 : c2 < 65536)
    (h : c2 ≠ c1) :
    SInv T (ctxTwoD c1 c2) (dstOne c1 (rdAt T (introBits c1).length)) (introBits c1) := by
  refine ⟨rfl, introBits_le_one c1, rfl, rfl, rfl, ?_, ?_, ?_, rfl, ?_, ?_, ?_, ?_,
    ?_, ?_, ?_, ?_, ?_, ?_, ?_, ?_, ?_, ?_, ?_⟩
  · show (1:Nat) ≤ 4
    omega
  · show (3:Nat) ≤ 3
    omega
  · show 4 + 4 = 2 ^ 3
    rfl
  · show (4:Nat) ≤ 4
    omega
  · show ([c2] : Str) ≠ []
    simp
  · show ([c1] : Str) ≠ []
    simp
  · intro x hx
    have hx1 : x = c2 := by simpa [ctxTwoD] using hx
    rw [hx1]
    exact hc2
  · intro p cc hp
    rcases lookup3_inv c1 c2 p cc hp with ⟨h1, h2⟩ | ⟨h1, h2⟩ | ⟨h1, h2⟩ <;>
      subst h1 <;> subst h2
    · exact ⟨by omega, by show (5:Nat) < 6; omega, by simp⟩
    · exact ⟨by omega, by show (4:Nat) < 6; omega, by simp⟩
    · exact ⟨by omega, by show (3:Nat) < 6; omega, by simp⟩
  · intro p q cc hp hq
    rcases lookup3_inv c1 c2 p cc hp with ⟨hp1, hp2⟩ | ⟨hp1, hp2⟩ | ⟨hp1, hp2⟩ <;>
      rcases lookup3_inv c1 c2 q cc hq with ⟨hq1, hq2⟩ | ⟨hq1, hq2⟩ | ⟨hq1, hq2⟩ <;>
      first | omega | (rw [hp1, hq1])
  · intro p cc hp x hx
    rcases lookup3_inv c1 c2 p cc hp with ⟨h1, h2⟩ | ⟨h1, h2⟩ | ⟨h1, h2⟩ <;>
      subst h1 <;> subst h2
    · rcases (by simpa using hx : x = c1 ∨ x = c2) with hx1 | hx1 <;> rw [hx1]
      · exact ⟨3, lookup3_c1 c1 c2 h, by omega⟩
      · exact ⟨4, lookup3_c2 c1 c2, by omega⟩
    · have hx1 : x = c2 := by simpa using hx
      rw [hx1]
      exact ⟨4, lookup3_c2 c1 c2, by omega⟩
    · have hx1 : x = c1 := by simpa using hx
      rw [hx1]
      exact ⟨3, lookup3_c1 c1 c2 h, by omega⟩
  · exact ⟨3, lookup3_c1 c1 c2 h, by show (3:Nat) < 4; omega⟩
  · exact ⟨4, lookup3_c2 c1 c2⟩
  · refine Or.inr ⟨rfl, rfl, lookup3_c2 c1 c2, ?_⟩
    intro c'
    have hne1 : ([c2, c'] : Str) ≠ [c1, c2] := by
      intro hh
      injection hh with hh1 _
      exact h hh1
    show List.lookup [c2, c'] [([c1, c2], (5:Nat)), ([c2], 4), ([c1], 3)] = none
    rw [lookup_cons', if_neg hne1, lookup_cons', if_neg (by simp), lookup_cons',
      if_neg (by simp)]
    rfl
  · rfl
  · exact lookup3_c12 c1 c2
  · intro p cc hp hlt
    rcases lookup3_inv c1 c2 p cc hp with ⟨h1, h2⟩ | ⟨h1, h2⟩ | ⟨h1, h2⟩ <;>
      subst h1 <;> subst h2
    · exact absurd hlt (by show ¬(5:Nat) < 4; omega)
    · exact absurd hlt (by show ¬(4:Nat) < 4; omega)
    · rfl
  · intro i e h3 hget
    have hget2 : List.get? [[], [], [], [c1]] i = some e := hget
    rcases i with _ | _ | _ | _ | j
    · exact absurd h3 (by omega)
    · exact absurd h3 (by omega)
    · exact absurd h3 (by omega)
    · simp only [List.get?] at hget2
      cases hget2
      simp
    · simp [List.get?] at hget2
  · intro p cc hp hge
    rcases lookup3_inv c1 c2 p cc hp with ⟨h1, h2⟩ | ⟨h1, h2⟩ | ⟨h1, h2⟩ <;>
      subst h1 <;> subst h2
    · exact Or.inl ⟨rfl, rfl⟩
    · exact Or.inr ⟨rfl, rfl, rfl⟩
    · exact absurd hge (by show ¬(4:Nat) ≤ 3; omega)

theorem decompressFromEncoded_ne (input : Str) (h : input ≠ []) :
    decompressFromEncodedURIComponent input =
      lzDecompress (input.map (fun c => if c = 32 then 43 else c)).length 32
        (nextUriVal (input.map (fun c => if c = 32 then 43 else c))) := by
  unfold decompressFromEncodedURIComponent
  rw [if_neg h]

/-- The general round trip: decompressing the compressed token — with any
trailing garbage appended — recovers the original nonempty string. -/
theorem lz_roundtrip (s : Str) (hs : s ≠ []) (hcu : CodeUnits s) (junk : Str) :
    decompressFromEncodedURIComponent (compressToEncodedURIComponent s ++ junk) =
      .done (some s) := by
  obtain ⟨c1, rest1, rfl⟩ : ∃ c1 rest1, s = c1 :: rest1 := by
    rcases s with _ | ⟨c1, rest1⟩
    · exact absurd rfl hs
    · exact ⟨c1, rest1, rfl⟩
  have hc1 : c1 < 65536 := hcu c1 (by simp)
  have henc : compressToEncodedURIComponent (c1 :: rest1) =
      packChars (futBits cInit (c1 :: rest1)) := by
    rw [compressToEncoded_eq_finish, compressFinish_eq]
    exact pack_flush _
  rw [henc, decompressFromEncoded_ne _ (by simp [packChars]), map_space_packChars]
  have hfc : futBits cInit (c1 :: rest1) = futBits (ctxOne c1) rest1 := by
    have h0 : futBits cInit (c1 :: rest1) =
        stepBits cInit c1 ++ futBits (compressStep 6 charOfUriSafe cInit c1) rest1 := rfl
    rw [h0, stepBits_init, compressStep_init, List.nil_append]
  rw [hfc]
  obtain ⟨b, m, hbm, hintro, hc1m⟩ : ∃ b m, ((b = 0 ∧ m = 8) ∨ (b = 1 ∧ m = 16)) ∧
      introBits c1 = bitsLSB 2 b ++ bitsLSB m c1 ∧ c1 < 2 ^ m := by
    by_cases h256 : c1 < 256
    · exact ⟨0, 8, Or.inl ⟨rfl, rfl⟩, by unfold introBits; rw [if_pos h256],
        by rw [show (2:Nat) ^ 8 = 256 from rfl]; exact h256⟩
    · exact ⟨1, 16, Or.inr ⟨rfl, rfl⟩, by unfold introBits; rw [if_neg h256],
        by rw [show (2:Nat) ^ 16 = 65536 from rfl]; exact hc1⟩
  rcases rest1 with _ | ⟨c2, rest2⟩
  · have hwne : (ctxOne c1).w ≠ [] := by simp [ctxOne]
    have hfut1 : futBits (ctxOne c1) [] =
        (bitsLSB 2 b ++ bitsLSB m c1) ++ bitsLSB 3 2 := by
      have h0 : futBits (ctxOne c1) [] =
          (if (ctxOne c1).w ≠ [] then emitBitsW (ctxOne c1) else []) ++
            bitsLSB (if (ctxOne c1).w ≠ [] then (emitEN (ctxOne c1)).2
              else (ctxOne c1).numBits) 2 := rfl
      rw [h0, if_pos hwne, if_pos hwne, emitBitsW_ctxOne, emitEN_ctxOne, hintro]
    rw [hfut1,
      decode_first c1 (bitsLSB 3 2) (junk.map (fun c => if c = 32 then 43 else c))
        b m hbm hc1m (bitsLSB_le_one _ _)]
    set T := packChars ((bitsLSB 2 b ++ bitsLSB m c1) ++ bitsLSB 3 2) ++
      junk.map (fun c => if c = 32 then 43 else c) with hTdef
    rw [show 2 * T.length + 16 = (2 * T.length + 15) + 1 from by omega]
    rw [decode_end T (bitsLSB 2 b ++ bitsLSB m c1)
      (junk.map (fun c => if c = 32 then 43 else c)) 3
      { dictionary := [[], [], [], [c1]], enlargeIn := 4, dictSize := 4,
        numBits := 3, result := [[c1]], w := [c1], rd := rdAt T (2 + m) }
      hTdef
      (fun x hx => by
        rcases List.mem_append.mp hx with h2 | h2
        · exact bitsLSB_le_one _ _ _ h2
        · exact bitsLSB_le_one _ _ _ h2)
      (by rw [List.length_append, bitsLSB_length, bitsLSB_length])
      rfl (by omega) (2 * T.length + 15)]
    simp
  · have hcu2 : CodeUnits rest2 := fun x hx => hcu x (by simp [hx])
    by_cases hsame : c2 = c1
    · have hsame2 : c1 = c2 := hsame.symm
      subst hsame2
      have hfut2 : futBits (ctxOne c1) (c1 :: rest2) =
          (bitsLSB 2 b ++ bitsLSB m c1) ++ futBits (ctxTwoS c1) rest2 := by
        have h0 : futBits (ctxOne c1) (c1 :: rest2) =
            stepBits (ctxOne c1) c1 ++
              futBits (compressStep 6 charOfUriSafe (ctxOne c1) c1) rest2 := rfl
        rw [h0, stepBits_one_same, compressStep_one_same, hintro]
      rw [hfut2,
        decode_first c1 (futBits (ctxTwoS c1) rest2)
          (junk.map (fun c => if c = 32 then 43 else c)) b m hbm hc1m
          (futBits_le_one rest2 (ctxTwoS c1))]
      set T := packChars ((bitsLSB 2 b ++ bitsLSB m c1) ++ futBits (ctxTwoS c1) rest2) ++
        junk.map (fun c => if c = 32 then 43 else c) with hTdef
      have hrdlen : (2:Nat) + m = (introBits c1).length := by
        rw [hintro, List.length_append, bitsLSB_length, bitsLSB_length]
      rw [hrdlen]
      have hfuel : 3 * (2 * T.length + 16) ≥ (futBits (ctxTwoS c1) rest2).length + 3 := by
        have h1 := packChars_length ((bitsLSB 2 b ++ bitsLSB m c1) ++
          futBits (ctxTwoS c1) rest2)
        have h2 : T.length = (packChars ((bitsLSB 2 b ++ bitsLSB m c1) ++
            futBits (ctxTwoS c1) rest2)).length +
            (junk.map (fun c => if c = 32 then 43 else c)).length := by
          rw [hTdef, List.length_append]
        have h3 : ((bitsLSB 2 b ++ bitsLSB m c1) ++ futBits (ctxTwoS c1) rest2).length =
            (2 + m) + (futBits (ctxTwoS c1) rest2).length := by
          rw [List.length_append, List.length_append, bitsLSB_length, bitsLSB_length]
        omega
      exact sim rest2 (ctxTwoS c1) (dstOne c1 (rdAt T (introBits c1).length))
        (introBits c1) (junk.map (fun c => if c = 32 then 43 else c)) T
        (2 * T.length + 16) (by rw [hTdef, hintro]) (sinv_two_same c1 T hc1) hcu2 hfuel
    · have hc2 : c2 < 65536 := hcu c2 (by simp)
      have hfut2 : futBits (ctxOne c1) (c2 :: rest2) =
          (bitsLSB 2 b ++ bitsLSB m c1) ++ futBits (ctxTwoD c1 c2) rest2 := by
        have h0 : futBits (ctxOne c1) (c2 :: rest2) =
            stepBits (ctxOne c1) c2 ++
              futBits (compressStep 6 charOfUriSafe (ctxOne c1) c2) rest2 := rfl
        rw [h0, stepBits_one_diff c1 c2 hsame, compressStep_one_diff c1 c2 hsame, hintro]
      rw [hfut2,
        decode_first c1 (futBits (ctxTwoD c1 c2) rest2)
          (junk.map (fun c => if c = 32 then 43 else c)) b m hbm hc1m
          (futBits_le_one rest2 (ctxTwoD c1 c2))]
      set T := packChars ((bitsLSB 2 b ++ bitsLSB m c1) ++ futBits (ctxTwoD c1 c2) rest2) ++
        junk.map (fun c => if c = 32 then 43 else c) with hTdef
      have hrdlen : (2:Nat) + m = (introBits c1).length := by
        rw [hintro, List.length_append, bitsLSB_length, bitsLSB_length]
      rw [hrdlen]
      have hfuel : 3 * (2 * T.length + 16) ≥ (futBits (ctxTwoD c1 c2) rest2).length + 3 := by
        have h1 := packChars_length ((bitsLSB 2 b ++ bitsLSB m c1) ++
          futBits (ctxTwoD c1 c2) rest2)
        have h2 : T.length = (packChars ((bitsLSB 2 b ++ bitsLSB m c1) ++
            futBits (ctxTwoD c1 c2) rest2)).length +
            (junk.map (fun c => if c = 32 then 43 else c)).length := by
          rw [hTdef, List.length_append]
        have h3 : ((bitsLSB 2 b ++ bitsLSB m c1) ++ futBits (ctxTwoD c1 c2) rest2).length =
            (2 + m) + (futBits (ctxTwoD c1 c2) rest2).length := by
          rw [List.length_append, List.length_append, bitsLSB_length, bitsLSB_length]
        omega
      exact sim rest2 (ctxTwoD c1 c2) (dstOne c1 (rdAt T (introBits c1).length))
        (introBits c1) (junk.map (fun c => if c = 32 then 43 else c)) T
        (2 * T.length + 16) (by rw [hTdef, hintro]) (sinv_two_diff c1 c2 T hc1 hc2 hsame)
        hcu2 hfuel

/-! ## The default buffers of `App.tsx` (`DEFAULT_HTML`, `DEFAULT_CSS`,
`DEFAULT_JS`) -/

-- DEFAULT_HTML: 169 code points, 170 UTF-16 code units
def DEFAULT_HTML : Str := utf16 "<div class=\"container\">\n  <h1>مرحباً بك! 👋</h1>\n  <p>ابدأ بكتابة الكود الخاص بك هنا</p>\n  <button onclick=\"sayHello()\">اضغط هنا</button>\n  <div id=\"output\"></div>\n</div>"

-- DEFAULT_CSS: 1013 code points, 1013 UTF-16 code units
def DEFAULT_CSS : Str := utf16 "* \x7b\n  margin: 0;\n  padding: 0;\n  box-sizing: border-box;\n\x7d\n\nbody \x7b\n  font-family: 'Segoe UI', Tahoma, sans-serif;\n  display: flex;\n  justify-content: center;\n  align-items: center;\n  min-height: 100vh;\n  background: linear-gradient(135deg, #0f0c29, #302b63, #24243e);\n  color: #fff;\n\x7d\n\n.container \x7b\n  text-align: center;\n  padding: 2rem;\n\x7d\n\nh1 \x7b\n  font-size: 2.5rem;\n  margin-bottom: 1rem;\n  background: linear-gradient(to right, #f7971e, #ffd200);\n  -webkit-background-clip: text;\n  -webkit-text-fill-color: transparent;\n\x7d\n\np \x7b\n  font-size: 1.2rem;\n  color: #aaa;\n  margin-bottom: 2rem;\n\x7d\n\nbutton \x7b\n  padding: 12px 32px;\n  font-size: 1rem;\n  border: none;\n  border-radius: 50px;\n  background: linear-gradient(to right, #f7971e, #ffd200);\n  color: #1a1a2e;\n  font-weight: bold;\n  cursor: pointer;\n  transition: transform 0.2s, box-shadow 0.2s;\n\x7d\n\nbutton:hover \x7b\n  transform: scale(1.05);\n  box-shadow: 0 8px 25px rgba(247, 151, 30, 0.4);\n\x7d\n\n#output \x7b\n  margin-top: 1.5rem;\n  font-size: 1.3rem;\n  color: #ffd200;\n\x7d"

-- DEFAULT_JS: 504 code points, 505 UTF-16 code units
def DEFAULT_JS : Str := utf16 "function sayHello() \x7b\n  const output = document.getElementById('output');\n  output.textContent = '🎉 أهلاً وسهلاً!';\n  output.style.animation = 'none';\n  output.offsetHeight; // trigger reflow\n  output.style.animation = 'fadeIn 0.5s ease';\n\x7d\n\n// Add animation keyframes\nconst style = document.createElement('style');\nstyle.textContent = `\n  @keyframes fadeIn \x7b\n    from \x7b opacity: 0; transform: translateY(-10px); \x7d\n    to \x7b opacity: 1; transform: translateY(0); \x7d\n  \x7d\n`;\ndocument.head.appendChild(style);"

-- total UTF-16 code units of the three buffers: 1688

/-! ## Compression efficacy: a concrete repetitive Document -/

/-- A Document of typical repetitive markup: `<p>hi</p>` repeated 34
times — 306 code units of markup, empty style and script. -/
def c8doc : Str := (List.replicate 34 (utf16 "<p>hi</p>")).flatten

def c8p0 : Str := [123, 34, 104, 116, 109, 108, 34, 58, 34, 60, 112, 62, 104, 105, 60, 47, 112, 62, 60, 112, 62, 104, 105, 60, 47, 112, 62, 60, 112, 62, 104, 105, 60, 47, 112, 62, 60, 112, 62, 104, 105, 60, 47, 112, 62, 60, 112, 62, 104, 105, 60, 47, 112, 62, 60, 112, 62, 104, 105, 60]
def c8p1 : Str := [47, 112, 62, 60, 112, 62, 104, 105, 60, 47, 112, 62, 60, 112, 62, 104, 105, 60, 47, 112, 62, 60, 112, 62, 104, 105, 60, 47, 112, 62, 60, 112, 62, 104, 105, 60, 47, 112, 62, 60, 112, 62, 104, 105, 60, 47, 112, 62, 60, 112, 62, 104, 105, 60, 47, 112, 62, 60, 112, 62]
def c8p2 : Str := [104, 105, 60, 47, 112, 62, 60, 112, 62, 104, 105, 60, 47, 112, 62, 60, 112, 62, 104, 105, 60, 47, 112, 62, 60, 112, 62, 104, 105, 60, 47, 112, 62, 60, 112, 62, 104, 105, 60, 47, 112, 62, 60, 112, 62, 104, 105, 60, 47, 112, 62, 60, 112, 62, 104, 105, 60, 47, 112, 62]
def c8p3 : Str := [60, 112, 62, 104, 105, 60, 47, 112, 62, 60, 112, 62, 104, 105, 60, 47, 112, 62, 60, 112, 62, 104, 105, 60, 47, 112, 62, 60, 112, 62, 104, 105, 60, 47, 112, 62, 60, 112, 62, 104, 105, 60, 47, 112, 62, 60, 112, 62, 104, 105, 60, 47, 112, 62, 60, 112, 62, 104, 105, 60]
def c8p4 : Str := [47, 112, 62, 60, 112, 62, 104, 105, 60, 47, 112, 62, 60, 112, 62, 104, 105, 60, 47, 112, 62, 60, 112, 62, 104, 105, 60, 47, 112, 62, 60, 112, 62, 104, 105, 60, 47, 112, 62, 60, 112, 62, 104, 105, 60, 47, 112, 62, 60, 112, 62, 104, 105, 60, 47, 112, 62, 60, 112, 62]
def c8p5 : Str := [104, 105, 60, 47, 112, 62, 60, 112, 62, 104, 105, 60, 47, 112, 62, 34, 44, 34, 99, 115, 115, 34, 58, 34, 34, 44, 34, 106, 115, 34, 58, 34, 34, 125]

set_option maxRecDepth 400000 in
/-- The JSON payload of `c8doc`, in chunks. -/
theorem c8_payload : stringifyDoc c8doc [] [] = c8p0 ++ c8p1 ++ c8p2 ++ c8p3 ++ c8p4 ++ c8p5 := by decide

/-- Compressor state after 60 payload characters. -/
def c8st1 : CCtx :=
  { dict := [([62, 104, 105, 60], 47), ([112, 62, 60, 112, 62], 46), ([105, 60, 47, 112], 45), ([60, 112, 62, 104, 105], 44), ([47, 112, 62, 60], 43), ([104, 105, 60, 47], 42), ([112, 62, 104], 41), ([112, 62, 60, 112], 40), ([60, 47, 112], 39), ([104, 105, 60], 38), ([60, 112, 62, 104], 37), ([62, 60], 36), ([47, 112, 62], 35), ([105, 60, 47], 34), ([62, 104, 105], 33), ([60, 112, 62], 32), ([112, 62, 60], 31), ([47, 112], 30), ([60, 47], 29), ([47], 28), ([105, 60], 27), ([104, 105], 26), ([105], 25), ([62, 104], 24), ([112, 62], 23), ([62], 22), ([60, 112], 21), ([112], 20), ([34, 60], 19), ([60], 18), ([58, 34], 17), ([34, 58], 16), ([58], 15), ([108, 34], 14), ([109, 108], 13), ([108], 12), ([116, 109], 11), ([109], 10), ([104, 116], 9), ([116], 8), ([34, 104], 7), ([104], 6), ([123, 34], 5), ([34], 4), ([123], 3)],
    toCreate := [],
    w := [60], enlargeIn := 17, dictSize := 48, numBits := 6,
    out := { data := [78, 52, 73, 103, 70, 103, 76, 103, 116, 103, 78, 105, 66, 99, 73, 65, 56, 65, 72, 65, 102, 71, 65, 108, 107, 103, 57, 79, 49, 71, 50, 101, 97, 66, 87, 117, 43, 54, 90, 120, 112, 82, 70, 104], val := 0, pos := 0 } }

/-- Compressor state after 120 payload characters. -/
def c8st2 : CCtx :=
  { dict := [([62, 104, 105, 60, 47, 112], 61), ([47, 112, 62, 60, 112, 62], 60), ([112, 62, 104, 105, 60, 47], 59), ([60, 47, 112, 62, 60, 112], 58), ([60, 112, 62, 104, 105, 60], 57), ([60, 47, 112, 62, 60], 56), ([112, 62, 104, 105, 60], 55), ([47, 112, 62, 60, 112], 54), ([62, 104, 105, 60, 47], 53), ([62, 60, 112, 62], 52), ([105, 60, 47, 112, 62], 51), ([112, 62, 104, 105], 50), ([62, 60, 112], 49), ([60, 47, 112, 62], 48), ([62, 104, 105, 60], 47), ([112, 62, 60, 112, 62], 46), ([105, 60, 47, 112], 45), ([60, 112, 62, 104, 105], 44), ([47, 112, 62, 60], 43), ([104, 105, 60, 47], 42), ([112, 62, 104], 41), ([112, 62, 60, 112], 40), ([60, 47, 112], 39), ([104, 105, 60], 38), ([60, 112, 62, 104], 37), ([62, 60], 36), ([47, 112, 62], 35), ([105, 60, 47], 34), ([62, 104, 105], 33), ([60, 112, 62], 32), ([112, 62, 60], 31), ([47, 112], 30), ([60, 47], 29), ([47], 28), ([105, 60], 27), ([104, 105], 26), ([105], 25), ([62, 104], 24), ([112, 62], 23), ([62], 22), ([60, 112], 21), ([112], 20), ([34, 60], 19), ([60], 18), ([58, 34], 17), ([34, 58], 16), ([58], 15), ([108, 34], 14), ([109, 108], 13), ([108], 12), ([116, 109], 11), ([109], 10), ([104, 116], 9), ([116], 8), ([34, 104], 7), ([104], 6), ([123, 34], 5), ([34], 4), ([123], 3)],
    toCreate := [],
    w := [112, 62, 60, 112, 62], enlargeIn := 3, dictSize := 62, numBits := 6,
    out := { data := [78, 52, 73, 103, 70, 103, 76, 103, 116, 103, 78, 105, 66, 99, 73, 65, 56, 65, 72, 65, 102, 71, 65, 108, 107, 103, 57, 79, 49, 71, 50, 101, 97, 66, 87, 117, 43, 54, 90, 120, 112, 82, 70, 104, 53, 74, 108, 116, 106, 57, 49, 84, 68, 78, 72, 55, 98, 114], val := 0, pos := 0 } }

/-- Compressor state after 180 payload characters. -/
def c8st3 : CCtx :=
  { dict := [([112, 62, 60, 112, 62, 104, 105, 60], 72), ([60, 112, 62, 104, 105, 60, 47, 112], 71), ([104, 105, 60, 47, 112, 62, 60], 70), ([62, 60, 112, 62, 104], 69), ([104, 105, 60, 47, 112, 62], 68), ([47, 112, 62, 60, 112, 62, 104], 67), ([60, 112, 62, 104, 105, 60, 47], 66), ([105, 60, 47, 112, 62, 60], 65), ([112, 62, 60, 112, 62, 104, 105], 64), ([104, 105, 60, 47, 112], 63), ([112, 62, 60, 112, 62, 104], 62), ([62, 104, 105, 60, 47, 112], 61), ([47, 112, 62, 60, 112, 62], 60), ([112, 62, 104, 105, 60, 47], 59), ([60, 47, 112, 62, 60, 112], 58), ([60, 112, 62, 104, 105, 60], 57), ([60, 47, 112, 62, 60], 56), ([112, 62, 104, 105, 60], 55), ([47, 112, 62, 60, 112], 54), ([62, 104, 105, 60, 47], 53), ([62, 60, 112, 62], 52), ([105, 60, 47, 112, 62], 51), ([112, 62, 104, 105], 50), ([62, 60, 112], 49), ([60, 47, 112, 62], 48), ([62, 104, 105, 60], 47), ([112, 62, 60, 112, 62], 46), ([105, 60, 47, 112], 45), ([60, 112, 62, 104, 105], 44), ([47, 112, 62, 60], 43), ([104, 105, 60, 47], 42), ([112, 62, 104], 41), ([112, 62, 60, 112], 40), ([60, 47, 112], 39), ([104, 105, 60], 38), ([60, 112, 62, 104], 37), ([62, 60], 36), ([47, 112, 62], 35), ([105, 60, 47], 34), ([62, 104, 105], 33), ([60, 112, 62], 32), ([112, 62, 60], 31), ([47, 112], 30), ([60, 47], 29), ([47], 28), ([105, 60], 27), ([104, 105], 26), ([105], 25), ([62, 104], 24), ([112, 62], 23), ([62], 22), ([60, 112], 21), ([112], 20), ([34, 60], 19), ([60], 18), ([58, 34], 17), ([34, 58], 16), ([58], 15), ([108, 34], 14), ([109, 108], 13), ([108], 12), ([116, 109], 11), ([109], 10), ([104, 116], 9), ([116], 8), ([34, 104], 7), ([104], 6), ([123, 34], 5), ([34], 4), ([123], 3)],
    toCreate := [],
    w := [60, 47, 112, 62], enlargeIn := 56, dictSize := 73, numBits := 7,
    out := { data := [78, 52, 73, 103, 70, 103, 76, 103, 116, 103, 78, 105, 66, 99, 73, 65, 56, 65, 72, 65, 102, 71, 65, 108, 107, 103, 57, 79, 49, 71, 50, 101, 97, 66, 87, 117, 43, 54, 90, 120, 112, 82, 70, 104, 53, 74, 108, 116, 106, 57, 49, 84, 68, 78, 72, 55, 98, 114, 100, 86, 102, 122, 84, 106, 51, 52, 115, 82, 81, 103], val := 1, pos := 2 } }

/-- Compressor state after 240 payload characters. -/
def c8st4 : CCtx :=
  { dict := [([62, 104, 105, 60, 47, 112, 62, 60], 81), ([105, 60, 47, 112, 62, 60, 112, 62], 80), ([47, 112, 62, 60, 112, 62, 104, 105], 79), ([112, 62, 60, 112, 62, 104, 105, 60, 47], 78), ([112, 62, 104, 105, 60, 47, 112], 77), ([105, 60, 47, 112, 62, 60, 112], 76), ([62, 60, 112, 62, 104, 105], 75), ([62, 104, 105, 60, 47, 112, 62], 74), ([60, 47, 112, 62, 60, 112, 62], 73), ([112, 62, 60, 112, 62, 104, 105, 60], 72), ([60, 112, 62, 104, 105, 60, 47, 112], 71), ([104, 105, 60, 47, 112, 62, 60], 70), ([62, 60, 112, 62, 104], 69), ([104, 105, 60, 47, 112, 62], 68), ([47, 112, 62, 60, 112, 62, 104], 67), ([60, 112, 62, 104, 105, 60, 47], 66), ([105, 60, 47, 112, 62, 60], 65), ([112, 62, 60, 112, 62, 104, 105], 64), ([104, 105, 60, 47, 112], 63), ([112, 62, 60, 112, 62, 104], 62), ([62, 104, 105, 60, 47, 112], 61), ([47, 112, 62, 60, 112, 62], 60), ([112, 62, 104, 105, 60, 47], 59), ([60, 47, 112, 62, 60, 112], 58), ([60, 112, 62, 104, 105, 60], 57), ([60, 47, 112, 62, 60], 56), ([112, 62, 104, 105, 60], 55), ([47, 112, 62, 60, 112], 54), ([62, 104, 105, 60, 47], 53), ([62, 60, 112, 62], 52), ([105, 60, 47, 112, 62], 51), ([112, 62, 104, 105], 50), ([62, 60, 112], 49), ([60, 47, 112, 62], 48), ([62, 104, 105, 60], 47), ([112, 62, 60, 112, 62], 46), ([105, 60, 47, 112], 45), ([60, 112, 62, 104, 105], 44), ([47, 112, 62, 60], 43), ([104, 105, 60, 47], 42), ([112, 62, 104], 41), ([112, 62, 60, 112], 40), ([60, 47, 112], 39), ([104, 105, 60], 38), ([60, 112, 62, 104], 37), ([62, 60], 36), ([47, 112, 62], 35), ([105, 60, 47], 34), ([62, 104, 105], 33), ([60, 112, 62], 32), ([112, 62, 60], 31), ([47, 112], 30), ([60, 47], 29), ([47], 28), ([105, 60], 27), ([104, 105], 26), ([105], 25), ([62, 104], 24), ([112, 62], 23), ([62], 22), ([60, 112], 21), ([112], 20), ([34, 60], 19), ([60], 18), ([58, 34], 17), ([34, 58], 16), ([58], 15), ([108, 34], 14), ([109, 108], 13), ([108], 12), ([116, 109], 11), ([109], 10), ([104, 116], 9), ([116], 8), ([34, 104], 7), ([104], 6), ([123, 34], 5), ([34], 4), ([123], 3)],
    toCreate := [],
    w := [60, 112, 62, 104, 105, 60], enlargeIn := 47, dictSize := 82, numBits := 7,
    out := { data := [78, 52, 73, 103, 70, 103, 76, 103, 116, 103, 78, 105, 66, 99, 73, 65, 56, 65, 72, 65, 102, 71, 65, 108, 107, 103, 57, 79, 49, 71, 50, 101, 97, 66, 87, 117, 43, 54, 90, 120, 112, 82, 70, 104, 53, 74, 108, 116, 106, 57, 49, 84, 68, 78, 72, 55, 98, 114, 100, 86, 102, 122, 84, 106, 51, 52, 115, 82, 81, 103, 86, 49, 54, 106, 66, 51, 67, 99, 74, 108], val := 9, pos := 5 } }

/-- Compressor state after 300 payload characters. -/
def c8st5 : CCtx :=
  { dict := [([60, 47, 112, 62, 60, 112, 62, 104, 105], 89), ([47, 112, 62, 60, 112, 62, 104, 105, 60], 88), ([62, 60, 112, 62, 104, 105, 60, 47], 87), ([112, 62, 104, 105, 60, 47, 112, 62], 86), ([104, 105, 60, 47, 112, 62, 60, 112], 85), ([60, 47, 112, 62, 60, 112, 62, 104], 84), ([62, 60, 112, 62, 104, 105, 60], 83), ([60, 112, 62, 104, 105, 60, 47, 112, 62], 82), ([62, 104, 105, 60, 47, 112, 62, 60], 81), ([105, 60, 47, 112, 62, 60, 112, 62], 80), ([47, 112, 62, 60, 112, 62, 104, 105], 79), ([112, 62, 60, 112, 62, 104, 105, 60, 47], 78), ([112, 62, 104, 105, 60, 47, 112], 77), ([105, 60, 47, 112, 62, 60, 112], 76), ([62, 60, 112, 62, 104, 105], 75), ([62, 104, 105, 60, 47, 112, 62], 74), ([60, 47, 112, 62, 60, 112, 62], 73), ([112, 62, 60, 112, 62, 104, 105, 60], 72), ([60, 112, 62, 104, 105, 60, 47, 112], 71), ([104, 105, 60, 47, 112, 62, 60], 70), ([62, 60, 112, 62, 104], 69), ([104, 105, 60, 47, 112, 62], 68), ([47, 112, 62, 60, 112, 62, 104], 67), ([60, 112, 62, 104, 105, 60, 47], 66), ([105, 60, 47, 112, 62, 60], 65), ([112, 62, 60, 112, 62, 104, 105], 64), ([104, 105, 60, 47, 112], 63), ([112, 62, 60, 112, 62, 104], 62), ([62, 104, 105, 60, 47, 112], 61), ([47, 112, 62, 60, 112, 62], 60), ([112, 62, 104, 105, 60, 47], 59), ([60, 47, 112, 62, 60, 112], 58), ([60, 112, 62, 104, 105, 60], 57), ([60, 47, 112, 62, 60], 56), ([112, 62, 104, 105, 60], 55), ([47, 112, 62, 60, 112], 54), ([62, 104, 105, 60, 47], 53), ([62, 60, 112, 62], 52), ([105, 60, 47, 112, 62], 51), ([112, 62, 104, 105], 50), ([62, 60, 112], 49), ([60, 47, 112, 62], 48), ([62, 104, 105, 60], 47), ([112, 62, 60, 112, 62], 46), ([105, 60, 47, 112], 45), ([60, 112, 62, 104, 105], 44), ([47, 112, 62, 60], 43), ([104, 105, 60, 47], 42), ([112, 62, 104], 41), ([112, 62, 60, 112], 40), ([60, 47, 112], 39), ([104, 105, 60], 38), ([60, 112, 62, 104], 37), ([62, 60], 36), ([47, 112, 62], 35), ([105, 60, 47], 34), ([62, 104, 105], 33), ([60, 112, 62], 32), ([112, 62, 60], 31), ([47, 112], 30), ([60, 47], 29), ([47], 28), ([105, 60], 27), ([104, 105], 26), ([105], 25), ([62, 104], 24), ([112, 62], 23), ([62], 22), ([60, 112], 21), ([112], 20), ([34, 60], 19), ([60], 18), ([58, 34], 17), ([34, 58], 16), ([58], 15), ([108, 34], 14), ([109, 108], 13), ([108], 12), ([116, 109], 11), ([109], 10), ([104, 116], 9), ([116], 8), ([34, 104], 7), ([104], 6), ([123, 34], 5), ([34], 4), ([123], 3)],
    toCreate := [],
    w := [105, 60, 47, 112, 62, 60, 112, 62], enlargeIn := 39, dictSize := 90, numBits := 7,
    out := { data := [78, 52, 73, 103, 70, 103, 76, 103, 116, 103, 78, 105, 66, 99, 73, 65, 56, 65, 72, 65, 102, 71, 65, 108, 107, 103, 57, 79, 49, 71, 50, 101, 97, 66, 87, 117, 43, 54, 90, 120, 112, 82, 70, 104, 53, 74, 108, 116, 106, 57, 49, 84, 68, 78, 72, 55, 98, 114, 100, 86, 102, 122, 84, 106, 51, 52, 115, 82, 81, 103, 86, 49, 54, 106, 66, 51, 67, 99, 74, 108, 84, 120, 48, 121, 87, 78, 110, 76, 53, 75], val := 1, pos := 1 } }

/-- Compressor state after 334 payload characters. -/
def c8st6 : CCtx :=
  { dict := [([34, 125], 111), ([125], 110), ([58, 34, 34], 109), ([115, 34, 58], 108), ([106, 115], 107), ([34, 106], 106), ([106], 105), ([34, 44, 34], 104), ([34, 34], 103), ([34, 58, 34], 102), ([115, 34], 101), ([115, 115], 100), ([99, 115], 99), ([115], 98), ([34, 99], 97), ([99], 96), ([44, 34], 95), ([34, 44], 94), ([44], 93), ([62, 104, 105, 60, 47, 112, 62, 34], 92), ([104, 105, 60, 47, 112, 62, 60, 112, 62], 91), ([105, 60, 47, 112, 62, 60, 112, 62, 104], 90), ([60, 47, 112, 62, 60, 112, 62, 104, 105], 89), ([47, 112, 62, 60, 112, 62, 104, 105, 60], 88), ([62, 60, 112, 62, 104, 105, 60, 47], 87), ([112, 62, 104, 105, 60, 47, 112, 62], 86), ([104, 105, 60, 47, 112, 62, 60, 112], 85), ([60, 47, 112, 62, 60, 112, 62, 104], 84), ([62, 60, 112, 62, 104, 105, 60], 83), ([60, 112, 62, 104, 105, 60, 47, 112, 62], 82), ([62, 104, 105, 60, 47, 112, 62, 60], 81), ([105, 60, 47, 112, 62, 60, 112, 62], 80), ([47, 112, 62, 60, 112, 62, 104, 105], 79), ([112, 62, 60, 112, 62, 104, 105, 60, 47], 78), ([112, 62, 104, 105, 60, 47, 112], 77), ([105, 60, 47, 112, 62, 60, 112], 76), ([62, 60, 112, 62, 104, 105], 75), ([62, 104, 105, 60, 47, 112, 62], 74), ([60, 47, 112, 62, 60, 112, 62], 73), ([112, 62, 60, 112, 62, 104, 105, 60], 72), ([60, 112, 62, 104, 105, 60, 47, 112], 71), ([104, 105, 60, 47, 112, 62, 60], 70), ([62, 60, 112, 62, 104], 69), ([104, 105, 60, 47, 112, 62], 68), ([47, 112, 62, 60, 112, 62, 104], 67), ([60, 112, 62, 104, 105, 60, 47], 66), ([105, 60, 47, 112, 62, 60], 65), ([112, 62, 60, 112, 62, 104, 105], 64), ([104, 105, 60, 47, 112], 63), ([112, 62, 60, 112, 62, 104], 62), ([62, 104, 105, 60, 47, 112], 61), ([47, 112, 62, 60, 112, 62], 60), ([112, 62, 104, 105, 60, 47], 59), ([60, 47, 112, 62, 60, 112], 58), ([60, 112, 62, 104, 105, 60], 57), ([60, 47, 112, 62, 60], 56), ([112, 62, 104, 105, 60], 55), ([47, 112, 62, 60, 112], 54), ([62, 104, 105, 60, 47], 53), ([62, 60, 112, 62], 52), ([105, 60, 47, 112, 62], 51), ([112, 62, 104, 105], 50), ([62, 60, 112], 49), ([60, 47, 112, 62], 48), ([62, 104, 105, 60], 47), ([112, 62, 60, 112, 62], 46), ([105, 60, 47, 112], 45), ([60, 112, 62, 104, 105], 44), ([47, 112, 62, 60], 43), ([104, 105, 60, 47], 42), ([112, 62, 104], 41), ([112, 62, 60, 112], 40), ([60, 47, 112], 39), ([104, 105, 60], 38), ([60, 112, 62, 104], 37), ([62, 60], 36), ([47, 112, 62], 35), ([105, 60, 47], 34), ([62, 104, 105], 33), ([60, 112, 62], 32), ([112, 62, 60], 31), ([47, 112], 30), ([60, 47], 29), ([47], 28), ([105, 60], 27), ([104, 105], 26), ([105], 25), ([62, 104], 24), ([112, 62], 23), ([62], 22), ([60, 112], 21), ([112], 20), ([34, 60], 19), ([60], 18), ([58, 34], 17), ([34, 58], 16), ([58], 15), ([108, 34], 14), ([109, 108], 13), ([108], 12), ([116, 109], 11), ([109], 10), ([104, 116], 9), ([116], 8), ([34, 104], 7), ([104], 6), ([123, 34], 5), ([34], 4), ([123], 3)],
    toCreate := [[125]],
    w := [125], enlargeIn := 18, dictSize := 112, numBits := 7,
    out := { data := [78, 52, 73, 103, 70, 103, 76, 103, 116, 103, 78, 105, 66, 99, 73, 65, 56, 65, 72, 65, 102, 71, 65, 108, 107, 103, 57, 79, 49, 71, 50, 101, 97, 66, 87, 117, 43, 54, 90, 120, 112, 82, 70, 104, 53, 74, 108, 116, 106, 57, 49, 84, 68, 78, 72, 55, 98, 114, 100, 86, 102, 122, 84, 106, 51, 52, 115, 82, 81, 103, 86, 49, 54, 106, 66, 51, 67, 99, 74, 108, 84, 120, 48, 121, 87, 78, 110, 76, 53, 75, 104, 97, 113, 107, 103, 65, 78, 67, 65, 68, 71, 65, 90, 121, 77, 73, 81, 101, 107, 65, 67, 116, 84, 105, 69], val := 0, pos := 2 } }

set_option maxRecDepth 400000 in
theorem c8_step1 :
    List.foldl (compressStep 6 charOfUriSafe) cInit c8p0 = c8st1 := by
  rfl

set_option maxRecDepth 400000 in
theorem c8_step2 :
    List.foldl (compressStep 6 charOfUriSafe) c8st1 c8p1 = c8st2 := by
  rfl

set_option maxRecDepth 400000 in
theorem c8_step3 :
    List.foldl (compressStep 6 charOfUriSafe) c8st2 c8p2 = c8st3 := by
  rfl

set_option maxRecDepth 400000 in
theorem c8_step4 :
    List.foldl (compressStep 6 charOfUriSafe) c8st3 c8p3 = c8st4 := by
  rfl

set_option maxRecDepth 400000 in
theorem c8_step5 :
    List.foldl (compressStep 6 charOfUriSafe) c8st4 c8p4 = c8st5 := by
  rfl

set_option maxRecDepth 400000 in
theorem c8_step6 :
    List.foldl (compressStep 6 charOfUriSafe) c8st5 c8p5 = c8st6 := by
  rfl

/-- The token of `c8doc`: 120 characters for a 306-character Document. -/
def c8token : Str := [78, 52, 73, 103, 70, 103, 76, 103, 116, 103, 78, 105, 66, 99, 73, 65, 56, 65, 72, 65, 102, 71, 65, 108, 107, 103, 57, 79, 49, 71, 50, 101, 97, 66, 87, 117, 43, 54, 90, 120, 112, 82, 70, 104, 53, 74, 108, 116, 106, 57, 49, 84, 68, 78, 72, 55, 98, 114, 100, 86, 102, 122, 84, 106, 51, 52, 115, 82, 81, 103, 86, 49, 54, 106, 66, 51, 67, 99, 74, 108, 84, 120, 48, 121, 87, 78, 110, 76, 53, 75, 104, 97, 113, 107, 103, 65, 78, 67, 65, 68, 71, 65, 90, 121, 77, 73, 81, 101, 107, 65, 67, 116, 84, 105, 69, 65, 70, 56, 103, 65]

set_option maxRecDepth 400000 in
theorem c8_token : encodeCode c8doc [] [] = c8token := by
  have h1 : encodeCode c8doc [] [] =
      flushData 6 charOfUriSafe 6 (compressFinish cInit (stringifyDoc c8doc [] [])) :=
    compressToEncoded_eq_finish _
  rw [h1, c8_payload]
  unfold compressFinish
  rw [List.foldl_append, List.foldl_append, List.foldl_append, List.foldl_append, List.foldl_append]
  rw [c8_step1, c8_step2, c8_step3, c8_step4, c8_step5, c8_step6]
  rfl


/-! ## Code-unit bounds of the stringified payload -/

theorem unicodeEscape_codeUnits (c : Nat) : ∀ x ∈ unicodeEscape c, x < 65536 := by
  intro x hx
  have hd : ∀ n, n < 16 → hexDigit n < 65536 := by
    intro n hn
    unfold hexDigit
    split_ifs <;> omega
  unfold unicodeEscape at hx
  simp at hx
  rcases hx with rfl | rfl | rfl | rfl | rfl | rfl
  · omega
  · omega
  · exact hd _ (Nat.mod_lt _ (by omega))
  · exact hd _ (Nat.mod_lt _ (by omega))
  · exact hd _ (Nat.mod_lt _ (by omega))
  · exact hd _ (Nat.mod_lt _ (by omega))

set_option maxHeartbeats 4000000 in
theorem escChar_codeUnits (c : Nat) (hc : c < 65536) : ∀ x ∈ escChar c, x < 65536 := by
  intro x hx
  unfold escChar at hx
  split_ifs at hx
  · simp at hx; rcases hx with rfl | rfl <;> omega
  · simp at hx; rcases hx with rfl | rfl <;> omega
  · simp at hx; rcases hx with rfl | rfl <;> omega
  · simp at hx; rcases hx with rfl | rfl <;> omega
  · simp at hx; rcases hx with rfl | rfl <;> omega
  · simp at hx; rcases hx with rfl | rfl <;> omega
  · simp at hx; rcases hx with rfl | rfl <;> omega
  · exact unicodeEscape_codeUnits c x hx
  · exact unicodeEscape_codeUnits c x hx
  · exact unicodeEscape_codeUnits c x hx
  · simp at hx; omega

theorem quoteBody_codeUnits : ∀ s : Str, CodeUnits s → CodeUnits (quoteBody s)
  | [], _ => by
      intro x hx
      simp [quoteBody] at hx
  | [c], h => by
      intro x hx
      rw [show quoteBody [c] = escChar c from rfl] at hx
      exact escChar_codeUnits c (h c (by simp)) x hx
  | c :: d :: rest, h => by
      intro x hx
      rw [show quoteBody (c :: d :: rest) =
        (if isLeadSurrogate c && isTrailSurrogate d then c :: d :: quoteBody rest
         else escChar c ++ quoteBody (d :: rest)) from rfl] at hx
      split_ifs at hx with hsur
      · simp only [List.mem_cons] at hx
        rcases hx with rfl | rfl | hx
        · exact h x (by simp)
        · exact h x (by simp)
        · exact quoteBody_codeUnits rest
            (fun y hy => h y (List.mem_cons_of_mem c (List.mem_cons_of_mem d hy))) x hx
      · rcases List.mem_append.mp hx with hx | hx
        · exact escChar_codeUnits c (h c (by simp)) x hx
        · exact quoteBody_codeUnits (d :: rest)
            (fun y hy => h y (List.mem_cons_of_mem c hy)) x hx

theorem stringifyDoc_codeUnits (html css js : Str) (hh : CodeUnits html)
    (hc : CodeUnits css) (hj : CodeUnits js) :
    CodeUnits (stringifyDoc html css js) := by
  have happ : ∀ (a b : Str), CodeUnits a → CodeUnits b → CodeUnits (a ++ b) := by
    intro a b ha hb x hx
    rcases List.mem_append.mp hx with h2 | h2
    · exact ha x h2
    · exact hb x h2
  have hq : ∀ s, CodeUnits s → CodeUnits (quoteJSONString s) := by
    intro s hs x hx
    unfold quoteJSONString at hx
    simp only [List.mem_cons] at hx
    rcases hx with rfl | hx
    · omega
    · rcases List.mem_append.mp hx with h2 | h2
      · exact quoteBody_codeUnits s hs x h2
      · simp at h2
        omega
  unfold stringifyDoc
  repeat' apply happ
  all_goals
    first
    | exact hq _ hh
    | exact hq _ hc
    | exact hq _ hj
    | exact hq _ (by decide)
    | (intro x hx; simp at hx; omega)

theorem stringifyDoc_ne_nil (html css js : Str) : stringifyDoc html css js ≠ [] := by
  have h2 := stringifyDoc_length_ge html css js
  intro he
  rw [he] at h2
  simp at h2

/-! ## `decodeCode` on a successfully decompressed payload -/

theorem decodeCode_done (encoded data : Str) (hne : data ≠ [])
    (hdec : decompressFromEncodedURIComponent encoded = .done (some data)) :
    decodeCode encoded = jsonParse data := by
  rcases data with _ | ⟨d0, drest⟩
  · exact absurd rfl hne
  · cases hpv : parseValue (3 * (drest.length + 1) + 3) (skipWs (d0 :: drest)) with
    | ok v rest => simp [decodeCode, decodeCodeR, jsonParse, hdec, hpv]
    | err => simp [decodeCode, decodeCodeR, jsonParse, hdec, hpv]
    | out => simp [decodeCode, decodeCodeR, jsonParse, hdec, hpv]

/-- The composite: decoding a token of a Document — with any trailing junk —
returns that Document's JSON value. -/
theorem decodeCode_encode_junk (html css js junk : Str) (hh : CodeUnits html)
    (hc : CodeUnits css) (hj : CodeUnits js) :
    decodeCode (encodeCode html css js ++ junk) = some (docValue html css js) := by
  have hne := stringifyDoc_ne_nil html css js
  have hrt := lz_roundtrip (stringifyDoc html css js) hne
    (stringifyDoc_codeUnits html css js hh hc hj) junk
  rw [show encodeCode html css js =
    compressToEncodedURIComponent (stringifyDoc html css js) from rfl]
  rw [decodeCode_done _ _ hne hrt]
  exact jsonParse_stringifyDoc html css js hh hc hj

/-! ## The claims -/

/-- C1: for every Document — three arbitrary strings of UTF-16 code units,
each possibly empty and possibly containing RTL text, emoji, quotes, braces,
backslashes and newlines — decoding the token produced by encoding it returns
exactly the Document's JSON value, all three fields character-for-character
equal: `decodeCode (encodeCode html css js) = some {html, css, js}`. -/
theorem claim_C1 (html css js : Str) (hh : CodeUnits html) (hc : CodeUnits css)
    (hj : CodeUnits js) :
    decodeCode (encodeCode html css js) = some (docValue html css js) := by
  have h2 := decodeCode_encode_junk html css js [] hh hc hj
  rwa [List.append_nil] at h2

theorem claim_C1_witness :
    CodeUnits [] ∧ decodeCode (encodeCode [] [] []) = some (docValue [] [] []) :=
  ⟨by decide, claim_C1 [] [] [] (by decide) (by decide) (by decide)⟩

/-- C2: every character of every token produced by `encodeCode` lies in the
URL-fragment-safe alphabet (letters, digits, `+`, `-`), so no token needs
percent-encoding after `#`. -/
theorem claim_C2 (html css js : Str) :
    ∀ ch ∈ encodeCode html css js, UriFragmentSafe ch :=
  encodeCode_chars_safe html css js

set_option maxRecDepth 100000 in
set_option maxHeartbeats 2000000 in
theorem claim_C2_witness :
    78 ∈ encodeCode [] [] [] ∧ UriFragmentSafe 78 :=
  ⟨by decide, claim_C2 [] [] [] 78 (by decide)⟩

/-- C3 (amended): `decodeCode` is total on every input string whatsoever:
none of the explicit fuels of the model (the decompressor loop, the JSON
parser) can run out, so the source's loops terminate and `decodeCode` always
returns a value — some parsed JSON value, or `null` — and never escapes with
an unrecoverable fault. The result is however not restricted to "a valid
Document or an error value" (see `claim_C3_counterexample`). -/
theorem claim_C3 (encoded : Str) :
    ∃ r : Option JValue, decodeCodeR encoded = .ok r ∧ decodeCode encoded = r := by
  cases hr : decodeCodeR encoded with
  | ok r => exact ⟨r, rfl, by simp [decodeCode, hr]⟩
  | fuelOut => exact absurd hr (decodeCodeR_not_fuelOut encoded)

/-- C3, counterexample to the claim as written: `decodeCode` does not always
return "either a valid Document or an error value". The token of the payload
`42` decodes successfully — not to an error — to the JSON number `42`, which
is not a Document value for any choice of the three fields. -/
theorem claim_C3_counterexample :
    decodeCode (compressToEncodedURIComponent (utf16 "42")) =
      some (JValue.num (utf16 "42")) ∧
    decodeCode (compressToEncodedURIComponent (utf16 "42")) ≠ none ∧
    ∀ html css js : Str,
      decodeCode (compressToEncodedURIComponent (utf16 "42")) ≠
        some (docValue html css js) := by
  have hrt := lz_roundtrip (utf16 "42") (by decide) (by decide) []
  rw [List.append_nil] at hrt
  have h2 := decodeCode_done _ _ (by decide) hrt
  have e : jsonParse (utf16 "42") = some (JValue.num (utf16 "42")) := rfl
  rw [h2, e]
  refine ⟨rfl, by simp, ?_⟩
  intro html css js hcon
  rw [docValue] at hcon
  cases hcon

/-- C4 (amended): appending illegal trailing characters to a valid token
does not make `decodeCode` fail — the decompressor never reads past the
end-of-stream code, so the junk is ignored and the original Document is
returned unchanged: there is no `MalformedToken` rejection of a trailing-
garbage token. -/
theorem claim_C4 (html css js junk : Str) (hh : CodeUnits html)
    (hc : CodeUnits css) (hj : CodeUnits js) :
    decodeCode (encodeCode html css js ++ junk) = some (docValue html css js) :=
  decodeCode_encode_junk html css js junk hh hc hj

theorem claim_C4_witness :
    CodeUnits [] ∧
      decodeCode (encodeCode [] [] [] ++ [33]) = some (docValue [] [] []) :=
  ⟨by decide, claim_C4 [] [] [] [33] (by decide) (by decide) (by decide)⟩

/-- C4, counterexample to the claim as written: for the claim's own scenario
Document `{markup: "<p>hi</p>", style: "p{color:red}", script:
"console.log(1)"}`, appending the illegal character `!` (code 33) to the
token does NOT yield an error — `decodeCode` returns the identical Document,
not `null`. -/
theorem claim_C4_counterexample :
    decodeCode (encodeCode (utf16 "<p>hi</p>") (utf16 "p\x7bcolor:red\x7d")
        (utf16 "console.log(1)") ++ [33]) =
      some (docValue (utf16 "<p>hi</p>") (utf16 "p\x7bcolor:red\x7d")
        (utf16 "console.log(1)")) ∧
    decodeCode (encodeCode (utf16 "<p>hi</p>") (utf16 "p\x7bcolor:red\x7d")
        (utf16 "console.log(1)") ++ [33]) ≠ none := by
  have h2 := decodeCode_encode_junk (utf16 "<p>hi</p>") (utf16 "p\x7bcolor:red\x7d")
    (utf16 "console.log(1)") [33] (by decide) (by decide) (by decide)
  exact ⟨h2, by rw [h2]; simp⟩

/-- C5 (amended): `decodeCode` applies no structural validation to the
decompressed payload — it returns whatever JSON value `JSON.parse` yields.
For every nonempty payload, decoding the payload's token gives exactly
`jsonParse payload`, whether or not that value has the three string fields of
a Document. -/
theorem claim_C5 (s : Str) (hcu : CodeUnits s) (hne : s ≠ []) :
    decodeCode (compressToEncodedURIComponent s) = jsonParse s := by
  have hrt := lz_roundtrip s hne hcu []
  rw [List.append_nil] at hrt
  exact decodeCode_done _ _ hne hrt

theorem claim_C5_witness :
    CodeUnits (utf16 "true") ∧ utf16 "true" ≠ [] ∧
      decodeCode (compressToEncodedURIComponent (utf16 "true")) =
        jsonParse (utf16 "true") :=
  ⟨by decide, by decide, claim_C5 _ (by decide) (by decide)⟩

/-- C5, counterexample to the claim as written: the token of the payload
`true` — a valid JSON text that does not match the structural grammar of
`serialize`'s output (no object, no fields) — is not rejected with a
`MalformedPayload` error: `decodeCode` returns `some true`, a decode result
with no `markup`/`style`/`script` fields at all. -/
theorem claim_C5_counterexample :
    decodeCode (compressToEncodedURIComponent (utf16 "true")) =
      some (JValue.bool true) ∧
    decodeCode (compressToEncodedURIComponent (utf16 "true")) ≠ none := by
  have hrt := lz_roundtrip (utf16 "true") (by decide) (by decide) []
  rw [List.append_nil] at hrt
  have h2 := decodeCode_done _ _ (by decide) hrt
  rw [h2]
  have e : jsonParse (utf16 "true") = some (JValue.bool true) := rfl
  exact ⟨e, by rw [e]; simp⟩

/-- C6: encoding is deterministic — `encodeCode` is a pure function of its
three field strings, so any two calls on equal inputs yield identical
tokens; no randomness, timestamps or external state enter the result. -/
theorem claim_C6 (h1 c1 j1 h2 c2 j2 : Str) (hh : h1 = h2) (hc : c1 = c2)
    (hj : j1 = j2) :
    encodeCode h1 c1 j1 = encodeCode h2 c2 j2 := by
  rw [hh, hc, hj]

theorem claim_C6_witness :
    ([] : Str) = [] ∧ ([97] : Str) = [97] ∧ ([98] : Str) = [98] ∧
      encodeCode [] [97] [98] = encodeCode [] [97] [98] :=
  ⟨rfl, rfl, rfl, claim_C6 [] [97] [98] [] [97] [98] rfl rfl rfl⟩

/-- C7: the preview-only link's fragment is exactly `view/` followed by the
very same token the editor link carries; the loader strips the prefix, so
both links decode to the same value and only the reported mode flag differs.
The flag is carried positionally in the fragment, not inside the token. -/
theorem claim_C7 (html css js : Str) :
    fragmentOf true html css js = utf16 "view/" ++ encodeCode html css js ∧
    fragmentOf false html css js = encodeCode html css js ∧
    (loadFromHash (fragmentOf true html css js)).1 =
      (loadFromHash (fragmentOf false html css js)).1 ∧
    (loadFromHash (fragmentOf true html css js)).2 = true ∧
    (loadFromHash (fragmentOf false html css js)).2 = false := by
  refine ⟨rfl, by simp [fragmentOf], ?_, ?_, ?_⟩
  · rw [loadFromHash_view, loadFromHash_editor]
  · rw [loadFromHash_view]
  · rw [loadFromHash_editor]

/-- C9: the serialized intermediate string carries exactly the three field
values, each escaped by `quoteBody`, in one fixed order — markup (`html`)
first, then style (`css`), then script (`js`) — between fixed literal
delimiters. -/
theorem claim_C9 (html css js : Str) :
    stringifyDoc html css js =
      utf16 "\x7b\"html\":\"" ++ quoteBody html ++ utf16 "\",\"css\":\"" ++
        quoteBody css ++ utf16 "\",\"js\":\"" ++ quoteBody js ++ utf16 "\"\x7d" := by
  have e1 : utf16 "\x7b\"html\":\"" = [123, 34, 104, 116, 109, 108, 34, 58, 34] := by
    decide
  have e2 : utf16 "\",\"css\":\"" = [34, 44, 34, 99, 115, 115, 34, 58, 34] := by decide
  have e3 : utf16 "\",\"js\":\"" = [34, 44, 34, 106, 115, 34, 58, 34] := by decide
  have e4 : utf16 "\"\x7d" = [34, 125] := by decide
  have e5 : quoteBody (utf16 "html") = [104, 116, 109, 108] := by decide
  have e6 : quoteBody (utf16 "css") = [99, 115, 115] := by decide
  have e7 : quoteBody (utf16 "js") = [106, 115] := by decide
  rw [e1, e2, e3, e4]
  unfold stringifyDoc quoteJSONString
  rw [e5, e6, e7]
  simp

/-- C10 (implicit): the token never contains `/`, so an editor link's
fragment can never begin with `view/`; the loader's prefix test therefore
classifies the mode unambiguously and recovers the token exactly for both
kinds of generated link. -/
theorem claim_C10 (html css js : Str) :
    47 ∉ encodeCode html css js ∧
    (utf16 "view/").isPrefixOf (encodeCode html css js) = false ∧
    loadFromHash (fragmentOf true html css js) =
      (decodeCode (encodeCode html css js), true) ∧
    loadFromHash (fragmentOf false html css js) =
      (decodeCode (encodeCode html css js), false) :=
  ⟨encodeCode_no_slash html css js, view_not_prefix_encode html css js,
   loadFromHash_view html css js, loadFromHash_editor html css js⟩

set_option maxRecDepth 400000 in
/-- C8 (amended): the repository's default buffers do not total 1,500
characters — they total 1,688 UTF-16 code units — and the compression stage
does beat identity re-encoding on typical repetitive markup: the Document
whose markup is `<p>hi</p>` repeated 34 times (306 code units, empty style
and script) encodes to a token of 120 characters, far shorter than the
Document itself. -/
theorem claim_C8 :
    DEFAULT_HTML.length + DEFAULT_CSS.length + DEFAULT_JS.length = 1688 ∧
    c8doc.length = 306 ∧
    (encodeCode c8doc [] []).length = 120 ∧
    (encodeCode c8doc [] []).length < c8doc.length := by
  refine ⟨by decide, by decide, ?_, ?_⟩
  · rw [c8_token]
    rfl
  · rw [c8_token]
    decide

set_option maxRecDepth 400000 in
/-- C8, counterexample to the claim as written: the spec's example Document —
the repository's default HTML/CSS/JS buffers — does not have fields totaling
1,500 characters: they total 1,688 UTF-16 code units. -/
theorem claim_C8_counterexample :
    DEFAULT_HTML.length + DEFAULT_CSS.length + DEFAULT_JS.length = 1688 ∧
    DEFAULT_HTML.length + DEFAULT_CSS.length + DEFAULT_JS.length ≠ 1500 := by
  constructor
  · decide
  · decide

end CodeShare
